import Mathlib

/-!
# EuroStep firmware: a verification development

Shallow embedding of the core routines of the EuroStep synthesizer firmware
(`chips/mcp4822.h`, `backend/read_funcs.h`, `add_ons/quantize_voltage.h`,
`EuroStep.h`, `modules/Playback.h`) together with theorems about them.

Conventions of the embedding.

* C `int` / `long` values are Lean `Int`, without wrap-around.  In the frame
  encoder the largest value formed is `4096 * 4095`, inside the 32-bit `long`
  range; the other routines add and compare values of the size of their
  inputs (millivolts in the range of the module, pin numbers, counters).
  `quantize_voltage` leaves the `int` range in the top octave of that range;
  `quantize_voltage_wrapped` takes its `int` arithmetic in a fixed width.
* `float` computations (`quantize_voltage`) are taken over exact rationals.
* C division and remainder truncate toward zero: `Int.tdiv`, `Int.tmod`.
* An array handed over as a pointer (`bool data[16]`, `int read_history[8]`,
  `bool SCALE[12]`) is the memory seen from that pointer: a function from
  the cell index to the cell content.  The declared extent is the first
  `n` cells; a cell outside it is whatever memory follows the array, so an
  access outside the extent is visible as a dependency on those cells.
* Calls into the board (`digitalWrite`, `delayMicroseconds`) are recorded
  in a trace; `Serial` debugging output is not modelled.
* The user hooks (`on_clock_rise_do`, ...) are recorded by name: the base
  class bodies are empty.  Where a derived program matters (`start`, `step`)
  the hook bodies are state transformers (`Hooks`).
* A routine that can divide by zero or fail an assertion returns an `Option`
  or carries an `aborted` flag.
-/

namespace Rasa

/-! ## chips/mcp4822.h -/

/-- Modelled from the spec: `power_int` is declared in `backend/backend.h`,
which is not part of the sources at hand.  The frame layout "bits 4-15 = the
12-bit code, most-significant bit first" fixes it as exact integer
exponentiation. -/
def power_int (base : Int) (exponent : Nat) : Int := base ^ exponent

/-- Modelled from the spec: `power_long` is declared in `backend/backend.h`,
which is not part of the sources at hand; exact integer exponentiation on
`long`, as for `power_int`. -/
def power_long (base : Int) (exponent : Nat) : Int := base ^ exponent

/-- Conversion of a C integer to `bool`: every non-zero value is `true`. -/
def toBool (x : Int) : Bool := decide (x ≠ 0)

/-- The loop `for (int i = 11; i > -1; i--)` of `update_dac_code`, with
`n` iterations left (the next one runs with `i = n - 1`).  Returns the frame
and the remaining `dacCode`. -/
def write_code_bits : Nat → (Nat → Bool) → Int → (Nat → Bool) × Int
  | 0, data, dacCode => (data, dacCode)
  | i + 1, data, dacCode =>
    let base := power_int 2 i
    let index := 11 - i + 4
    write_code_bits i (Function.update data index (toBool (Int.tdiv dacCode base)))
      (Int.tmod dacCode base)

/-- The frame encoder `update_dac_code(data, outVolt, channel)`; the result
is the content of `data` on return. -/
def update_dac_code (data : Nat → Bool) (outVolt : Int) (channel : Bool) : Nat → Bool :=
  let outVolt := if outVolt < 0 then 0 else outVolt
  let outVolt := if outVolt > 4095 then 4095 else outVolt
  let data := Function.update data 0 channel
  let gain : Int := if outVolt > 2048 then 2 else 1
  let data := Function.update data 2 (if outVolt > 2048 then false else true)
  let data := Function.update data 3 true
  let long_base := power_long 2 12
  let dacCode := Int.tdiv (Int.tdiv (long_base * outVolt) gain) 2048
  (write_code_bits 12 data dacCode).1

/-- Value of the `n` bits `data[lo], ..., data[lo + n - 1]`, most significant
bit first. -/
def bits_value (data : Nat → Bool) : Nat → Nat → Int
  | _, 0 => 0
  | lo, n + 1 => (if data lo then 1 else 0) * 2 ^ n + bits_value data (lo + 1) n

/-- The 12-bit payload carried by `data[4..15]`. -/
def payload (data : Nat → Bool) : Int := bits_value data 4 12

/-- The 16 cells of a frame as a list. -/
def frame_bits (data : Nat → Bool) : List Bool := (List.range 16).map data

/-! ## EuroStep.h: the class state -/

/-- The overridable hooks of the class, recorded when invoked. -/
inductive Hook
  | on_start_do
  | on_clock_rise_do
  | on_clock_fall_do
  | on_clock_rise_2_do
  | on_clock_fall_2_do
  | on_step_do
  deriving DecidableEq, Repr

/-- A call into the board support library. -/
inductive BoardCall
  | digitalWrite (pin : Int) (value : Int)
  | delayMicroseconds (us : Int)
  deriving DecidableEq, Repr

/-- The members of class `EuroStep` that the routines below read or write.
The fields in capitals are the macros of the hardware table the class is compiled
against.  Members without an initialiser in the source have none here.  The array
`input_history[NUMBER_OF_INPUTS][8]` is laid out row after row: the history of
input `i` occupies the cells `8 * i, ..., 8 * i + 7`. -/
structure EuroStep where
  NUMBER_OF_OUTPUTS : Nat
  input_values : Nat → Int
  output_values_old : Nat → Int
  output_values : Nat → Int
  dac_code : Nat → Bool
  dac_event : Int
  output_mode_is_analog : Nat → Bool
  pins_output : Nat → Int
  pins_dac_a : Nat → Int
  pins_dac_b : Nat → Int
  clock_input : Int := -1
  current_state_is_high : Bool
  last_state_is_low : Bool := true
  clock_input_2 : Int := -1
  current_state_is_high_2 : Bool
  last_state_is_low_2 : Bool := true
  NUMBER_OF_INPUTS : Nat
  NUMBER_OF_POTS : Nat
  NUMBER_OF_SWITCHES : Nat
  V_DIVIDER_R1 : Int
  V_DIVIDER_R2 : Int
  MAX_POT_VOLTAGE : Int
  REVERSE_POT : Bool
  input_history : Nat → Int
  pot_values : Nat → Int
  switch_values : Nat → Bool
  debug : Bool := true
  input_is_true_threshold : Int := 500
  input_mode_is_analog : Nat → Bool := fun _ => false
  pins_input : Nat → Int
  pins_pot : Nat → Int
  pins_switch : Nat → Int

/-- The method `run_clock_events()`: the state on return and the hooks it
invoked, in order. -/
def EuroStep.run_clock_events (s : EuroStep) : EuroStep × List Hook :=
  if s.clock_input > -1 then
    let s := { s with current_state_is_high := toBool (s.input_values s.clock_input.toNat) }
    let r1 : EuroStep × List Hook :=
      if s.current_state_is_high && s.last_state_is_low then
        ({ s with last_state_is_low := false }, [Hook.on_clock_rise_do])
      else (s, [])
    let s := r1.1
    let r2 : EuroStep × List Hook :=
      if !s.current_state_is_high && !s.last_state_is_low then
        ({ s with last_state_is_low := true }, [Hook.on_clock_fall_do])
      else (s, [])
    (r2.1, r1.2 ++ r2.2)
  else (s, [])

/-- One cycle of a clock channel: the boolean level read on the clock input is
stored in `input_values[clock_input]` (as `read_inputs` stores the `bool` of
`read_analog_bool` into the `int` array), then `run_clock_events()` runs. -/
def EuroStep.clock_cycle (s : EuroStep) (level : Bool) : EuroStep × List Hook :=
  EuroStep.run_clock_events
    { s with input_values :=
        Function.update s.input_values s.clock_input.toNat (if level then 1 else 0) }

/-- The hooks invoked in each of a sequence of cycles fed with `levels`. -/
def EuroStep.clock_cycles (s : EuroStep) : List Bool → List (List Hook)
  | [] => []
  | level :: levels =>
    (s.clock_cycle level).2 :: EuroStep.clock_cycles (s.clock_cycle level).1 levels

/-- Number of low-to-high transitions of a level sequence, `prev` being the
level before its first sample. -/
def rising_transitions : Bool → List Bool → Nat
  | _, [] => 0
  | prev, level :: levels =>
    (if !prev && level then 1 else 0) + rising_transitions level levels

/-- The hooks one cycle is expected to invoke when the previous level was
`prev` and the current one is `level`. -/
def edge_hooks (prev level : Bool) : List Hook :=
  if level && !prev then [Hook.on_clock_rise_do]
  else if !level && prev then [Hook.on_clock_fall_do]
  else []

/-- The per-cycle hooks expected for a level sequence preceded by `prev`. -/
def edge_hooks_seq : Bool → List Bool → List (List Hook)
  | _, [] => []
  | prev, level :: levels => edge_hooks prev level :: edge_hooks_seq level levels

/-- A hook trace alternates between rise and fall; `high` tells that the next
hook due is a fall. -/
def Alternating : Bool → List Hook → Prop
  | _, [] => True
  | high, h :: t =>
    h = (if high then Hook.on_clock_fall_do else Hook.on_clock_rise_do) ∧ Alternating (!high) t

/-- A module as set up in the example of the class header on the `rasa3x2`
hardware table: two outputs, both analog, input 0 tracked as the clock. -/
def rasa3x2_module : EuroStep where
  NUMBER_OF_OUTPUTS := 2
  input_values := fun _ => 0
  output_values_old := fun _ => 0
  output_values := fun _ => 0
  dac_code := fun _ => false
  dac_event := 0
  output_mode_is_analog := fun i => decide (i < 2)
  pins_output := fun _ => -1
  pins_dac_a := fun i => 4 + (i : Int)
  pins_dac_b := fun _ => -1
  clock_input := 0
  current_state_is_high := false
  clock_input_2 := 1
  current_state_is_high_2 := false
  NUMBER_OF_INPUTS := 2
  NUMBER_OF_POTS := 6
  NUMBER_OF_SWITCHES := 4
  V_DIVIDER_R1 := 220
  V_DIVIDER_R2 := 150
  MAX_POT_VOLTAGE := 5000
  REVERSE_POT := true
  input_history := fun _ => 0
  pot_values := fun _ => 0
  switch_values := fun _ => false
  pins_input := fun i => if i = 0 then 14 else 21
  pins_pot := fun i => [16, 20, 19, 15, 17, 18].getD i 0
  pins_switch := fun i => [12, 11, 10, 9].getD i 0

/-! ## backend/read_funcs.h -/

/-- The loop `for (int i = 0; i < 8; i++) read_history[i] = read_history[i + 1];`
with `n` iterations left and loop counter `i`.  Its last iteration reads
`read_history[8]`, the cell after the 8 history slots. -/
def shift_history : Nat → Nat → (Nat → Int) → (Nat → Int)
  | 0, _, read_history => read_history
  | n + 1, i, read_history =>
    shift_history n (i + 1) (Function.update read_history i (read_history (i + 1)))

/-- The loop `for (int i = 0; i < 8; i++) incoming_cv = incoming_cv + read_history[i];`
with `n` iterations left and loop counter `i`. -/
def sum_history : Nat → Nat → (Nat → Int) → Int → Int
  | 0, _, _, incoming_cv => incoming_cv
  | n + 1, i, read_history, incoming_cv =>
    sum_history n (i + 1) read_history (incoming_cv + read_history i)

/-- The routine `read_analog_mV_smooth(pin_in, read_history, r1, r2)`.  `reading` is
the value that the call `read_analog_mV(pin_in, r1, r2)` leaves in the `int` slot
`read_history[7]` (the conditioned reading, truncated to an integer).  Returns the
content of `read_history` on return and the returned average. -/
def read_analog_mV_smooth (reading : Int) (read_history : Nat → Int) : (Nat → Int) × Int :=
  let read_history := shift_history 8 0 read_history
  let read_history := Function.update read_history 7 reading
  let incoming_cv := sum_history 8 0 read_history 0
  (read_history, Int.tdiv incoming_cv 8)

/-- Consecutive calls of `read_analog_mV_smooth` on one channel, one per reading:
the history after the last call and the value it returned (`last` when there is no
call). -/
def smooth_calls (read_history : Nat → Int) (last : Int) : List Int → (Nat → Int) × Int
  | [] => (read_history, last)
  | reading :: readings =>
    smooth_calls (read_analog_mV_smooth reading read_history).1
      (read_analog_mV_smooth reading read_history).2 readings

/-! ## add_ons/quantize_voltage.h

The `float` computations are taken over exact rationals, the literal `83.3333`
being the rational `833333 / 10000`. -/

/-- Conversion of a floating value to `int`: truncation toward zero. -/
def c_trunc (x : ℚ) : Int := if 0 ≤ x then ⌊x⌋ else ⌈x⌉

/-- The function `round(x)`: the nearest integer, halves away from zero. -/
def c_round (x : ℚ) : Int := if 0 ≤ x then c_trunc (x + 1 / 2) else c_trunc (x - 1 / 2)

/-- The loop `for (int i = 0; i < 12; i++) number_of_switches += SCALE[i];` with
`n` iterations left and loop counter `i`. -/
def count_switches : Nat → Int → (Int → Bool) → Int → Int
  | 0, _, _, number_of_switches => number_of_switches
  | n + 1, i, SCALE, number_of_switches =>
    count_switches n (i + 1) SCALE (number_of_switches + (if SCALE i then 1 else 0))

/-- The variables of the search loop of `quantize_voltage`, with two records kept
for the analysis: how often the widening branch has run and which cells of `SCALE`
have been read. -/
structure Search where
  floortone : Int
  ceiltone : Int
  octave_shift_f : Int
  octave_shift_c : Int
  widenings : Nat
  reads : List Int
  deriving DecidableEq, Repr

/-- The last branch of the search loop ("if neither note is in scale, look
beyond" by one semi-tone): both bounds move outward by one tone, each with its wrap-around
test; the cells just read are recorded. -/
def Search.widen (st : Search) : Search :=
  let floortone := st.floortone - 1
  let low : Int × Int :=
    if floortone = -1 then (11, st.octave_shift_f - 1) else (floortone, st.octave_shift_f)
  let ceiltone := st.ceiltone + 1
  let high : Int × Int :=
    if ceiltone = 12 then (0, st.octave_shift_c + 1) else (ceiltone, st.octave_shift_c)
  ⟨low.1, high.1, low.2, high.2, st.widenings + 1, st.reads ++ [st.floortone, st.ceiltone]⟩

/-- What the search loop leaves behind when it exits through a `break`. -/
structure Found where
  outTone : Int
  octave_shift : Int
  widenings : Nat
  reads : List Int
  deriving DecidableEq, Repr

/-- The loop `while (outTone == 99) { ... }` of `quantize_voltage`, run for at most
`fuel` iterations; `none` when the fuel runs out before a `break`. -/
def quantize_search (SCALE : Int → Bool) (residTones : ℚ) : Nat → Search → Option Found
  | 0, _ => none
  | fuel + 1, st =>
    let reads := st.reads ++ [st.floortone, st.ceiltone]
    if SCALE st.floortone == true && SCALE st.ceiltone == false then
      some ⟨st.floortone, st.octave_shift_f, st.widenings, reads⟩
    else if SCALE st.floortone == false && SCALE st.ceiltone == true then
      some ⟨st.ceiltone, st.octave_shift_c, st.widenings, reads⟩
    else if SCALE st.floortone == true && SCALE st.ceiltone == true then
      if c_round residTones = ⌊residTones⌋ then
        some ⟨st.floortone, st.octave_shift_f, st.widenings, reads⟩
      else
        some ⟨st.ceiltone, st.octave_shift_c, st.widenings, reads⟩
    else
      quantize_search SCALE residTones fuel st.widen

/-- The outcome of one call of `quantize_voltage`: the returned voltage, whether the
search loop was entered, and the records of the search. -/
structure Quantized where
  new_mV : Int
  loop_entered : Bool
  widenings : Nat
  reads : List Int
  deriving DecidableEq, Repr

/-- The routine `quantize_voltage(mV, SCALE)` with the search loop bounded by `fuel`
iterations (`none`: the loop is still running after `fuel` iterations).  The `int`
values are taken without wrap-around; `quantize_voltage_wrapped` is the routine on an
`int` of fixed width, which returns the same voltage wherever that voltage fits the
`int`. -/
def quantize_voltage_run (fuel : Nat) (mV : Int) (SCALE : Int → Bool) : Option Quantized :=
  let number_of_switches := count_switches 12 0 SCALE 0
  if number_of_switches = 0 then some ⟨mV, false, 0, []⟩
  else
    let residVolts := Int.tmod mV 1000
    let residTones : ℚ := residVolts / 83.3333
    let floortone := ⌊residTones⌋
    let ceiltone := floortone + 1
    match quantize_search SCALE residTones fuel ⟨floortone, ceiltone, 0, 0, 0, []⟩ with
    | none => none
    | some found =>
      let base_volts := Int.tdiv mV 1000
      let new_mV := c_trunc (((base_volts * 1000 + found.octave_shift * 1000 : Int) : ℚ)
        + (found.outTone : ℚ) * 83.3333)
      some ⟨new_mV, true, found.widenings, found.reads⟩

/-- The value returned by `quantize_voltage(mV, SCALE)`. -/
def quantize_voltage (fuel : Nat) (mV : Int) (SCALE : Int → Bool) : Option Int :=
  (quantize_voltage_run fuel mV SCALE).map Quantized.new_mV

/-- The search loop with the test `round(residTones) == floor(residTones)` handed
over as a flag; integer-only companion of `quantize_search`, proved equal to it in
`quantize_search_eq_int`. -/
def quantize_search_int (SCALE : Int → Bool) (round_is_floor : Bool) :
    Nat → Search → Option Found
  | 0, _ => none
  | fuel + 1, st =>
    let reads := st.reads ++ [st.floortone, st.ceiltone]
    if SCALE st.floortone == true && SCALE st.ceiltone == false then
      some ⟨st.floortone, st.octave_shift_f, st.widenings, reads⟩
    else if SCALE st.floortone == false && SCALE st.ceiltone == true then
      some ⟨st.ceiltone, st.octave_shift_c, st.widenings, reads⟩
    else if SCALE st.floortone == true && SCALE st.ceiltone == true then
      if round_is_floor then
        some ⟨st.floortone, st.octave_shift_f, st.widenings, reads⟩
      else
        some ⟨st.ceiltone, st.octave_shift_c, st.widenings, reads⟩
    else
      quantize_search_int SCALE round_is_floor fuel st.widen

/-- The value of `round(residVolts / 83.3333)` in integer arithmetic. -/
def round_tones_int (residVolts : Int) : Int :=
  if 0 ≤ residVolts then Int.tdiv (residVolts * 20000 + 833333) 1666666
  else Int.tdiv (residVolts * 20000 - 833333) 1666666

/-- Integer-only companion of `quantize_voltage_run`, proved equal to it in
`quantize_voltage_run_eq_int`; it is the form on which concrete calls are
evaluated. -/
def quantize_voltage_run_int (fuel : Nat) (mV : Int) (SCALE : Int → Bool) :
    Option Quantized :=
  let number_of_switches := count_switches 12 0 SCALE 0
  if number_of_switches = 0 then some ⟨mV, false, 0, []⟩
  else
    let residVolts := Int.tmod mV 1000
    let floortone := residVolts * 10000 / 833333
    let ceiltone := floortone + 1
    match quantize_search_int SCALE (decide (round_tones_int residVolts = floortone)) fuel
        ⟨floortone, ceiltone, 0, 0, 0, []⟩ with
    | none => none
    | some found =>
      let base_volts := Int.tdiv mV 1000
      let new_mV := Int.tdiv
        ((base_volts * 1000 + found.octave_shift * 1000) * 10000 + found.outTone * 833333) 10000
      some ⟨new_mV, true, found.widenings, found.reads⟩

/-- The scale that enables tone 0 only, followed in memory by zero bytes. -/
def root_only : Int → Bool := fun i => decide (i = 0)

/-- The scale that enables tone 0 only, followed in memory by a non-zero byte. -/
def root_only_then_set : Int → Bool := fun i => decide (i = 0 ∨ i = 12)

/-- A scale with all 12 tones disabled; the memory around it is `around`. -/
def empty_scale (around : Int → Bool) : Int → Bool :=
  fun i => if 0 ≤ i ∧ i < 12 then false else around i

/-! ## EuroStep.h: writing the outputs -/

/-- The pin level `LOW`. -/
def LOW : Int := 0

/-- The pin level `HIGH`. -/
def HIGH : Int := 1

/-- The loop `for (int i = 0; i < 16; i++)` of `write_dac_code` with `n` iterations
left and loop counter `i`: the data pin is set to `data[i]`, then the clock pin is
pulsed. -/
def clock_out_bits : Nat → Nat → (Nat → Bool) → Int → Int → List BoardCall
  | 0, _, _, _, _ => []
  | n + 1, i, data, pin_sck, pin_sdi =>
    BoardCall.digitalWrite pin_sdi (if data i == true then HIGH else LOW) ::
    BoardCall.digitalWrite pin_sck HIGH ::
    BoardCall.digitalWrite pin_sck LOW ::
    clock_out_bits n (i + 1) data pin_sck pin_sdi

/-- The routine `write_dac_code(data, pin_cs, pin_sck, pin_sdi, pin_ldac)`: the board
calls it makes, in order. -/
def write_dac_code (data : Nat → Bool) (pin_cs pin_sck pin_sdi pin_ldac : Int) :
    List BoardCall :=
  [BoardCall.digitalWrite pin_cs LOW]
    ++ clock_out_bits 16 0 data pin_sck pin_sdi
    ++ [BoardCall.digitalWrite pin_cs HIGH]
    ++ (if pin_ldac > -1 then
          [BoardCall.digitalWrite pin_ldac LOW, BoardCall.digitalWrite pin_ldac HIGH]
        else [])
    ++ [BoardCall.delayMicroseconds 1]

/-- The body of the loop of `write_outputs()` for output `i`: the state after it and
the board calls it made; `none` when `assert(dac_event <= 4)` fails, which aborts
the program. -/
def EuroStep.write_output (s : EuroStep) (i : Nat) : Option (EuroStep × List BoardCall) :=
  if s.output_mode_is_analog i then
    let s := { s with dac_event := s.dac_event + 1 }
    if s.dac_event ≤ 4 then
      if s.output_values i ≠ s.output_values_old i then
        let s :=
          if s.dac_event = 1 ∨ s.dac_event = 3 then
            { s with dac_code := update_dac_code s.dac_code (s.output_values i) false }
          else
            { s with dac_code := update_dac_code s.dac_code (s.output_values i) true }
        let calls :=
          if s.dac_event = 1 ∨ s.dac_event = 2 then
            write_dac_code s.dac_code (s.pins_dac_a 0) (s.pins_dac_a 1) (s.pins_dac_a 2)
              (s.pins_dac_a 3)
          else
            write_dac_code s.dac_code (s.pins_dac_b 0) (s.pins_dac_b 1) (s.pins_dac_b 2)
              (s.pins_dac_b 3)
        some ({ s with output_values_old :=
                  Function.update s.output_values_old i (s.output_values i) }, calls)
      else
        some ({ s with output_values_old :=
                  Function.update s.output_values_old i (s.output_values i) }, [])
    else none
  else
    let calls :=
      if s.output_values i ≠ s.output_values_old i then
        [BoardCall.digitalWrite (s.pins_output i) (s.output_values i)]
      else []
    some ({ s with output_values_old :=
              Function.update s.output_values_old i (s.output_values i) }, calls)

/-- What one call of `write_outputs()` does: the state it leaves, for each output
handled the board calls made for it, and whether the assertion aborted the call. -/
structure OutputsRun where
  state : EuroStep
  trace : List (Nat × List BoardCall)
  aborted : Bool

/-- All board calls of a run, in order. -/
def OutputsRun.board_calls (r : OutputsRun) : List BoardCall :=
  (r.trace.map Prod.snd).flatten

/-- The loop `for (int i = 0; i < NUMBER_OF_OUTPUTS; i++)` of `write_outputs()` with
`n` iterations left and loop counter `i`. -/
def EuroStep.write_outputs_loop : Nat → Nat → EuroStep → List (Nat × List BoardCall) →
    OutputsRun
  | 0, _, s, trace => ⟨s, trace, false⟩
  | n + 1, i, s, trace =>
    match s.write_output i with
    | none => ⟨s, trace, true⟩
    | some r => EuroStep.write_outputs_loop n (i + 1) r.1 (trace ++ [(i, r.2)])

/-- The method `write_outputs()`. -/
def EuroStep.write_outputs (s : EuroStep) : OutputsRun :=
  EuroStep.write_outputs_loop s.NUMBER_OF_OUTPUTS 0 { s with dac_event := 0 } []

/-- Number of outputs in analog mode among the outputs `i, ..., i + n - 1`. -/
def analog_count (mode : Nat → Bool) (i n : Nat) : Nat :=
  ((List.range' i n).filter mode).length

/-- The board calls `calls` are the hardware write of output `i` in state `s`: one
`digitalWrite` of the output pin for a digital output, the transfer of a frame that
encodes `output_values[i]` on the pins of one of the two DAC chips for an analog
output. -/
def IsChannelWrite (s : EuroStep) (i : Nat) (calls : List BoardCall) : Prop :=
  if s.output_mode_is_analog i then
    ∃ (code : Nat → Bool) (channel : Bool) (pins : Nat → Int),
      (pins = s.pins_dac_a ∨ pins = s.pins_dac_b) ∧
      calls = write_dac_code (update_dac_code code (s.output_values i) channel)
        (pins 0) (pins 1) (pins 2) (pins 3)
  else calls = [BoardCall.digitalWrite (s.pins_output i) (s.output_values i)]

/-- The module `rasa3x2_module` after a hook has asked for 1200 mV on output 0. -/
def rasa3x2_changed : EuroStep :=
  { rasa3x2_module with output_values := fun i => if i = 0 then 1200 else 0 }

/-- No tone is enabled at the positions strictly between `F` and `C`, a position `P`
standing for the tone `P % 12` (of the octave `P / 12`). -/
def Clear (SCALE : Int → Bool) (F C : Int) : Prop :=
  ∀ P : Int, F < P → P < C → SCALE (P % 12) = false

/-- The invariant of the search loop after `k` widenings when it started at
`floortone = f0`: both bounds are tones of the scale, together with their octave
shifts they stand at the positions `f0 - k` and `f0 + 1 + k`, nothing between them is
enabled, and only cells of the scale have been read. -/
structure SearchInv (SCALE : Int → Bool) (f0 : Int) (k : Nat) (st : Search) : Prop where
  widenings : st.widenings = k
  floor_lo : 0 ≤ st.floortone
  floor_hi : st.floortone ≤ 11
  ceil_lo : 0 ≤ st.ceiltone
  ceil_hi : st.ceiltone ≤ 11
  floor_pos : st.floortone + 12 * st.octave_shift_f = f0 - k
  ceil_pos : st.ceiltone + 12 * st.octave_shift_c = f0 + 1 + k
  clear : Clear SCALE (f0 - k) (f0 + 1 + k)
  reads : ∀ r ∈ st.reads, 0 ≤ r ∧ r ≤ 11

/-- What the search loop guarantees on exit when it started at `floortone = f0` with
`f0 + 1` a tone of the scale: the chosen tone is an enabled tone of the scale, found
after `k ≤ 5` widenings at one of the two bounds `f0 - k`, `f0 + 1 + k`, nothing
between the bounds is enabled, and the other bound is taken into account through the
rounding flag. -/
structure SearchPost (SCALE : Int → Bool) (flag : Bool) (f0 : Int) (found : Found) : Prop where
  widenings : found.widenings ≤ 5
  tone_lo : 0 ≤ found.outTone
  tone_hi : found.outTone ≤ 11
  enabled : SCALE found.outTone = true
  reads : ∀ r ∈ found.reads, 0 ≤ r ∧ r ≤ 11
  clear : Clear SCALE (f0 - found.widenings) (f0 + 1 + found.widenings)
  choice :
    (found.outTone + 12 * found.octave_shift = f0 - found.widenings ∧
      (SCALE ((f0 + 1 + found.widenings) % 12) = true → flag = true)) ∨
    (found.outTone + 12 * found.octave_shift = f0 + 1 + found.widenings ∧
      (SCALE ((f0 - found.widenings) % 12) = true → flag = false))

/-- The clamping at the head of `update_dac_code` ("set ceiling and floor for
voltage"): the value of `outVolt` after the two `if` statements. -/
def clamp_outVolt (outVolt : Int) : Int :=
  let outVolt := if outVolt < 0 then 0 else outVolt
  if outVolt > 4095 then 4095 else outVolt

/-- The value `dacCode` that `update_dac_code` hands to its bit loop. -/
def dac_code_value (outVolt : Int) : Int :=
  let outVolt := clamp_outVolt outVolt
  let gain : Int := if outVolt > 2048 then 2 else 1
  let long_base := power_long 2 12
  Int.tdiv (Int.tdiv (long_base * outVolt) gain) 2048

/-- The output voltage, in millivolts, that a frame stands for on the MCP4822 with
its 2.048 V reference: the payload when `data[2] = 0` (gain stage on), half the
payload when `data[2] = 1`. -/
def frame_millivolts (data : Nat → Bool) : ℚ :=
  if data 2 then (payload data : ℚ) / 2 else (payload data : ℚ)

/-! ## EuroStep.h: the second clock -/

/-- The method `run_clock_events_2()`: the state on return and the hooks it invoked,
in order. -/
def EuroStep.run_clock_events_2 (s : EuroStep) : EuroStep × List Hook :=
  if s.clock_input_2 > -1 then
    let s :=
      { s with current_state_is_high_2 := toBool (s.input_values s.clock_input_2.toNat) }
    let r1 : EuroStep × List Hook :=
      if s.current_state_is_high_2 && s.last_state_is_low_2 then
        ({ s with last_state_is_low_2 := false }, [Hook.on_clock_rise_2_do])
      else (s, [])
    let s := r1.1
    let r2 : EuroStep × List Hook :=
      if !s.current_state_is_high_2 && !s.last_state_is_low_2 then
        ({ s with last_state_is_low_2 := true }, [Hook.on_clock_fall_2_do])
      else (s, [])
    (r2.1, r1.2 ++ r2.2)
  else (s, [])

/-- A sequence of cycles of the two clock detectors: in each cycle `input_values` has
the content given for it, then `run_clock_events()` and `run_clock_events_2()` run.
Returns the final state and all hooks invoked, in order. -/
def EuroStep.clock_runs (s : EuroStep) : List (Nat → Int) → EuroStep × List Hook
  | [] => (s, [])
  | inputs :: later =>
    let c1 := EuroStep.run_clock_events { s with input_values := inputs }
    let c2 := c1.1.run_clock_events_2
    let r := EuroStep.clock_runs c2.1 later
    (r.1, c1.2 ++ c2.2 ++ r.2)

/-- The module `rasa3x2_module` with no clock enabled (the default of the class). -/
def rasa3x2_no_clock : EuroStep :=
  { rasa3x2_module with clock_input := -1, clock_input_2 := -1 }

/-! ## backend/read_funcs.h: millivolts, threshold, percentage

The `float` computations are taken over exact rationals, the literal `4.9` being the
rational `49 / 10`.  In all three routines `x` is the sample that the second
`analogRead(pin_in)` of `read_analog_mV` returns. -/

/-- The routine `read_analog_mV(pin_in, r1, r2)`.  `none`: the `else` branch divides
by `r2 = 0`; the `float` result (an infinity or a NaN) is no rational number. -/
def read_analog_mV (x r1 r2 : Int) : Option ℚ :=
  if r1 = 0 ∧ r2 = 0 then some ((x : ℚ) * 4.9)
  else if r2 = 0 then none
  else some ((x : ℚ) * 4.9 * ((r1 + r2 : Int) : ℚ) / (r2 : ℚ))

/-- The routine `read_analog_bool(pin_in, cutoff_mV, r1, r2)`: the reading is stored
in the `int` variable `current_mV`, then compared with the cutoff. -/
def read_analog_bool (x cutoff_mV r1 r2 : Int) : Option Bool :=
  match read_analog_mV x r1 r2 with
  | none => none
  | some mV =>
    let current_mV := c_trunc mV
    some (decide (current_mV > cutoff_mV))

/-- The routine `read_analog_pct(pin_in, max_mV, reverse, r1, r2, debug, tolerance)`.
`none`: a division by zero (`max_mV = 0` in the `float` division, `tolerance = 0` in
the `int` division) or an undefined reading. -/
def read_analog_pct (x max_mV : Int) (reverse : Bool) (r1 r2 tolerance : Int) : Option Int :=
  match read_analog_mV x r1 r2 with
  | none => none
  | some mV =>
    if max_mV = 0 then none
    else
      let pct_flt : ℚ := 100 * mV / (max_mV : ℚ)
      let pct := c_trunc (min pct_flt 100)
      if tolerance = 0 then none
      else
        let pct := Int.tdiv pct tolerance * tolerance
        some (if reverse then 100 - pct else pct)

/-! ## EuroStep.h: reading the inputs, the pots and the switches -/

/-- What the board answers to the reading calls during one step: for each pin the
sample of `analogRead` and the level of `digitalRead`. -/
structure Board where
  analogRead : Int → Int
  digitalRead : Int → Bool

/-- The body of the loop of `read_inputs()` for input `i`.  The row `input_history[i]`
is handed to `read_analog_mV_smooth` as the memory seen from the cell `8 * i`.
`none`: the reading is undefined (see `read_analog_mV`). -/
def EuroStep.read_input (s : EuroStep) (board : Board) (i : Nat) : Option EuroStep :=
  if s.input_mode_is_analog i then
    match read_analog_mV (board.analogRead (s.pins_input i)) s.V_DIVIDER_R1 s.V_DIVIDER_R2 with
    | none => none
    | some mV =>
      let r := read_analog_mV_smooth (c_trunc mV) (fun j => s.input_history (8 * i + j))
      some { s with
        input_history := fun k => if 8 * i ≤ k then r.1 (k - 8 * i) else s.input_history k
        input_values := Function.update s.input_values i r.2 }
  else
    match read_analog_bool (board.analogRead (s.pins_input i)) s.input_is_true_threshold
        s.V_DIVIDER_R1 s.V_DIVIDER_R2 with
    | none => none
    | some out =>
      some { s with input_values := Function.update s.input_values i (if out then 1 else 0) }

/-- The loop `for (int i = 0; i < NUMBER_OF_INPUTS; i++)` of `read_inputs()` with `n`
iterations left and loop counter `i`. -/
def EuroStep.read_inputs_loop (board : Board) : Nat → Nat → EuroStep → Option EuroStep
  | 0, _, s => some s
  | n + 1, i, s =>
    match s.read_input board i with
    | none => none
    | some s1 => EuroStep.read_inputs_loop board n (i + 1) s1

/-- The method `read_inputs()`. -/
def EuroStep.read_inputs (s : EuroStep) (board : Board) : Option EuroStep :=
  EuroStep.read_inputs_loop board s.NUMBER_OF_INPUTS 0 s

/-- The body of the loop of `read_pots()` for pot `i`: `read_analog_pct` is called
with `r1 = 0`, `r2 = 0` and the default tolerance 4. -/
def EuroStep.read_pot (s : EuroStep) (board : Board) (i : Nat) : Option EuroStep :=
  match read_analog_pct (board.analogRead (s.pins_pot i)) s.MAX_POT_VOLTAGE s.REVERSE_POT
      0 0 4 with
  | none => none
  | some pct => some { s with pot_values := Function.update s.pot_values i pct }

/-- The loop `for (int i = 0; i < NUMBER_OF_POTS; i++)` of `read_pots()` with `n`
iterations left and loop counter `i`. -/
def EuroStep.read_pots_loop (board : Board) : Nat → Nat → EuroStep → Option EuroStep
  | 0, _, s => some s
  | n + 1, i, s =>
    match s.read_pot board i with
    | none => none
    | some s1 => EuroStep.read_pots_loop board n (i + 1) s1

/-- The method `read_pots()`. -/
def EuroStep.read_pots (s : EuroStep) (board : Board) : Option EuroStep :=
  EuroStep.read_pots_loop board s.NUMBER_OF_POTS 0 s

/-- The loop `for (int i = 0; i < NUMBER_OF_SWITCHES; i++)` of `read_switches()` with
`n` iterations left and loop counter `i`. -/
def EuroStep.read_switches_loop (board : Board) : Nat → Nat → EuroStep → EuroStep
  | 0, _, s => s
  | n + 1, i, s =>
    EuroStep.read_switches_loop board n (i + 1)
      { s with switch_values :=
          Function.update s.switch_values i (board.digitalRead (s.pins_switch i)) }

/-- The method `read_switches()`. -/
def EuroStep.read_switches (s : EuroStep) (board : Board) : EuroStep :=
  EuroStep.read_switches_loop board s.NUMBER_OF_SWITCHES 0 s

/-- A board on which every analog pin reads 103 and every digital pin reads low. -/
def quiet_board : Board where
  analogRead := fun _ => 103
  digitalRead := fun _ => false

/-- The scale with all 12 tones enabled, followed in memory by zero bytes. -/
def all_tones : Int → Bool := fun i => decide (0 ≤ i ∧ i < 12)

/-! ## EuroStep.h: start-up -/

/-- The modes of `pinMode`. -/
inductive PinMode
  | INPUT
  | INPUT_PULLUP
  | OUTPUT
  deriving DecidableEq, Repr

/-- A call into the board support library made during start-up. -/
inductive SetupCall
  | Serial_begin (baud : Int)
  | pinMode (pin : Int) (mode : PinMode)
  deriving DecidableEq, Repr

/-- The bodies that a derived program gives to the overridable hooks: each may read
and write the members of the class.  The default is the empty body of the base
class. -/
structure Hooks where
  on_start_do : EuroStep → EuroStep := id
  on_clock_rise_do : EuroStep → EuroStep := id
  on_clock_fall_do : EuroStep → EuroStep := id
  on_clock_rise_2_do : EuroStep → EuroStep := id
  on_clock_fall_2_do : EuroStep → EuroStep := id
  on_step_do : EuroStep → EuroStep := id

/-- The method `initialise_pins()`: the calls it makes, in order. -/
def EuroStep.initialise_pins (s : EuroStep) : List SetupCall :=
  (if s.debug then [SetupCall.Serial_begin 9600] else [])
    ++ (List.range s.NUMBER_OF_INPUTS).map
        (fun i => SetupCall.pinMode (s.pins_input i) PinMode.INPUT)
    ++ (List.range s.NUMBER_OF_POTS).map
        (fun i => SetupCall.pinMode (s.pins_pot i) PinMode.INPUT)
    ++ (List.range s.NUMBER_OF_SWITCHES).map
        (fun i => SetupCall.pinMode (s.pins_switch i) PinMode.INPUT_PULLUP)
    ++ (List.range s.NUMBER_OF_OUTPUTS).map
        (fun i => SetupCall.pinMode (s.pins_output i) PinMode.OUTPUT)
    ++ (List.range 4).flatMap (fun i =>
        (if s.pins_dac_a i ≠ -1 then [SetupCall.pinMode (s.pins_dac_a i) PinMode.OUTPUT]
          else [])
        ++ (if s.pins_dac_b i ≠ -1 then [SetupCall.pinMode (s.pins_dac_b i) PinMode.OUTPUT]
          else []))

/-- What a call of `start()` does: the state it leaves, the calls of
`initialise_pins()`, the hooks invoked, and whether the call aborted the program. -/
structure StartRun where
  state : EuroStep
  calls : List SetupCall
  hooks : List Hook
  aborted : Bool

/-- The method `start()`: `initialise_pins(); on_start_do();`.  Neither statement
tests the output modes; no path of the method aborts. -/
def EuroStep.start (s : EuroStep) (hk : Hooks) : StartRun :=
  { state := hk.on_start_do s
    calls := s.initialise_pins
    hooks := [Hook.on_start_do]
    aborted := false }

/-- A module with six outputs, the first five of them analog, all with a new value
to write. -/
def five_analog_module : EuroStep :=
  { rasa3x2_module with
      NUMBER_OF_OUTPUTS := 6
      output_mode_is_analog := fun i => decide (i < 5)
      output_values := fun _ => 1200 }

/-! ## EuroStep.h: one step -/

/-- The method `run_clock_events()` of a derived program: as
`EuroStep.run_clock_events`, with the bodies of the two hooks run where they are
invoked. -/
def EuroStep.run_clock_events_with (hk : Hooks) (s : EuroStep) : EuroStep × List Hook :=
  if s.clock_input > -1 then
    let s := { s with current_state_is_high := toBool (s.input_values s.clock_input.toNat) }
    let r1 : EuroStep × List Hook :=
      if s.current_state_is_high && s.last_state_is_low then
        ({ hk.on_clock_rise_do s with last_state_is_low := false }, [Hook.on_clock_rise_do])
      else (s, [])
    let s := r1.1
    let r2 : EuroStep × List Hook :=
      if !s.current_state_is_high && !s.last_state_is_low then
        ({ hk.on_clock_fall_do s with last_state_is_low := true }, [Hook.on_clock_fall_do])
      else (s, [])
    (r2.1, r1.2 ++ r2.2)
  else (s, [])

/-- The method `run_clock_events_2()` of a derived program: as
`EuroStep.run_clock_events_2`, with the bodies of the two hooks run where they are
invoked. -/
def EuroStep.run_clock_events_2_with (hk : Hooks) (s : EuroStep) : EuroStep × List Hook :=
  if s.clock_input_2 > -1 then
    let s :=
      { s with current_state_is_high_2 := toBool (s.input_values s.clock_input_2.toNat) }
    let r1 : EuroStep × List Hook :=
      if s.current_state_is_high_2 && s.last_state_is_low_2 then
        ({ hk.on_clock_rise_2_do s with last_state_is_low_2 := false },
          [Hook.on_clock_rise_2_do])
      else (s, [])
    let s := r1.1
    let r2 : EuroStep × List Hook :=
      if !s.current_state_is_high_2 && !s.last_state_is_low_2 then
        ({ hk.on_clock_fall_2_do s with last_state_is_low_2 := true },
          [Hook.on_clock_fall_2_do])
      else (s, [])
    (r2.1, r1.2 ++ r2.2)
  else (s, [])

/-- What happens during a step, in order: the routines entered, the hooks invoked,
the board calls of `write_outputs`, the final `delay`. -/
inductive StepEvent
  | read_inputs
  | read_pots
  | read_switches
  | run_clock_events
  | run_clock_events_2
  | hook (h : Hook)
  | write_outputs
  | board (c : BoardCall)
  | delay (ms : Int)
  deriving DecidableEq, Repr

/-- What one call of `step()` does: the state it leaves, the state in which
`write_outputs()` was entered, the events in order, and whether the assertion of
`write_outputs()` aborted the program. -/
structure StepRun where
  state : EuroStep
  before_write : EuroStep
  trace : List StepEvent
  aborted : Bool

/-- The method `step()`.  `none`: a reading is undefined (see `read_analog_mV`,
`read_analog_pct`). -/
def EuroStep.step (s : EuroStep) (hk : Hooks) (board : Board) : Option StepRun :=
  match s.read_inputs board with
  | none => none
  | some s1 =>
    match s1.read_pots board with
    | none => none
    | some s2 =>
      let s3 := s2.read_switches board
      let c1 := s3.run_clock_events_with hk
      let c2 := c1.1.run_clock_events_2_with hk
      let s6 := hk.on_step_do c2.1
      let w := s6.write_outputs
      some
        { state := w.state
          before_write := s6
          trace :=
            [StepEvent.read_inputs, StepEvent.read_pots, StepEvent.read_switches,
              StepEvent.run_clock_events]
            ++ c1.2.map StepEvent.hook
            ++ [StepEvent.run_clock_events_2]
            ++ c2.2.map StepEvent.hook
            ++ [StepEvent.hook Hook.on_step_do, StepEvent.write_outputs]
            ++ w.board_calls.map StepEvent.board
            ++ (if w.aborted = false ∧ s6.debug = true then [StepEvent.delay 250] else [])
          aborted := w.aborted }

/-- The state `t` has the hardware table and the output modes of the state `s`. -/
def SameSetup (s t : EuroStep) : Prop :=
  t.NUMBER_OF_OUTPUTS = s.NUMBER_OF_OUTPUTS ∧
  t.output_mode_is_analog = s.output_mode_is_analog ∧
  t.V_DIVIDER_R1 = s.V_DIVIDER_R1 ∧
  t.V_DIVIDER_R2 = s.V_DIVIDER_R2 ∧
  t.MAX_POT_VOLTAGE = s.MAX_POT_VOLTAGE

/-- None of the hooks that `step()` invokes changes the hardware table or the output
modes. -/
def Hooks.KeepSetup (hk : Hooks) : Prop :=
  (∀ t, SameSetup t (hk.on_clock_rise_do t)) ∧
  (∀ t, SameSetup t (hk.on_clock_fall_do t)) ∧
  (∀ t, SameSetup t (hk.on_clock_rise_2_do t)) ∧
  (∀ t, SameSetup t (hk.on_clock_fall_2_do t)) ∧
  (∀ t, SameSetup t (hk.on_step_do t))

/-! ## backend/read_funcs.h: the accesses to the history array -/

/-- An access to the array `read_history`: a read or a write of the cell with the
given index. -/
inductive Access
  | read (index : Nat)
  | write (index : Nat)
  deriving DecidableEq, Repr

/-- The loop of `shift_history` with the accesses it makes recorded: the iteration
for `i` reads `read_history[i + 1]` and writes `read_history[i]`. -/
def shift_history_traced : Nat → Nat → (Nat → Int) × List Access → (Nat → Int) × List Access
  | 0, _, m => m
  | n + 1, i, m =>
    shift_history_traced n (i + 1)
      (Function.update m.1 i (m.1 (i + 1)), m.2 ++ [Access.read (i + 1), Access.write i])

/-- The loop of `sum_history` with the accesses it makes recorded: the iteration for
`i` reads `read_history[i]`. -/
def sum_history_traced : Nat → Nat → (Nat → Int) → Int × List Access → Int × List Access
  | 0, _, _, a => a
  | n + 1, i, read_history, a =>
    sum_history_traced n (i + 1) read_history (a.1 + read_history i, a.2 ++ [Access.read i])

/-- The routine `read_analog_mV_smooth` with the accesses to `read_history` recorded
in order: the shift loop, the store of the new reading in `read_history[7]`, the
summation loop. -/
def read_analog_mV_smooth_traced (reading : Int) (read_history : Nat → Int) :
    ((Nat → Int) × Int) × List Access :=
  let m := shift_history_traced 8 0 (read_history, [])
  let m : (Nat → Int) × List Access :=
    (Function.update m.1 7 reading, m.2 ++ [Access.write 7])
  let a := sum_history_traced 8 0 m.1 (0, m.2)
  ((m.1, Int.tdiv a.1 8), a.2)

/-! ## chips/mcp4822.h: the lines during a transfer -/

/-- The levels of the pins after a board call: `digitalWrite(pin, value)` sets the
level of `pin`, a delay changes nothing. -/
def pin_write (levels : Int → Int) : BoardCall → (Int → Int)
  | BoardCall.digitalWrite pin value => Function.update levels pin value
  | BoardCall.delayMicroseconds _ => levels

/-- The levels of the pins after a sequence of board calls. -/
def replay (levels : Int → Int) (calls : List BoardCall) : Int → Int :=
  calls.foldl pin_write levels

/-- The rising edges of the clock line `pin_sck` during a sequence of board calls
that starts with the pin levels `levels`: a rising edge is a write of `HIGH` to the
clock pin while it is `LOW`; for each one the levels of the chip-select line and of
the data line at that moment are listed. -/
def rising_edges (pin_cs pin_sck pin_sdi : Int) : (Int → Int) → List BoardCall → List (Int × Int)
  | _, [] => []
  | levels, c :: rest =>
    (match c with
      | BoardCall.digitalWrite pin value =>
        if pin = pin_sck ∧ levels pin_sck = LOW ∧ value = HIGH then
          [(levels pin_cs, levels pin_sdi)]
        else []
      | BoardCall.delayMicroseconds _ => [])
    ++ rising_edges pin_cs pin_sck pin_sdi (pin_write levels c) rest

/-- The pins of the DAC chip that serves the `k`-th analog output: chip A
(`pins_dac_a`) for `k ≤ 2`, chip B (`pins_dac_b`) otherwise. -/
def dac_pins (s : EuroStep) (k : Nat) : Nat → Int :=
  if k ≤ 2 then s.pins_dac_a else s.pins_dac_b

/-- The board calls `calls` are the transfer, on the pins of the chip that serves the
`k`-th analog output, of a frame encoding `output_values[i]` for channel A (channel
bit `false`) when `k` is odd and for channel B (channel bit `true`) when `k` is
even. -/
def IsDacTransfer (s : EuroStep) (i k : Nat) (calls : List BoardCall) : Prop :=
  ∃ code : Nat → Bool,
    calls = write_dac_code (update_dac_code code (s.output_values i) (decide (k % 2 = 0)))
      (dac_pins s k 0) (dac_pins s k 1) (dac_pins s k 2) (dac_pins s k 3)

/-! ## modules/Playback.h

The array behind the pointer `audio` is the memory function `audio : Int → Int`: the
samples are the cells `0 .. audio_length - 1`, a read at another index shows as a
dependence on a cell outside the array. -/

/-- The members of class `Playback`, with two records kept for the analysis: the
indices at which `audio` has been read and the number of calls of `reset_timer()`.
The base class `Timer` (`modules/Timer.h`) is not among the sources: the value that
`get_timer()` returns is a parameter of the routines below, whatever it is, and a
call of `reset_timer()` is only counted. -/
structure Playback where
  playback_rate : Int := 100
  playback_step : Int := 1
  audio : Int → Int
  audio_length : Int := 0
  current_value : Int := 0
  current_position : Int := 0
  start_position : Int := 0
  now_restarting_safely : Bool := false
  pause : Bool := false
  loop : Bool := false
  audio_reads : List Int := []
  timer_resets : Nat := 0

/-- The method `pause_playback(new_value)`. -/
def Playback.pause_playback (p : Playback) (new_value : Bool) : Playback :=
  { p with pause := new_value }

/-- The method `unpause_playback()`. -/
def Playback.unpause_playback (p : Playback) : Playback :=
  { p with pause := false }

/-- The method `rewind_playback()`: `pause_playback(); current_position =
start_position; reset_timer();`. -/
def Playback.rewind_playback (p : Playback) : Playback :=
  let p := p.pause_playback true
  { p with current_position := p.start_position, timer_resets := p.timer_resets + 1 }

/-- The method `restart_playback()`. -/
def Playback.restart_playback (p : Playback) : Playback :=
  let p := p.rewind_playback
  let p := p.unpause_playback
  { p with now_restarting_safely := true }

/-- The method `stop_playback_safely()`. -/
def Playback.stop_playback_safely (p : Playback) : Playback :=
  if p.current_value ≥ 0 then
    let p := { p with current_value := p.current_value - 250 }
    if p.current_value ≤ 0 then { p with now_restarting_safely := false } else p
  else
    let p := { p with current_value := p.current_value + 250 }
    if p.current_value ≥ 0 then { p with now_restarting_safely := false } else p

/-- The method `continue_playback()`; `timer` is the value of `get_timer()`.  The
position is advanced and `audio[current_position]` is read before any comparison
with `audio_length`. -/
def Playback.continue_playback (p : Playback) (timer : Int) : Playback :=
  if timer > p.playback_rate then
    let p := { p with current_position := p.current_position + 1 }
    { p with
      current_value := p.audio p.current_position
      audio_reads := p.audio_reads ++ [p.current_position]
      timer_resets := p.timer_resets + 1 }
  else p

/-- The method `run_playback()`; `timer` is the value of `get_timer()`. -/
def Playback.run_playback (p : Playback) (timer : Int) : Playback :=
  let p :=
    if p.current_position < p.start_position then
      { p with current_position := p.start_position }
    else p
  if !p.pause then
    if p.now_restarting_safely then p.stop_playback_safely
    else
      let p := p.continue_playback timer
      if p.current_position ≥ p.audio_length then
        if p.loop then p.restart_playback else p.rewind_playback
      else p
  else p

/-- A playback of the 4 samples 100, 200, 300, 400, standing at the last sample; the
memory after the array holds 7777. -/
def last_sample_playback : Playback :=
  { audio := fun i => if 0 ≤ i ∧ i < 4 then 100 * (i + 1) else 7777
    audio_length := 4
    current_value := 400
    current_position := 3 }

/-! ## add_ons/quantize_voltage.h: the width of `int`

`quantize_voltage_run` takes the sum `base_volts * 1000 + octave_shift * 1000` and the
conversion of the `float` result to `int new_mV` without wrap-around.  The routine
below takes both in an `int` of `bits` bits (16 on the AVR boards); the two agree
wherever the returned voltage fits that `int` (`quantize_voltage_wrapped_agrees`), and
differ in the top octave of the `int` range. -/

/-- The value of `x` in a two's complement `int` of `bits` bits. -/
def wrap_int (bits : Nat) (x : Int) : Int :=
  let half : Int := 2 ^ (bits - 1)
  (x + half) % (2 * half) - half

/-- The routine `quantize_voltage(mV, SCALE)` on a machine whose `int` has `bits`
bits, with the search loop bounded by `fuel` iterations: the `int` sum
`base_volts * 1000 + octave_shift * 1000` wraps around, and so does the conversion of
the `float` sum to `int new_mV`. -/
def quantize_voltage_wrapped (bits fuel : Nat) (mV : Int) (SCALE : Int → Bool) : Option Int :=
  let number_of_switches := count_switches 12 0 SCALE 0
  if number_of_switches = 0 then some mV
  else
    let residVolts := Int.tmod mV 1000
    let residTones : ℚ := residVolts / 83.3333
    let floortone := ⌊residTones⌋
    let ceiltone := floortone + 1
    match quantize_search SCALE residTones fuel ⟨floortone, ceiltone, 0, 0, 0, []⟩ with
    | none => none
    | some found =>
      let base_volts := Int.tdiv mV 1000
      let int_sum := wrap_int bits (base_volts * 1000 + found.octave_shift * 1000)
      some (wrap_int bits (c_trunc ((int_sum : ℚ) + (found.outTone : ℚ) * 83.3333)))

/-- Integer-only companion of `quantize_voltage_wrapped`, proved equal to it in
`quantize_voltage_wrapped_eq_int`. -/
def quantize_voltage_wrapped_int (bits fuel : Nat) (mV : Int) (SCALE : Int → Bool) :
    Option Int :=
  let number_of_switches := count_switches 12 0 SCALE 0
  if number_of_switches = 0 then some mV
  else
    let residVolts := Int.tmod mV 1000
    let floortone := residVolts * 10000 / 833333
    let ceiltone := floortone + 1
    match quantize_search_int SCALE (decide (round_tones_int residVolts = floortone)) fuel
        ⟨floortone, ceiltone, 0, 0, 0, []⟩ with
    | none => none
    | some found =>
      let base_volts := Int.tdiv mV 1000
      let int_sum := wrap_int bits (base_volts * 1000 + found.octave_shift * 1000)
      some (wrap_int bits (Int.tdiv (int_sum * 10000 + found.outTone * 833333) 10000))

/-! # Theorems -/

/-! ## The frame encoder -/

theorem write_code_bits_below (n : Nat) (hn : n ≤ 12) (data : Nat → Bool) (d : Int)
    (j : Nat) (hj : j < 16 - n) : (write_code_bits n data d).1 j = data j := by
  induction n generalizing data d with
  | zero => rfl
  | succ i ih =>
    simp only [write_code_bits]
    rw [ih (by omega) _ _ (by omega)]
    exact Function.update_noteq (by omega) _ _

theorem write_code_bits_value (n : Nat) (hn : n ≤ 12) (data : Nat → Bool) (d : Int)
    (h0 : 0 ≤ d) (h1 : d < 2 ^ n) :
    bits_value (write_code_bits n data d).1 (16 - n) n = d := by
  induction n generalizing data d with
  | zero =>
    simp only [bits_value]
    simp at h1
    omega
  | succ i ih =>
    have hpos : (0 : Int) < 2 ^ i := by positivity
    have hq0 : 0 ≤ d / 2 ^ i := Int.ediv_nonneg h0 hpos.le
    have hq2 : d / 2 ^ i < 2 := by
      apply Int.ediv_lt_of_lt_mul hpos
      rw [pow_succ] at h1
      linarith
    have hm0 : 0 ≤ d % 2 ^ i := Int.emod_nonneg _ hpos.ne'
    have hm1 : d % 2 ^ i < 2 ^ i := Int.emod_lt_of_pos _ hpos
    have hdm : 2 ^ i * (d / 2 ^ i) + d % 2 ^ i = d := Int.ediv_add_emod d (2 ^ i)
    have hidx : 16 - (i + 1) = 11 - i + 4 := by omega
    have hnext : 16 - (i + 1) + 1 = 16 - i := by omega
    have htd : Int.tdiv d (2 ^ i) = d / 2 ^ i := Int.tdiv_eq_ediv h0 hpos.le
    have htm : Int.tmod d (2 ^ i) = d % 2 ^ i := Int.tmod_eq_emod h0 hpos.le
    simp only [write_code_bits, bits_value, power_int, htd, htm, hnext]
    have hrest := ih (by omega) (Function.update data (11 - i + 4) (toBool (d / 2 ^ i)))
      (d % 2 ^ i) hm0 hm1
    have hbit := write_code_bits_below i (by omega)
      (Function.update data (11 - i + 4) (toBool (d / 2 ^ i))) (d % 2 ^ i) (16 - (i + 1))
      (by omega)
    rw [hrest, hbit, hidx]
    simp only [Function.update_same]
    rcases (show d / 2 ^ i = 0 ∨ d / 2 ^ i = 1 by omega) with hq | hq
    · rw [hq] at hdm
      simp [toBool, hq]
      linarith
    · rw [hq] at hdm
      simp [toBool, hq]
      linarith

theorem update_dac_code_payload (data : Nat → Bool) (v : Int) (channel : Bool)
    (h0 : 0 ≤ v) (h1 : v ≤ 4095) (h2 : v ≠ 2048) :
    payload (update_dac_code data v channel) = if v > 2048 then v else 2 * v := by
  have hlo : ¬ v < 0 := by omega
  have hhi : ¬ v > 4095 := by omega
  unfold payload update_dac_code
  simp only [hlo, hhi, if_false, power_long]
  by_cases hg : v > 2048
  · simp only [hg, if_true]
    have hc : Int.tdiv (Int.tdiv (2 ^ 12 * v) 2) 2048 = v := by
      have e1 : Int.tdiv (2 ^ 12 * v) 2 = 2048 * v := by
        rw [Int.tdiv_eq_ediv (by omega) (by omega)]; omega
      rw [e1, Int.tdiv_eq_ediv (by omega) (by omega)]
      omega
    rw [hc]
    exact write_code_bits_value 12 (le_refl _) _ v h0 (by norm_num; omega)
  · simp only [hg, if_false]
    have hc : Int.tdiv (Int.tdiv (2 ^ 12 * v) 1) 2048 = 2 * v := by
      have e1 : Int.tdiv (2 ^ 12 * v) 1 = 4096 * v := by
        rw [Int.tdiv_eq_ediv (by omega) (by omega)]; omega
      rw [e1, Int.tdiv_eq_ediv (by omega) (by omega)]
      omega
    rw [hc]
    exact write_code_bits_value 12 (le_refl _) _ (2 * v) (by omega) (by norm_num; omega)

theorem update_dac_code_gain_bit (data : Nat → Bool) (v : Int) (channel : Bool)
    (h0 : 0 ≤ v) (h1 : v ≤ 4095) :
    update_dac_code data v channel 2 = true ↔ v ≤ 2048 := by
  have hlo : ¬ v < 0 := by omega
  have hhi : ¬ v > 4095 := by omega
  unfold update_dac_code
  simp only [hlo, hhi, if_false]
  rw [write_code_bits_below 12 (le_refl _) _ _ 2 (by omega)]
  rw [Function.update_noteq (by omega), Function.update_same]
  by_cases hg : v > 2048
  · simp [hg]
  · simp [hg]; omega

/-- C1 (as amended): for every code `v` in `[0, 4095]` other than 2048 the payload
written into `data[4..15]` is `v` when `v > 2048` and `2 * v` when `v < 2048`, and for
every `v` in `[0, 4095]` the gain-control bit `data[2]` is set exactly when
`v ≤ 2048`. -/
theorem C1_payload_and_gain_bit (data : Nat → Bool) (v : Int) (channel : Bool)
    (h0 : 0 ≤ v) (h1 : v ≤ 4095) :
    (v ≠ 2048 → payload (update_dac_code data v channel) = if v > 2048 then v else 2 * v) ∧
    (update_dac_code data v channel 2 = true ↔ v ≤ 2048) :=
  ⟨update_dac_code_payload data v channel h0 h1, update_dac_code_gain_bit data v channel h0 h1⟩

theorem C1_payload_and_gain_bit_witness :
    ((1000 : Int) ≠ 2048 →
      payload (update_dac_code (fun _ => false) 1000 true) = if (1000 : Int) > 2048 then 1000 else 2 * 1000) ∧
    (update_dac_code (fun _ => false) 1000 true 2 = true ↔ (1000 : Int) ≤ 2048) :=
  C1_payload_and_gain_bit (fun _ => false) 1000 true (by decide) (by decide)

/-- C1 fails as stated at `v = 2048`: the code to encode is `2 * 2048 = 4096`, which
does not fit into 12 bits; the frame carries the payload 2048 (only `data[4]` set). -/
theorem C1_counterexample :
    (0 : Int) ≤ 2048 ∧ (2048 : Int) ≤ 4095 ∧
    frame_bits (update_dac_code (fun _ => false) 2048 false) =
      [false, false, true, true, true, false, false, false,
       false, false, false, false, false, false, false, false] ∧
    payload (update_dac_code (fun _ => false) 2048 false) = 2048 ∧
    ¬ (payload (update_dac_code (fun _ => false) 2048 false)
        = if (2048 : Int) > 2048 then 2048 else 2 * 2048) := by
  decide

/-! ## The clock edge detector -/

theorem clock_cycle_spec (s : EuroStep) (level : Bool) (hen : s.clock_input > -1) :
    (s.clock_cycle level).2 = edge_hooks (!s.last_state_is_low) level ∧
    (s.clock_cycle level).1.last_state_is_low = (!level) ∧
    (s.clock_cycle level).1.clock_input = s.clock_input := by
  cases level <;> cases hl : s.last_state_is_low <;>
    simp [EuroStep.clock_cycle, EuroStep.run_clock_events, hen, hl, toBool, edge_hooks]

theorem clock_cycles_spec (levels : List Bool) (s : EuroStep) (hen : s.clock_input > -1) :
    s.clock_cycles levels = edge_hooks_seq (!s.last_state_is_low) levels := by
  induction levels generalizing s with
  | nil => rfl
  | cons level levels ih =>
    obtain ⟨h1, h2, h3⟩ := clock_cycle_spec s level hen
    simp only [EuroStep.clock_cycles, edge_hooks_seq]
    rw [h1, ih _ (by rw [h3]; exact hen), h2, Bool.not_not]

theorem edge_hooks_seq_length (prev : Bool) (levels : List Bool) :
    (edge_hooks_seq prev levels).length = levels.length := by
  induction levels generalizing prev with
  | nil => rfl
  | cons level levels ih => simp [edge_hooks_seq, ih]

theorem edge_hooks_seq_rises (prev : Bool) (levels : List Bool) :
    (edge_hooks_seq prev levels).flatten.count Hook.on_clock_rise_do
      = rising_transitions prev levels := by
  induction levels generalizing prev with
  | nil => rfl
  | cons level levels ih =>
    simp only [edge_hooks_seq, List.flatten_cons, List.count_append, ih, rising_transitions]
    cases prev <;> cases level <;> simp [edge_hooks]

theorem edge_hooks_seq_alternating (prev : Bool) (levels : List Bool) :
    Alternating prev (edge_hooks_seq prev levels).flatten := by
  induction levels generalizing prev with
  | nil => trivial
  | cons level levels ih =>
    have := ih level
    cases prev <;> cases level <;> simpa [edge_hooks_seq, edge_hooks, Alternating] using this

theorem Alternating.suffix {high : Bool} {a t : List Hook} (h : Alternating high (a ++ t)) :
    ∃ q, Alternating q t := by
  induction a generalizing high with
  | nil => exact ⟨high, h⟩
  | cons x a ih => exact ih h.2

theorem Alternating.fall_between {high : Bool} {a b c : List Hook}
    (h : Alternating high
      (a ++ Hook.on_clock_rise_do :: (b ++ Hook.on_clock_rise_do :: c))) :
    Hook.on_clock_fall_do ∈ b := by
  obtain ⟨q, hq⟩ := Alternating.suffix h
  obtain ⟨hfirst, hrest⟩ := hq
  cases q with
  | true => simp at hfirst
  | false =>
    cases b with
    | nil =>
      have h1 : Hook.on_clock_rise_do = Hook.on_clock_fall_do := by simpa using hrest.1
      cases h1
    | cons x b =>
      have h1 : x = Hook.on_clock_fall_do := by simpa using hrest.1
      rw [h1]
      exact List.mem_cons_self _ _

/-- C2: for every sequence of boolean levels fed cycle by cycle to an enabled clock
whose detector starts in the low state, the number of `on_clock_rise_do` invocations
equals the number of low-to-high transitions of the sequence (low before the first
sample), and between any two rise invocations there is a fall invocation. -/
theorem C2_rise_count_and_alternation (s : EuroStep) (levels : List Bool)
    (hen : s.clock_input > -1) (hlow : s.last_state_is_low = true) :
    (s.clock_cycles levels).flatten.count Hook.on_clock_rise_do
      = rising_transitions false levels ∧
    ∀ a b c : List Hook,
      (s.clock_cycles levels).flatten
        = a ++ Hook.on_clock_rise_do :: (b ++ Hook.on_clock_rise_do :: c) →
      Hook.on_clock_fall_do ∈ b := by
  rw [clock_cycles_spec levels s hen, hlow]
  refine ⟨edge_hooks_seq_rises _ levels, ?_⟩
  intro a b c habc
  have halt := edge_hooks_seq_alternating (!true) levels
  rw [habc] at halt
  exact Alternating.fall_between halt

theorem C2_rise_count_and_alternation_witness :
    (rasa3x2_module.clock_cycles [false, true, true, false, true]).flatten.count
        Hook.on_clock_rise_do
      = rising_transitions false [false, true, true, false, true] ∧
    ∀ a b c : List Hook,
      (rasa3x2_module.clock_cycles [false, true, true, false, true]).flatten
        = a ++ Hook.on_clock_rise_do :: (b ++ Hook.on_clock_rise_do :: c) →
      Hook.on_clock_fall_do ∈ b :=
  C2_rise_count_and_alternation rasa3x2_module [false, true, true, false, true]
    (by decide) rfl

theorem edge_hooks_seq_getElem? (levels : List Bool) (prev : Bool) (t : Nat) (ev : List Hook)
    (h : (edge_hooks_seq prev levels)[t]? = some ev) :
    ev = edge_hooks (if t = 0 then prev else levels.getD (t - 1) false) (levels.getD t false) := by
  induction levels generalizing prev t with
  | nil => simp [edge_hooks_seq] at h
  | cons level levels ih =>
    cases t with
    | zero =>
      simp [edge_hooks_seq] at h
      simp [h]
    | succ t =>
      simp only [edge_hooks_seq, List.getElem?_cons_succ] at h
      have := ih level t h
      rw [this]
      cases t with
      | zero => simp
      | succ t => simp

/-- C3: on an enabled clock whose detector starts in the low state, the cycle at
position `t` invokes the rise hook iff the level at `t` is high and the level at
`t - 1` is low (low before the first cycle), invokes the fall hook iff the level at `t`
is low and the level at `t - 1` is high, and never both; every cycle of the sequence is
run; and for `[low, low, high, high, low]` exactly one rise is invoked, in the 3rd
cycle, and exactly one fall, in the 5th. -/
theorem C3_edge_per_cycle (s : EuroStep) (levels : List Bool)
    (hen : s.clock_input > -1) (hlow : s.last_state_is_low = true) :
    (s.clock_cycles levels).length = levels.length ∧
    (∀ (t : Nat) (ev : List Hook), (s.clock_cycles levels)[t]? = some ev →
      (Hook.on_clock_rise_do ∈ ev ↔
        levels.getD t false = true ∧
          (if t = 0 then false else levels.getD (t - 1) false) = false) ∧
      (Hook.on_clock_fall_do ∈ ev ↔
        levels.getD t false = false ∧
          (if t = 0 then false else levels.getD (t - 1) false) = true) ∧
      ¬ (Hook.on_clock_rise_do ∈ ev ∧ Hook.on_clock_fall_do ∈ ev)) ∧
    s.clock_cycles [false, false, true, true, false]
      = [[], [], [Hook.on_clock_rise_do], [], [Hook.on_clock_fall_do]] := by
  refine ⟨?_, ?_, ?_⟩
  · rw [clock_cycles_spec levels s hen, edge_hooks_seq_length]
  · intro t ev hev
    rw [clock_cycles_spec levels s hen, hlow] at hev
    have h := edge_hooks_seq_getElem? levels _ t ev hev
    simp only [Bool.not_true] at h
    rw [h]
    generalize levels.getD t false = cur
    generalize (if t = 0 then false else levels.getD (t - 1) false) = prev
    cases cur <;> cases prev <;> simp [edge_hooks]
  · rw [clock_cycles_spec _ s hen, hlow]
    rfl

theorem C3_edge_per_cycle_witness :
    (rasa3x2_module.clock_cycles [true, false]).length = [true, false].length ∧
    (∀ (t : Nat) (ev : List Hook), (rasa3x2_module.clock_cycles [true, false])[t]? = some ev →
      (Hook.on_clock_rise_do ∈ ev ↔
        [true, false].getD t false = true ∧
          (if t = 0 then false else [true, false].getD (t - 1) false) = false) ∧
      (Hook.on_clock_fall_do ∈ ev ↔
        [true, false].getD t false = false ∧
          (if t = 0 then false else [true, false].getD (t - 1) false) = true) ∧
      ¬ (Hook.on_clock_rise_do ∈ ev ∧ Hook.on_clock_fall_do ∈ ev)) ∧
    rasa3x2_module.clock_cycles [false, false, true, true, false]
      = [[], [], [Hook.on_clock_rise_do], [], [Hook.on_clock_fall_do]] :=
  C3_edge_per_cycle rasa3x2_module [true, false] (by decide) rfl

/-! ## The smoothing filter -/

theorem shift_history_apply (n i : Nat) (h : Nat → Int) (j : Nat) :
    shift_history n i h j = if i ≤ j ∧ j < i + n then h (j + 1) else h j := by
  induction n generalizing i h with
  | zero =>
    have : ¬ (i ≤ j ∧ j < i + 0) := by omega
    simp only [shift_history, this, if_false]
  | succ n ih =>
    simp only [shift_history, ih, Function.update_apply]
    split_ifs <;> first | rfl | omega | (subst_vars; rfl)

theorem sum_history_eight (h : Nat → Int) :
    sum_history 8 0 h 0 = h 0 + h 1 + h 2 + h 3 + h 4 + h 5 + h 6 + h 7 := by
  simp [sum_history]

theorem smooth_history (r : Int) (h : Nat → Int) (j : Nat) :
    (read_analog_mV_smooth r h).1 j
      = if j = 7 then r else if j < 7 then h (j + 1) else h j := by
  simp only [read_analog_mV_smooth, Function.update_apply, shift_history_apply]
  split_ifs <;> first | rfl | omega

theorem smooth_value (r : Int) (h : Nat → Int) :
    (read_analog_mV_smooth r h).2
      = Int.tdiv (h 1 + h 2 + h 3 + h 4 + h 5 + h 6 + h 7 + r) 8 := by
  have e : (read_analog_mV_smooth r h).2
      = Int.tdiv (sum_history 8 0 (read_analog_mV_smooth r h).1 0) 8 := rfl
  rw [e, sum_history_eight]
  simp [smooth_history]

/-- C4: whatever the history (and the memory after it) holds at first, after 8
consecutive calls of `read_analog_mV_smooth` whose stored readings are `s1 .. s8` the
value returned by the 8th call is `(s1 + ... + s8) / 8` in C integer division and the
8 history slots hold exactly `s1 .. s8` in that order. -/
theorem C4_eight_calls (h : Nat → Int) (last s1 s2 s3 s4 s5 s6 s7 s8 : Int) :
    (smooth_calls h last [s1, s2, s3, s4, s5, s6, s7, s8]).2
      = Int.tdiv (s1 + s2 + s3 + s4 + s5 + s6 + s7 + s8) 8 ∧
    (List.range 8).map (smooth_calls h last [s1, s2, s3, s4, s5, s6, s7, s8]).1
      = [s1, s2, s3, s4, s5, s6, s7, s8] := by
  simp only [smooth_calls, smooth_value]
  constructor
  · simp [smooth_history]
  · simp [List.range, List.range.loop, smooth_history]

/-! ## The scale quantizer -/

theorem c_trunc_div (n : Int) (d : Nat) (hd : 0 < d) :
    c_trunc ((n : ℚ) / (d : ℚ)) = Int.tdiv n d := by
  have hdq : (0 : ℚ) < d := by exact_mod_cast hd
  unfold c_trunc
  by_cases hn : 0 ≤ n
  · have : (0 : ℚ) ≤ (n : ℚ) / d := div_nonneg (by exact_mod_cast hn) hdq.le
    rw [if_pos this, Rat.floor_intCast_div_natCast, Int.tdiv_eq_ediv hn (by omega)]
  · have hn' : n < 0 := by omega
    have : ¬ (0 : ℚ) ≤ (n : ℚ) / d := by
      rw [not_le]
      exact div_neg_of_neg_of_pos (by exact_mod_cast hn') hdq
    rw [if_neg this]
    have e : ((n : ℚ) / d) = -(((-n : Int) : ℚ) / d) := by push_cast; ring
    rw [e, Int.ceil_neg, Rat.floor_intCast_div_natCast]
    have : Int.tdiv n d = -(Int.tdiv (-n) d) := by rw [Int.neg_tdiv]; ring
    rw [this, Int.tdiv_eq_ediv (by omega) (by omega)]

theorem floor_residTones (r : Int) : ⌊(r : ℚ) / 83.3333⌋ = r * 10000 / 833333 := by
  have e : (r : ℚ) / 83.3333 = ((r * 10000 : Int) : ℚ) / ((833333 : Nat) : ℚ) := by
    push_cast; norm_num; ring
  rw [e, Rat.floor_intCast_div_natCast]
  rfl

theorem c_round_residTones (r : Int) :
    c_round ((r : ℚ) / 83.3333)
      = if 0 ≤ r then Int.tdiv (r * 20000 + 833333) 1666666
        else Int.tdiv (r * 20000 - 833333) 1666666 := by
  unfold c_round
  have h0 : (0 : ℚ) ≤ (r : ℚ) / 83.3333 ↔ 0 ≤ r := by
    rw [div_nonneg_iff]
    norm_num
  simp only [h0]
  split_ifs with h
  · have e : (r : ℚ) / 83.3333 + 1 / 2
        = ((r * 20000 + 833333 : Int) : ℚ) / ((1666666 : Nat) : ℚ) := by
      push_cast; norm_num; ring
    rw [e, c_trunc_div _ _ (by norm_num)]
    rfl
  · have e : (r : ℚ) / 83.3333 - 1 / 2
        = ((r * 20000 - 833333 : Int) : ℚ) / ((1666666 : Nat) : ℚ) := by
      push_cast; norm_num; ring
    rw [e, c_trunc_div _ _ (by norm_num)]
    rfl

theorem c_trunc_tone_voltage (a t : Int) :
    c_trunc ((a : ℚ) + (t : ℚ) * 83.3333) = Int.tdiv (a * 10000 + t * 833333) 10000 := by
  have e : (a : ℚ) + (t : ℚ) * 83.3333
      = ((a * 10000 + t * 833333 : Int) : ℚ) / ((10000 : Nat) : ℚ) := by
    push_cast; norm_num; ring
  rw [e, c_trunc_div _ _ (by norm_num)]
  rfl

theorem quantize_search_eq_int (SCALE : Int → Bool) (residTones : ℚ) (fuel : Nat)
    (st : Search) :
    quantize_search SCALE residTones fuel st
      = quantize_search_int SCALE (decide (c_round residTones = ⌊residTones⌋)) fuel st := by
  induction fuel generalizing st with
  | zero => rfl
  | succ fuel ih =>
    simp only [quantize_search, quantize_search_int, ih, decide_eq_true_eq]

theorem quantize_voltage_run_eq_int (fuel : Nat) (mV : Int) (SCALE : Int → Bool) :
    quantize_voltage_run fuel mV SCALE = quantize_voltage_run_int fuel mV SCALE := by
  unfold quantize_voltage_run quantize_voltage_run_int
  simp only [quantize_search_eq_int, floor_residTones, c_round_residTones,
    c_trunc_tone_voltage, round_tones_int]

theorem quantize_search_int_more_fuel (SCALE : Int → Bool) (flag : Bool) (fuel k : Nat)
    (st : Search) (found : Found)
    (h : quantize_search_int SCALE flag fuel st = some found) :
    quantize_search_int SCALE flag (fuel + k) st = some found := by
  induction fuel generalizing st with
  | zero => simp [quantize_search_int] at h
  | succ fuel ih =>
    rw [Nat.add_right_comm]
    simp only [quantize_search_int] at h ⊢
    split_ifs at h ⊢ with h1 h2 h3 h4
    all_goals first | exact h | exact ih _ h

theorem quantize_voltage_run_more_fuel (fuel k : Nat) (mV : Int) (SCALE : Int → Bool)
    (q : Quantized) (h : quantize_voltage_run fuel mV SCALE = some q) :
    quantize_voltage_run (fuel + k) mV SCALE = some q := by
  rw [quantize_voltage_run_eq_int] at h ⊢
  simp only [quantize_voltage_run_int] at h ⊢
  split_ifs at h ⊢ with h0
  · exact h
  · revert h
    cases hs : quantize_search_int SCALE
        (decide (round_tones_int (Int.tmod mV 1000) = Int.tmod mV 1000 * 10000 / 833333)) fuel
        ⟨Int.tmod mV 1000 * 10000 / 833333, Int.tmod mV 1000 * 10000 / 833333 + 1, 0, 0, 0, []⟩ with
    | none => intro h; simp at h
    | some found =>
      intro h
      rw [quantize_search_int_more_fuel _ _ _ k _ _ hs]
      exact h

theorem count_switches_empty (SCALE : Int → Bool)
    (hoff : ∀ i : Int, 0 ≤ i → i < 12 → SCALE i = false) :
    count_switches 12 0 SCALE 0 = 0 := by
  have h0 := hoff 0 (by norm_num) (by norm_num)
  have h1 := hoff 1 (by norm_num) (by norm_num)
  have h2 := hoff 2 (by norm_num) (by norm_num)
  have h3 := hoff 3 (by norm_num) (by norm_num)
  have h4 := hoff 4 (by norm_num) (by norm_num)
  have h5 := hoff 5 (by norm_num) (by norm_num)
  have h6 := hoff 6 (by norm_num) (by norm_num)
  have h7 := hoff 7 (by norm_num) (by norm_num)
  have h8 := hoff 8 (by norm_num) (by norm_num)
  have h9 := hoff 9 (by norm_num) (by norm_num)
  have h10 := hoff 10 (by norm_num) (by norm_num)
  have h11 := hoff 11 (by norm_num) (by norm_num)
  simp [count_switches, h0, h1, h2, h3, h4, h5, h6, h7, h8, h9, h10, h11]

/-- C6: for a scale whose 12 tones are all disabled, and every integer `mV` (positive,
zero or negative), `quantize_voltage` returns `mV` itself; the search loop is not
entered (no fuel is needed, no cell is read by the search, no widening happens). -/
theorem C6_empty_scale_unchanged (fuel : Nat) (mV : Int) (SCALE : Int → Bool)
    (hoff : ∀ i : Int, 0 ≤ i → i < 12 → SCALE i = false) :
    quantize_voltage fuel mV SCALE = some mV ∧
    quantize_voltage_run fuel mV SCALE = some ⟨mV, false, 0, []⟩ := by
  have hc := count_switches_empty SCALE hoff
  have hrun : quantize_voltage_run fuel mV SCALE = some ⟨mV, false, 0, []⟩ := by
    simp only [quantize_voltage_run, hc, if_true]
  exact ⟨by rw [quantize_voltage, hrun]; rfl, hrun⟩

theorem C6_empty_scale_unchanged_witness :
    (∀ i : Int, 0 ≤ i → i < 12 → empty_scale (fun _ => true) i = false) ∧
    quantize_voltage 0 (-450) (empty_scale (fun _ => true)) = some (-450) ∧
    quantize_voltage_run 0 (-450) (empty_scale (fun _ => true)) = some ⟨-450, false, 0, []⟩ :=
  ⟨fun i h0 h1 => by simp [empty_scale, h0, h1],
   C6_empty_scale_unchanged 0 (-450) (empty_scale (fun _ => true))
     (fun i h0 h1 => by simp [empty_scale, h0, h1])⟩

/-- C5 at the failing input `mV = 950`, scale = tone 0 only: with `floortone = 11`
the first iteration reads `SCALE[12]`, the cell after the scale, and the upper bound
is never wrapped to tone 0.  With a zero byte after the scale the call returns 0
(tone 0 of octave 0, 11.4 tones away) although tone 0 of octave 1 (1000 mV) is enabled
and 0.6 tones away; with a non-zero byte after the scale it returns 999, the voltage
of the position 12, which is no tone of the scale. -/
theorem C5_failing_input :
    (∀ k : Nat, quantize_voltage (12 + k) 950 root_only = some 0) ∧
    (∀ k : Nat, quantize_voltage (1 + k) 950 root_only_then_set = some 999) ∧
    root_only 0 = true ∧ root_only_then_set 0 = true ∧
    ¬ (|(12 * 0 + 0 : ℚ) - 950 / 83.3333| ≤ |(12 * 1 + 0 : ℚ) - 950 / 83.3333|) := by
  refine ⟨fun k => ?_, fun k => ?_, by decide, by decide, ?_⟩
  · rw [quantize_voltage, quantize_voltage_run_more_fuel 12 k 950 root_only
      ⟨0, true, 11, [11, 12, 10, 13, 9, 14, 8, 15, 7, 16, 6, 17, 5, 18, 4, 19, 3, 20, 2, 21,
        1, 22, 0, 23]⟩ (by rw [quantize_voltage_run_eq_int]; decide)]
    rfl
  · rw [quantize_voltage, quantize_voltage_run_more_fuel 1 k 950 root_only_then_set
      ⟨999, true, 0, [11, 12]⟩ (by rw [quantize_voltage_run_eq_int]; decide)]
    rfl
  · rw [abs_of_nonpos (by norm_num), abs_of_nonneg (by norm_num)]
    norm_num

/-- C7 at the failing input `mV = 950`, scale = tone 0 only, zero bytes after the
scale: the search is still running after 11 iterations and ends in the 12th, having
run the widening branch 11 times; the cells read are 11, 12, 10, 13, ..., 0, 23. -/
theorem C7_failing_input :
    quantize_voltage_run 11 950 root_only = none ∧
    ∀ k : Nat, quantize_voltage_run (12 + k) 950 root_only
      = some ⟨0, true, 11, [11, 12, 10, 13, 9, 14, 8, 15, 7, 16, 6, 17, 5, 18, 4, 19, 3, 20,
          2, 21, 1, 22, 0, 23]⟩ := by
  refine ⟨by rw [quantize_voltage_run_eq_int]; decide, fun k => ?_⟩
  exact quantize_voltage_run_more_fuel 12 k 950 root_only _
    (by rw [quantize_voltage_run_eq_int]; decide)

/-- C8 at the failing input `mV = 950`, scale = tone 0 only: `950 % 1000` is above 500,
the nearer octave boundary is 1000, and the call returns 0 when a zero byte follows
the scale and 999 (not a multiple of 1000) when a non-zero byte follows it; for
`mV = 450` the result is 0 as claimed. -/
theorem C8_failing_input :
    Int.tmod 950 1000 > 500 ∧ 1000 * (Int.tdiv 950 1000 + 1) = 1000 ∧
    (∀ k : Nat, quantize_voltage (12 + k) 950 root_only = some 0) ∧
    (∀ k : Nat, quantize_voltage (1 + k) 950 root_only_then_set = some 999) ∧
    (∀ k : Nat, quantize_voltage (6 + k) 450 root_only = some 0) := by
  refine ⟨by decide, by decide, fun k => ?_, fun k => ?_, fun k => ?_⟩
  · rw [quantize_voltage, quantize_voltage_run_more_fuel 12 k 950 root_only
      ⟨0, true, 11, [11, 12, 10, 13, 9, 14, 8, 15, 7, 16, 6, 17, 5, 18, 4, 19, 3, 20, 2, 21,
        1, 22, 0, 23]⟩ (by rw [quantize_voltage_run_eq_int]; decide)]
    rfl
  · rw [quantize_voltage, quantize_voltage_run_more_fuel 1 k 950 root_only_then_set
      ⟨999, true, 0, [11, 12]⟩ (by rw [quantize_voltage_run_eq_int]; decide)]
    rfl
  · rw [quantize_voltage, quantize_voltage_run_more_fuel 6 k 450 root_only
      ⟨0, true, 5, [5, 6, 4, 7, 3, 8, 2, 9, 1, 10, 0, 11]⟩
      (by rw [quantize_voltage_run_eq_int]; decide)]
    rfl

/-! ### The read past the scale -/

theorem quantize_search_int_reads (SCALE : Int → Bool) (flag : Bool) (fuel : Nat)
    (st : Search) (found : Found)
    (h : quantize_search_int SCALE flag fuel st = some found) :
    ∃ more, found.reads = st.reads ++ [st.floortone, st.ceiltone] ++ more := by
  induction fuel generalizing st with
  | zero => simp [quantize_search_int] at h
  | succ fuel ih =>
    simp only [quantize_search_int] at h
    split_ifs at h with h1 h2 h3 h4
    · exact ⟨[], by simp at h; rw [← h]; simp⟩
    · exact ⟨[], by simp at h; rw [← h]; simp⟩
    · exact ⟨[], by simp at h; rw [← h]; simp⟩
    · exact ⟨[], by simp at h; rw [← h]; simp⟩
    · obtain ⟨more, hmore⟩ := ih _ h
      refine ⟨st.widen.floortone :: st.widen.ceiltone :: more, ?_⟩
      rw [hmore]
      have : st.widen.reads = st.reads ++ [st.floortone, st.ceiltone] := rfl
      rw [this]
      simp

/-- The defect behind C5, C7 and C8 in general: for every `mV ≥ 0` with
`mV % 1000 ≥ 917` and every scale with a tone enabled, a call that returns has read
`SCALE[12]`, the cell after the 12-element scale, in its first iteration. -/
theorem quantize_reads_past_scale (fuel : Nat) (mV : Int) (SCALE : Int → Bool)
    (q : Quantized) (h0 : 0 ≤ mV) (hres : 917 ≤ mV % 1000)
    (hon : count_switches 12 0 SCALE 0 ≠ 0)
    (hq : quantize_voltage_run fuel mV SCALE = some q) :
    ∃ more, q.reads = [11, 12] ++ more := by
  rw [quantize_voltage_run_eq_int] at hq
  simp only [quantize_voltage_run_int, hon, if_false] at hq
  have hmod : Int.tmod mV 1000 = mV % 1000 := Int.tmod_eq_emod h0 (by norm_num)
  have hfloor : Int.tmod mV 1000 * 10000 / 833333 = 11 := by
    rw [hmod]
    have := Int.emod_lt_of_pos mV (show (0 : Int) < 1000 by norm_num)
    omega
  rw [hfloor] at hq
  revert hq
  cases hs : quantize_search_int SCALE (decide (round_tones_int (Int.tmod mV 1000) = 11)) fuel
      ⟨11, 11 + 1, 0, 0, 0, []⟩ with
  | none => intro hq; simp at hq
  | some found =>
    intro hq
    obtain ⟨more, hmore⟩ := quantize_search_int_reads _ _ _ _ _ hs
    simp only [Option.some.injEq] at hq
    refine ⟨more, ?_⟩
    rw [← hq]
    simpa using hmore

/-! ### The search on the tones 0 .. 10 as lower bound -/

theorem SearchInv.widen {SCALE : Int → Bool} {f0 : Int} {k : Nat} {st : Search}
    (inv : SearchInv SCALE f0 k st) (hf : SCALE st.floortone = false)
    (hc : SCALE st.ceiltone = false) : SearchInv SCALE f0 (k + 1) st.widen := by
  obtain ⟨h1, h2, h3, h4, h5, h6, h7, h8, h9⟩ := inv
  have hfm : (f0 - k) % 12 = st.floortone := by omega
  have hcm : (f0 + 1 + k) % 12 = st.ceiltone := by omega
  refine ⟨?_, ?_, ?_, ?_, ?_, ?_, ?_, ?_, ?_⟩
  · simp [Search.widen, h1]
  · simp only [Search.widen]; split_ifs <;> first | (simp; done) | (simp; omega)
  · simp only [Search.widen]; split_ifs <;> first | (simp; done) | (simp; omega)
  · simp only [Search.widen]; split_ifs <;> first | (simp; done) | (simp; omega)
  · simp only [Search.widen]; split_ifs <;> first | (simp; done) | (simp; omega)
  · simp only [Search.widen]; split_ifs <;> (simp; omega)
  · simp only [Search.widen]; split_ifs <;> (simp; omega)
  · intro P hlo hhi
    push_cast at hlo hhi
    by_cases hPf : P = f0 - k
    · rw [hPf, hfm]; exact hf
    · by_cases hPc : P = f0 + 1 + k
      · rw [hPc, hcm]; exact hc
      · exact h8 P (by omega) (by omega)
  · intro r hr
    simp only [Search.widen, List.mem_append, List.mem_cons, List.mem_singleton,
      List.not_mem_nil, or_false] at hr
    rcases hr with hr | hr | hr
    · exact h9 r hr
    · subst hr; exact ⟨h2, h3⟩
    · subst hr; exact ⟨h4, h5⟩

theorem exists_enabled_of_count (SCALE : Int → Bool)
    (hon : count_switches 12 0 SCALE 0 ≠ 0) : ∃ i : Int, 0 ≤ i ∧ i < 12 ∧ SCALE i = true := by
  by_contra hno
  apply hon
  apply count_switches_empty
  intro i h0 h1
  by_contra hi
  exact hno ⟨i, h0, h1, by simpa using hi⟩

theorem Clear.not_twelve {SCALE : Int → Bool} {F C : Int} (h : Clear SCALE F C)
    (hwide : F + 13 ≤ C) (hon : count_switches 12 0 SCALE 0 ≠ 0) : False := by
  obtain ⟨i, h0, h1, hi⟩ := exists_enabled_of_count SCALE hon
  have := h (F + 1 + (i - (F + 1)) % 12) (by omega) (by omega)
  have e : (F + 1 + (i - (F + 1)) % 12) % 12 = i := by omega
  rw [e, hi] at this
  cases this

theorem quantize_search_int_ok (SCALE : Int → Bool) (flag : Bool) (f0 : Int)
    (hon : count_switches 12 0 SCALE 0 ≠ 0) (fuel k : Nat) (st : Search)
    (inv : SearchInv SCALE f0 k st) (hk : k ≤ 5) (hfuel : 6 ≤ k + fuel) :
    ∃ found, quantize_search_int SCALE flag fuel st = some found ∧
      SearchPost SCALE flag f0 found := by
  induction fuel generalizing k st with
  | zero => omega
  | succ fuel ih =>
    have hfm : (f0 - k) % 12 = st.floortone := by
      have := inv.floor_pos; have := inv.floor_lo; have := inv.floor_hi; omega
    have hcm : (f0 + 1 + k) % 12 = st.ceiltone := by
      have := inv.ceil_pos; have := inv.ceil_lo; have := inv.ceil_hi; omega
    have hreads : ∀ r ∈ st.reads ++ [st.floortone, st.ceiltone], 0 ≤ r ∧ r ≤ 11 := by
      intro r hr
      simp only [List.mem_append, List.mem_cons, List.mem_singleton,
        List.not_mem_nil, or_false] at hr
      rcases hr with hr | hr | hr
      · exact inv.reads r hr
      · subst hr; exact ⟨inv.floor_lo, inv.floor_hi⟩
      · subst hr; exact ⟨inv.ceil_lo, inv.ceil_hi⟩
    have pick_floor : (SCALE st.ceiltone = true → flag = true) → SCALE st.floortone = true →
        SearchPost SCALE flag f0
          ⟨st.floortone, st.octave_shift_f, st.widenings, st.reads ++ [st.floortone, st.ceiltone]⟩ := by
      intro hflag hf
      refine ⟨by simp [inv.widenings, hk], inv.floor_lo, inv.floor_hi, hf, hreads, ?_, ?_⟩
      · simp only [inv.widenings]; exact inv.clear
      · left
        simp only [inv.widenings]
        exact ⟨inv.floor_pos, by rw [hcm]; exact hflag⟩
    have pick_ceil : (SCALE st.floortone = true → flag = false) → SCALE st.ceiltone = true →
        SearchPost SCALE flag f0
          ⟨st.ceiltone, st.octave_shift_c, st.widenings, st.reads ++ [st.floortone, st.ceiltone]⟩ := by
      intro hflag hc
      refine ⟨by simp [inv.widenings, hk], inv.ceil_lo, inv.ceil_hi, hc, hreads, ?_, ?_⟩
      · simp only [inv.widenings]; exact inv.clear
      · right
        simp only [inv.widenings]
        exact ⟨inv.ceil_pos, by rw [hfm]; exact hflag⟩
    cases hf : SCALE st.floortone <;> cases hc : SCALE st.ceiltone
    · -- neither bound is enabled: widen
      have hstep : quantize_search_int SCALE flag (fuel + 1) st
          = quantize_search_int SCALE flag fuel st.widen := by
        simp [quantize_search_int, hf, hc]
      rw [hstep]
      have inv' := inv.widen hf hc
      by_cases hk5 : k = 5
      · exfalso
        exact inv'.clear.not_twelve (by push_cast; omega) hon
      · exact ih (k + 1) st.widen inv' (by omega) (by omega)
    · exact ⟨_, by simp [quantize_search_int, hf, hc],
        pick_ceil (by simp [hf]) hc⟩
    · exact ⟨_, by simp [quantize_search_int, hf, hc],
        pick_floor (by simp [hc]) hf⟩
    · by_cases hflag : flag = true
      · exact ⟨_, by simp [quantize_search_int, hf, hc, hflag],
          pick_floor (fun _ => hflag) hf⟩
      · exact ⟨_, by simp [quantize_search_int, hf, hc, hflag],
          pick_ceil (fun _ => by simpa using hflag) hc⟩

theorem SearchPost.nearest {SCALE : Int → Bool} {flag : Bool} {f0 r : Int} {found : Found}
    (post : SearchPost SCALE flag f0 found)
    (hlo : 833333 * f0 ≤ 10000 * r) (hhi : 10000 * r < 833333 * (f0 + 1))
    (hflag : flag = true ↔ 20000 * r < 1666666 * f0 + 833333)
    (t' s' : Int) (ht0 : 0 ≤ t') (ht1 : t' ≤ 11) (hon : SCALE t' = true) :
    |((12 * found.octave_shift + found.outTone : Int) : ℚ) - (r : ℚ) / 83.3333|
      ≤ |((12 * s' + t' : Int) : ℚ) - (r : ℚ) / 83.3333| := by
  obtain ⟨hw, _, _, _, _, hclear, hchoice⟩ := post
  have hp : (r : ℚ) / 83.3333 * 833333 = 10000 * r := by norm_num; ring
  generalize (r : ℚ) / 83.3333 = p at hp ⊢
  have qlo : (833333 : ℚ) * f0 ≤ 10000 * r := by exact_mod_cast hlo
  have qhi : (10000 : ℚ) * r < 833333 * (f0 + 1) := by exact_mod_cast hhi
  have hmod : (12 * s' + t') % 12 = t' := by omega
  have hout : 12 * s' + t' ≤ f0 - found.widenings ∨ f0 + 1 + found.widenings ≤ 12 * s' + t' := by
    by_contra hin
    have := hclear (12 * s' + t') (by omega) (by omega)
    rw [hmod, hon] at this
    cases this
  have hk : (0 : ℚ) ≤ (found.widenings : ℚ) := Nat.cast_nonneg _
  rcases hchoice with ⟨hT, hother⟩ | ⟨hT, hother⟩
  · have hTq : ((12 * found.octave_shift + found.outTone : Int) : ℚ) = f0 - found.widenings := by
      have : 12 * found.octave_shift + found.outTone = f0 - found.widenings := by omega
      rw [this]; push_cast; ring
    rw [hTq, abs_of_nonpos (by linarith)]
    rcases hout with hP | hP
    · have hPq : ((12 * s' + t' : Int) : ℚ) ≤ f0 - found.widenings := by exact_mod_cast hP
      calc -((f0 : ℚ) - found.widenings - p) ≤ -(((12 * s' + t' : Int) : ℚ) - p) := by linarith
        _ ≤ _ := neg_le_abs _
    · by_cases hPe : 12 * s' + t' = f0 + 1 + found.widenings
      · have hfl : flag = true := hother (by rw [← hPe, hmod]; exact hon)
        have h3 : (20000 : ℚ) * r < 1666666 * f0 + 833333 := by exact_mod_cast hflag.1 hfl
        have hPq : ((12 * s' + t' : Int) : ℚ) = f0 + 1 + found.widenings := by
          rw [hPe]; push_cast; ring
        calc -((f0 : ℚ) - found.widenings - p) ≤ ((12 * s' + t' : Int) : ℚ) - p := by
              rw [hPq]; linarith
          _ ≤ _ := le_abs_self _
      · have hP2 : f0 + 2 + found.widenings ≤ 12 * s' + t' := by omega
        have hPq : (f0 : ℚ) + 2 + found.widenings ≤ ((12 * s' + t' : Int) : ℚ) := by
          exact_mod_cast hP2
        calc -((f0 : ℚ) - found.widenings - p) ≤ ((12 * s' + t' : Int) : ℚ) - p := by linarith
          _ ≤ _ := le_abs_self _
  · have hTq : ((12 * found.octave_shift + found.outTone : Int) : ℚ)
        = f0 + 1 + found.widenings := by
      have : 12 * found.octave_shift + found.outTone = f0 + 1 + found.widenings := by omega
      rw [this]; push_cast; ring
    rw [hTq, abs_of_nonneg (by linarith)]
    rcases hout with hP | hP
    · by_cases hPe : 12 * s' + t' = f0 - found.widenings
      · have hfl : flag = false := hother (by rw [← hPe, hmod]; exact hon)
        have h4 : (1666666 : ℚ) * f0 + 833333 ≤ 20000 * r := by
          have : ¬ 20000 * r < 1666666 * f0 + 833333 := by
            intro hc; rw [hflag.2 hc] at hfl; cases hfl
          exact_mod_cast not_lt.1 this
        have hPq : ((12 * s' + t' : Int) : ℚ) = f0 - found.widenings := by
          rw [hPe]; push_cast; ring
        calc (f0 : ℚ) + 1 + found.widenings - p ≤ -(((12 * s' + t' : Int) : ℚ) - p) := by
              rw [hPq]; linarith
          _ ≤ _ := neg_le_abs _
      · have hP2 : 12 * s' + t' ≤ f0 - 1 - found.widenings := by omega
        have hPq : ((12 * s' + t' : Int) : ℚ) ≤ (f0 : ℚ) - 1 - found.widenings := by
          exact_mod_cast hP2
        calc (f0 : ℚ) + 1 + found.widenings - p ≤ -(((12 * s' + t' : Int) : ℚ) - p) := by
              linarith
          _ ≤ _ := neg_le_abs _
    · have hPq : (f0 : ℚ) + 1 + found.widenings ≤ ((12 * s' + t' : Int) : ℚ) := by
        exact_mod_cast hP
      calc (f0 : ℚ) + 1 + found.widenings - p ≤ ((12 * s' + t' : Int) : ℚ) - p := by linarith
        _ ≤ _ := le_abs_self _

/-- The contract of `quantize_voltage` away from the defect: for `mV ≥ 0` with
`mV % 1000 < 917` and a scale with a tone enabled, the call returns within 6 loop
iterations (at most 5 widenings), reads only cells of the scale, and returns the
voltage of an enabled tone `t` in octave `mV / 1000 + s` such that no enabled tone
in any octave is nearer to the tone position `(mV % 1000) / 83.3333`. -/
theorem quantize_voltage_in_range (mV : Int) (SCALE : Int → Bool) (h0 : 0 ≤ mV)
    (hres : mV % 1000 < 917) (hon : count_switches 12 0 SCALE 0 ≠ 0) :
    ∃ (q : Quantized) (t s : Int),
      quantize_voltage_run 6 mV SCALE = some q ∧
      q.widenings ≤ 5 ∧ (∀ r ∈ q.reads, 0 ≤ r ∧ r ≤ 11) ∧
      0 ≤ t ∧ t ≤ 11 ∧ SCALE t = true ∧ -1 ≤ s ∧ s ≤ 1 ∧
      q.new_mV = c_trunc ((((mV / 1000 + s) * 1000 : Int) : ℚ) + (t : ℚ) * 83.3333) ∧
      ∀ t' s' : Int, 0 ≤ t' → t' ≤ 11 → SCALE t' = true →
        |((12 * s + t : Int) : ℚ) - ((mV % 1000 : Int) : ℚ) / 83.3333|
          ≤ |((12 * s' + t' : Int) : ℚ) - ((mV % 1000 : Int) : ℚ) / 83.3333| := by
  have hmod : Int.tmod mV 1000 = mV % 1000 := Int.tmod_eq_emod h0 (by norm_num)
  have hdiv : Int.tdiv mV 1000 = mV / 1000 := Int.tdiv_eq_ediv h0 (by norm_num)
  have hr0 : 0 ≤ mV % 1000 := Int.emod_nonneg _ (by norm_num)
  generalize hr : mV % 1000 = r at hres hmod hr0 ⊢
  have hf0 : 0 ≤ r * 10000 / 833333 := by omega
  have hf1 : r * 10000 / 833333 ≤ 10 := by omega
  generalize hf : r * 10000 / 833333 = f0 at hf0 hf1
  have hlo : 833333 * f0 ≤ 10000 * r := by omega
  have hhi : 10000 * r < 833333 * (f0 + 1) := by omega
  have hflag : decide (round_tones_int r = f0) = true ↔ 20000 * r < 1666666 * f0 + 833333 := by
    rw [decide_eq_true_iff, round_tones_int, if_pos hr0,
      Int.tdiv_eq_ediv (by omega) (by norm_num)]
    omega
  have inv : SearchInv SCALE f0 0 ⟨f0, f0 + 1, 0, 0, 0, []⟩ :=
    ⟨rfl, hf0, by simp only; omega, by simp only; omega, by simp only; omega,
      by simp, by simp, fun P h1 h2 => by simp at h1 h2; omega, by simp⟩
  obtain ⟨found, hfound, post⟩ :=
    quantize_search_int_ok SCALE (decide (round_tones_int r = f0)) f0 hon 6 0 _ inv
      (by norm_num) (by norm_num)
  refine ⟨⟨Int.tdiv ((mV / 1000 * 1000 + found.octave_shift * 1000) * 10000
      + found.outTone * 833333) 10000, true, found.widenings, found.reads⟩,
    found.outTone, found.octave_shift, ?_, post.widenings, post.reads, post.tone_lo,
    post.tone_hi, post.enabled, ?_, ?_, ?_, ?_⟩
  · rw [quantize_voltage_run_eq_int]
    simp only [quantize_voltage_run_int, hon, if_false, hmod, hf, hfound, hdiv]
  · have := post.widenings
    rcases post.choice with ⟨hT, _⟩ | ⟨hT, _⟩ <;>
      have := post.tone_lo <;> have := post.tone_hi <;> omega
  · have := post.widenings
    rcases post.choice with ⟨hT, _⟩ | ⟨hT, _⟩ <;>
      have := post.tone_lo <;> have := post.tone_hi <;> omega
  · simp only
    rw [c_trunc_tone_voltage]
    congr 1
    ring
  · intro t' s' ht0 ht1 hen
    exact post.nearest hlo hhi hflag t' s' ht0 ht1 hen

theorem quantize_voltage_in_range_witness :
    ∃ (q : Quantized) (t s : Int),
      quantize_voltage_run 6 450 root_only = some q ∧
      q.widenings ≤ 5 ∧ (∀ r ∈ q.reads, 0 ≤ r ∧ r ≤ 11) ∧
      0 ≤ t ∧ t ≤ 11 ∧ root_only t = true ∧ -1 ≤ s ∧ s ≤ 1 ∧
      q.new_mV = c_trunc (((((450 : Int) / 1000 + s) * 1000 : Int) : ℚ) + (t : ℚ) * 83.3333) ∧
      ∀ t' s' : Int, 0 ≤ t' → t' ≤ 11 → root_only t' = true →
        |((12 * s + t : Int) : ℚ) - (((450 : Int) % 1000 : Int) : ℚ) / 83.3333|
          ≤ |((12 * s' + t' : Int) : ℚ) - (((450 : Int) % 1000 : Int) : ℚ) / 83.3333| :=
  quantize_voltage_in_range 450 root_only (by decide) (by decide) (by decide)

/-! ### The scale with tone 0 only -/

theorem count_switches_root (SCALE : Int → Bool)
    (hroot : ∀ i : Int, 0 ≤ i → i < 12 → SCALE i = decide (i = 0)) :
    count_switches 12 0 SCALE 0 ≠ 0 := by
  have h0 := hroot 0 (by norm_num) (by norm_num)
  have h1 := hroot 1 (by norm_num) (by norm_num)
  have h2 := hroot 2 (by norm_num) (by norm_num)
  have h3 := hroot 3 (by norm_num) (by norm_num)
  have h4 := hroot 4 (by norm_num) (by norm_num)
  have h5 := hroot 5 (by norm_num) (by norm_num)
  have h6 := hroot 6 (by norm_num) (by norm_num)
  have h7 := hroot 7 (by norm_num) (by norm_num)
  have h8 := hroot 8 (by norm_num) (by norm_num)
  have h9 := hroot 9 (by norm_num) (by norm_num)
  have h10 := hroot 10 (by norm_num) (by norm_num)
  have h11 := hroot 11 (by norm_num) (by norm_num)
  simp [count_switches, h0, h1, h2, h3, h4, h5, h6, h7, h8, h9, h10, h11]

/-- Tone 0 only, away from the defect: for `mV ≥ 0` with `mV % 1000 < 917` the call
returns the nearer octave boundary, `1000 * (mV / 1000)` when `mV % 1000 < 500` and
`1000 * (mV / 1000 + 1)` otherwise. -/
theorem quantize_voltage_root_in_range (mV : Int) (SCALE : Int → Bool) (h0 : 0 ≤ mV)
    (hres : mV % 1000 < 917)
    (hroot : ∀ i : Int, 0 ≤ i → i < 12 → SCALE i = decide (i = 0)) :
    quantize_voltage 6 mV SCALE
      = some (if mV % 1000 < 500 then 1000 * (mV / 1000) else 1000 * (mV / 1000 + 1)) := by
  obtain ⟨q, t, s, hq, _, _, ht0, ht1, hen, hs0, hs1, hval, hnear⟩ :=
    quantize_voltage_in_range mV SCALE h0 hres (count_switches_root SCALE hroot)
  have ht : t = 0 := by
    have := hroot t ht0 (by omega)
    rw [hen] at this
    simpa using this.symm
  subst ht
  have hr0 : 0 ≤ mV % 1000 := Int.emod_nonneg _ (by norm_num)
  have hroot0 : SCALE 0 = true := by simpa using hroot 0 (by norm_num) (by norm_num)
  have n0 := hnear 0 0 (le_refl _) (by norm_num) hroot0
  have n1 := hnear 0 1 (le_refl _) (by norm_num) hroot0
  have hp : ((mV % 1000 : Int) : ℚ) / 83.3333 * 833333 = 10000 * ((mV % 1000 : Int) : ℚ) := by
    norm_num; ring
  have hrq0 : (0 : ℚ) ≤ ((mV % 1000 : Int) : ℚ) := by exact_mod_cast hr0
  generalize ((mV % 1000 : Int) : ℚ) / 83.3333 = p at hp n0 n1
  have hp0 : 0 ≤ p := by nlinarith
  rw [quantize_voltage, hq, Option.map_some', hval, c_trunc_tone_voltage]
  by_cases hlt : mV % 1000 < 500
  · have hrq : ((mV % 1000 : Int) : ℚ) ≤ 499 := by exact_mod_cast (by omega : mV % 1000 ≤ 499)
    have hp6 : p < 6 := by nlinarith
    have hs : s = 0 := by
      rcases (by omega : s = -1 ∨ s = 0 ∨ s = 1) with h | h | h
      · subst h
        norm_num at n0
        rw [abs_of_nonpos (by linarith), abs_of_nonneg hp0] at n0
        linarith
      · exact h
      · subst h
        norm_num at n0
        rw [abs_of_nonneg (by linarith), abs_of_nonneg hp0] at n0
        linarith
    subst hs
    rw [if_pos hlt]
    congr 1
    rw [Int.tdiv_eq_ediv (by have := Int.ediv_nonneg h0 (show (0 : Int) ≤ 1000 by norm_num); omega)
      (by norm_num)]
    omega
  · have hrq : (500 : ℚ) ≤ ((mV % 1000 : Int) : ℚ) := by exact_mod_cast (by omega : 500 ≤ mV % 1000)
    have hp6 : 6 < p := by nlinarith
    have hrq9 : ((mV % 1000 : Int) : ℚ) ≤ 916 := by exact_mod_cast (by omega : mV % 1000 ≤ 916)
    have hp12 : p < 12 := by nlinarith
    have hs : s = 1 := by
      rcases (by omega : s = -1 ∨ s = 0 ∨ s = 1) with h | h | h
      · subst h
        norm_num at n0
        rw [abs_of_nonpos (by linarith), abs_of_nonneg hp0] at n0
        linarith
      · subst h
        norm_num at n1
        rw [abs_of_nonneg hp0, abs_of_nonneg (by linarith)] at n1
        linarith
      · exact h
    subst hs
    rw [if_neg hlt]
    congr 1
    rw [Int.tdiv_eq_ediv (by have := Int.ediv_nonneg h0 (show (0 : Int) ≤ 1000 by norm_num); omega)
      (by norm_num)]
    omega

theorem quantize_search_int_past_scale (SCALE : Int → Bool) (flag : Bool)
    (hroot : ∀ i : Int, 0 ≤ i → i < 12 → SCALE i = decide (i = 0))
    (fuel : Nat) (st : Search) (found : Found)
    (hf0 : 0 ≤ st.floortone) (hf1 : st.floortone ≤ 11) (hc : 12 ≤ st.ceiltone)
    (hsf : st.octave_shift_f = 0) (hsc : st.octave_shift_c = 0)
    (h : quantize_search_int SCALE flag fuel st = some found) :
    (found.outTone = 0 ∨ 12 ≤ found.outTone) ∧ found.octave_shift = 0 := by
  induction fuel generalizing st with
  | zero => simp [quantize_search_int] at h
  | succ fuel ih =>
    have hfl := hroot st.floortone hf0 (by omega)
    have floor_case : SCALE st.floortone = true → st.floortone = 0 := by
      intro ht
      rw [ht] at hfl
      simpa using hfl.symm
    simp only [quantize_search_int] at h
    split_ifs at h with h1 h2 h3 h4
    · simp only [Option.some.injEq] at h
      subst h
      simp only [Bool.and_eq_true, beq_iff_eq] at h1
      exact ⟨Or.inl (floor_case h1.1), hsf⟩
    · simp only [Option.some.injEq] at h
      subst h
      exact ⟨Or.inr hc, hsc⟩
    · simp only [Option.some.injEq] at h
      subst h
      simp only [Bool.and_eq_true, beq_iff_eq] at h3
      exact ⟨Or.inl (floor_case h3.1), hsf⟩
    · simp only [Option.some.injEq] at h
      subst h
      exact ⟨Or.inr hc, hsc⟩
    · have hff : SCALE st.floortone = false := by
        cases hb : SCALE st.floortone
        · rfl
        · cases hb2 : SCALE st.ceiltone <;> simp [hb, hb2] at h1 h3
      have hne : st.floortone ≠ 0 := by
        intro h0
        rw [h0] at hff
        have := hroot 0 (le_refl _) (by norm_num)
        rw [hff] at this
        simp at this
      have e1 : st.widen.floortone = st.floortone - 1 := by
        simp only [Search.widen]
        rw [if_neg (by omega)]
      have e2 : st.widen.ceiltone = st.ceiltone + 1 := by
        simp only [Search.widen]
        rw [if_neg (by omega)]
      have e3 : st.widen.octave_shift_f = 0 := by
        simp only [Search.widen]
        rw [if_neg (by omega)]
        exact hsf
      have e4 : st.widen.octave_shift_c = 0 := by
        simp only [Search.widen]
        rw [if_neg (by omega)]
        exact hsc
      exact ih st.widen (by omega) (by omega) (by omega) e3 e4 h

/-- The defect on the scale with tone 0 only, whatever memory follows the scale: for
every `mV ≥ 0` with `mV % 1000 ≥ 917` a call that returns does not return the nearer
octave boundary `1000 * (mV / 1000 + 1)`. -/
theorem quantize_voltage_root_past_scale (fuel : Nat) (mV : Int) (SCALE : Int → Bool)
    (v : Int) (h0 : 0 ≤ mV) (hres : 917 ≤ mV % 1000)
    (hroot : ∀ i : Int, 0 ≤ i → i < 12 → SCALE i = decide (i = 0))
    (hv : quantize_voltage fuel mV SCALE = some v) :
    v ≠ 1000 * (mV / 1000 + 1) := by
  have hon := count_switches_root SCALE hroot
  rw [quantize_voltage, quantize_voltage_run_eq_int] at hv
  simp only [quantize_voltage_run_int, hon, if_false] at hv
  have hmod : Int.tmod mV 1000 = mV % 1000 := Int.tmod_eq_emod h0 (by norm_num)
  have hdiv : Int.tdiv mV 1000 = mV / 1000 := Int.tdiv_eq_ediv h0 (by norm_num)
  have hfloor : Int.tmod mV 1000 * 10000 / 833333 = 11 := by
    rw [hmod]
    have := Int.emod_lt_of_pos mV (show (0 : Int) < 1000 by norm_num)
    omega
  rw [hfloor, hdiv] at hv
  revert hv
  cases hs : quantize_search_int SCALE (decide (round_tones_int (Int.tmod mV 1000) = 11)) fuel
      ⟨11, 11 + 1, 0, 0, 0, []⟩ with
  | none => intro hv; simp at hv
  | some found =>
    intro hv
    obtain ⟨htone, hshift⟩ := quantize_search_int_past_scale SCALE _ hroot fuel _ found
      (by norm_num) (by norm_num) (by norm_num) rfl rfl hs
    simp only [Option.map_some', Option.some.injEq] at hv
    rw [← hv, hshift]
    have hb := Int.ediv_nonneg h0 (show (0 : Int) ≤ 1000 by norm_num)
    rcases htone with ht | ht
    · rw [ht, Int.tdiv_eq_ediv (by omega) (by norm_num)]
      omega
    · rw [Int.tdiv_eq_ediv (by omega) (by norm_num)]
      omega

/-! ## The output change filter -/

theorem write_dac_code_ne_nil (data : Nat → Bool) (pin_cs pin_sck pin_sdi pin_ldac : Int) :
    write_dac_code data pin_cs pin_sck pin_sdi pin_ldac ≠ [] := by
  simp [write_dac_code]

theorem write_output_some (s : EuroStep) (i : Nat) (r : EuroStep × List BoardCall)
    (h : s.write_output i = some r) :
    r.1.NUMBER_OF_OUTPUTS = s.NUMBER_OF_OUTPUTS ∧
    r.1.output_values = s.output_values ∧
    r.1.output_mode_is_analog = s.output_mode_is_analog ∧
    r.1.output_values_old = Function.update s.output_values_old i (s.output_values i) ∧
    r.1.dac_event = s.dac_event + (if s.output_mode_is_analog i then 1 else 0) ∧
    (r.2 ≠ [] ↔ s.output_values i ≠ s.output_values_old i) ∧
    r.1.pins_output = s.pins_output ∧
    r.1.pins_dac_a = s.pins_dac_a ∧
    r.1.pins_dac_b = s.pins_dac_b ∧
    (r.2 ≠ [] → IsChannelWrite s i r.2) := by
  unfold IsChannelWrite
  obtain ⟨s1, calls⟩ := r
  by_cases ha : s.output_mode_is_analog i = true
  · by_cases hd : s.dac_event + 1 ≤ 4
    · by_cases hv : s.output_values i = s.output_values_old i
      · simp only [EuroStep.write_output, ha, hd, hv, if_true, ne_eq, not_true_eq_false,
          if_false, Option.some.injEq, Prod.mk.injEq] at h
        obtain ⟨h1, h2⟩ := h
        subst h1 h2
        simp [ha, hv]
      · by_cases h13 : s.dac_event + 1 = 1 ∨ s.dac_event + 1 = 3 <;>
          by_cases h12 : s.dac_event + 1 = 1 ∨ s.dac_event + 1 = 2 <;>
          simp only [EuroStep.write_output, ha, hd, hv, h13, h12, if_true, ne_eq,
            not_false_eq_true, if_false, Option.some.injEq, Prod.mk.injEq] at h <;>
          obtain ⟨h1, h2⟩ := h <;>
          subst h1 h2 <;>
          simp only [ha, if_true, ne_eq, write_dac_code_ne_nil, not_false_eq_true, hv,
            true_and, forall_true_left, and_true, true_iff]
        · exact ⟨s.dac_code, false, s.pins_dac_a, Or.inl rfl, rfl⟩
        · exact ⟨s.dac_code, false, s.pins_dac_b, Or.inr rfl, rfl⟩
        · exact ⟨s.dac_code, true, s.pins_dac_a, Or.inl rfl, rfl⟩
        · exact ⟨s.dac_code, true, s.pins_dac_b, Or.inr rfl, rfl⟩
    · simp [EuroStep.write_output, ha, hd] at h
  · by_cases hv : s.output_values i = s.output_values_old i
    · simp only [EuroStep.write_output, ha, hv, Bool.false_eq_true, if_false, ne_eq,
        not_true_eq_false, Option.some.injEq, Prod.mk.injEq] at h
      obtain ⟨h1, h2⟩ := h
      subst h1 h2
      simp [ha, hv]
    · simp only [EuroStep.write_output, ha, hv, Bool.false_eq_true, if_false, ne_eq,
        not_false_eq_true, if_true, Option.some.injEq, Prod.mk.injEq] at h
      obtain ⟨h1, h2⟩ := h
      subst h1 h2
      simp [ha, hv]

theorem write_output_none (s : EuroStep) (i : Nat) (h : s.write_output i = none) :
    s.output_mode_is_analog i = true ∧ 4 < s.dac_event + 1 := by
  by_cases ha : s.output_mode_is_analog i = true
  · by_cases hd : s.dac_event + 1 ≤ 4
    · by_cases hv : s.output_values i = s.output_values_old i <;>
        simp [EuroStep.write_output, ha, hd, hv] at h
    · exact ⟨ha, by omega⟩
  · simp [EuroStep.write_output, ha] at h

theorem analog_count_succ (mode : Nat → Bool) (i n : Nat) :
    analog_count mode i (n + 1) = (if mode i then 1 else 0) + analog_count mode (i + 1) n := by
  unfold analog_count
  rw [List.range'_succ, List.filter_cons]
  split_ifs
  · simp only [List.length_cons]; omega
  · omega

theorem write_outputs_loop_no_abort (n i : Nat) (s : EuroStep)
    (trace : List (Nat × List BoardCall))
    (h : s.dac_event + analog_count s.output_mode_is_analog i n ≤ 4) :
    (EuroStep.write_outputs_loop n i s trace).aborted = false := by
  induction n generalizing i s trace with
  | zero => rfl
  | succ n ih =>
    rw [analog_count_succ] at h
    unfold EuroStep.write_outputs_loop
    cases hw : s.write_output i with
    | none =>
      obtain ⟨ha, hd⟩ := write_output_none s i hw
      rw [ha] at h
      simp only [if_true] at h
      push_cast at h
      omega
    | some r =>
      obtain ⟨_, _, hmode, _, hev, _⟩ := write_output_some s i r hw
      simp only
      apply ih
      rw [hmode, hev]
      split_ifs at h ⊢ <;> push_cast at h ⊢ <;> omega

theorem write_outputs_loop_spec (n i : Nat) (s : EuroStep)
    (trace : List (Nat × List BoardCall))
    (h : (EuroStep.write_outputs_loop n i s trace).aborted = false) :
    (EuroStep.write_outputs_loop n i s trace).state.output_values = s.output_values ∧
    (∀ j, (EuroStep.write_outputs_loop n i s trace).state.output_values_old j
        = if i ≤ j ∧ j < i + n then s.output_values j else s.output_values_old j) ∧
    (EuroStep.write_outputs_loop n i s trace).trace.map Prod.fst
        = trace.map Prod.fst ++ List.range' i n ∧
    (∀ e ∈ (EuroStep.write_outputs_loop n i s trace).trace, e ∈ trace ∨
        (i ≤ e.1 ∧ e.1 < i + n ∧
          (e.2 ≠ [] ↔ s.output_values e.1 ≠ s.output_values_old e.1) ∧
          (e.2 ≠ [] → IsChannelWrite s e.1 e.2))) := by
  induction n generalizing i s trace with
  | zero =>
    refine ⟨rfl, fun j => ?_, by simp [EuroStep.write_outputs_loop], fun e he => Or.inl he⟩
    have : ¬ (i ≤ j ∧ j < i + 0) := by omega
    rw [if_neg this]
    rfl
  | succ n ih =>
    unfold EuroStep.write_outputs_loop at h ⊢
    cases hw : s.write_output i with
    | none => simp [hw] at h
    | some r =>
      simp only [hw] at h ⊢
      obtain ⟨_, hval, hmode, hold, _, hiff, hpo, hpa, hpb, hkind⟩ :=
        write_output_some s i r hw
      obtain ⟨h1, h2, h3, h4⟩ := ih (i + 1) r.1 (trace ++ [(i, r.2)]) h
      refine ⟨h1.trans hval, fun j => ?_, ?_, fun e he => ?_⟩
      · rw [h2 j, hval, hold, Function.update_apply]
        split_ifs <;> first | rfl | omega | (subst_vars; rfl)
      · rw [h3, List.range'_succ]
        simp
      · rcases h4 e he with hin | ⟨hlo, hhi, hne, hk⟩
        · rcases List.mem_append.1 hin with hin | hin
          · exact Or.inl hin
          · have he : e = (i, r.2) := by simpa using hin
            subst he
            exact Or.inr ⟨le_refl _, by omega, hiff, hkind⟩
        · refine Or.inr ⟨by omega, by omega, ?_, ?_⟩
          · rw [hne, hval, hold, Function.update_noteq (by omega)]
          · intro hne'
            have := hk hne'
            unfold IsChannelWrite at this ⊢
            rw [hmode, hval, hpo, hpa, hpb] at this
            exact this

theorem write_outputs_loop_quiet (n i : Nat) (s : EuroStep)
    (trace : List (Nat × List BoardCall))
    (h : ∀ j, i ≤ j → j < i + n → s.output_values j = s.output_values_old j) :
    (EuroStep.write_outputs_loop n i s trace).board_calls = (trace.map Prod.snd).flatten := by
  induction n generalizing i s trace with
  | zero => rfl
  | succ n ih =>
    unfold EuroStep.write_outputs_loop
    cases hw : s.write_output i with
    | none => rfl
    | some r =>
      obtain ⟨_, hval, _, hold, _, hiff, _⟩ := write_output_some s i r hw
      have hnil : r.2 = [] := by
        by_contra hne
        exact (hiff.1 hne) (h i (le_refl _) (by omega))
      simp only
      rw [ih (i + 1) r.1 _ (fun j hlo hhi => by
        rw [hval, hold, Function.update_noteq (by omega)]
        exact h j (by omega) (by omega)), hnil]
      simp

/-- C9: when `write_outputs` has run to its end in one cycle and runs again in the next
with no desired value `output_values[i]` changed in between (the committed values
`output_values_old` are touched by `write_outputs` only), the second call makes no
board call at all: no `digitalWrite` to an output pin and no DAC transfer, whatever
the output modes are in either cycle. -/
theorem C9_second_cycle_writes_nothing (s s2 : EuroStep)
    (hrun : s.write_outputs.aborted = false)
    (hN : s2.NUMBER_OF_OUTPUTS = s.NUMBER_OF_OUTPUTS)
    (hval : s2.output_values = s.write_outputs.state.output_values)
    (hold : s2.output_values_old = s.write_outputs.state.output_values_old) :
    s2.write_outputs.board_calls = [] := by
  unfold EuroStep.write_outputs at hrun hval hold ⊢
  obtain ⟨h1, h2, _, _⟩ := write_outputs_loop_spec _ _ _ _ hrun
  rw [write_outputs_loop_quiet]
  · rfl
  · intro j _ hj
    show s2.output_values j = s2.output_values_old j
    rw [hval, hold, h1, h2 j, hN] at *
    simp only [Nat.zero_add] at hj ⊢
    rw [if_pos ⟨Nat.zero_le _, hj⟩]

theorem C9_second_cycle_writes_nothing_witness :
    rasa3x2_changed.write_outputs.aborted = false ∧
    rasa3x2_changed.write_outputs.board_calls ≠ [] ∧
    rasa3x2_changed.write_outputs.state.write_outputs.board_calls = [] :=
  ⟨by decide, by decide,
   C9_second_cycle_writes_nothing rasa3x2_changed rasa3x2_changed.write_outputs.state
     (by decide) rfl rfl rfl⟩

/-- C10: in one call of `write_outputs` with at most 4 analog outputs the assertion
does not fire, every output `i < NUMBER_OF_OUTPUTS` is handled once, in index order, and
a hardware write is issued for `i` (a `digitalWrite` of its pin for a digital output, a
DAC frame transfer for an analog one) if and only if `output_values[i]` differs from
`output_values_old[i]` at entry; on return `output_values_old[i] = output_values[i]`
for every `i`, and `output_values` is unchanged. -/
theorem C10_write_iff_changed (s : EuroStep)
    (h4 : analog_count s.output_mode_is_analog 0 s.NUMBER_OF_OUTPUTS ≤ 4) :
    s.write_outputs.aborted = false ∧
    s.write_outputs.trace.map Prod.fst = List.range s.NUMBER_OF_OUTPUTS ∧
    (∀ i, i < s.NUMBER_OF_OUTPUTS →
      ((∃ calls, (i, calls) ∈ s.write_outputs.trace ∧ calls ≠ []) ↔
        s.output_values i ≠ s.output_values_old i)) ∧
    (∀ i calls, (i, calls) ∈ s.write_outputs.trace → calls ≠ [] → IsChannelWrite s i calls) ∧
    (∀ i, i < s.NUMBER_OF_OUTPUTS →
      s.write_outputs.state.output_values_old i = s.output_values i) ∧
    s.write_outputs.state.output_values = s.output_values := by
  have hrun : s.write_outputs.aborted = false := by
    unfold EuroStep.write_outputs
    apply write_outputs_loop_no_abort
    show (0 : Int) + ((analog_count s.output_mode_is_analog 0 s.NUMBER_OF_OUTPUTS : Nat) : Int) ≤ 4
    omega
  have hspec := write_outputs_loop_spec s.NUMBER_OF_OUTPUTS 0 { s with dac_event := 0 } [] hrun
  obtain ⟨h1, h2, h3, h4'⟩ := hspec
  have hfst : s.write_outputs.trace.map Prod.fst = List.range s.NUMBER_OF_OUTPUTS := by
    rw [List.range_eq_range']
    simpa using h3
  have hent : ∀ e ∈ s.write_outputs.trace,
      (e.2 ≠ [] ↔ s.output_values e.1 ≠ s.output_values_old e.1) ∧
      (e.2 ≠ [] → IsChannelWrite s e.1 e.2) := by
    intro e he
    rcases h4' e he with hin | ⟨_, _, hiff, hk⟩
    · simp at hin
    · exact ⟨hiff, hk⟩
  refine ⟨hrun, hfst, fun i hi => ⟨?_, fun hne => ?_⟩, fun i calls hmem hne => ?_,
    fun i hi => ?_, h1⟩
  · rintro ⟨calls, hmem, hne⟩
    exact (hent (i, calls) hmem).1.1 hne
  · have hi' : i ∈ s.write_outputs.trace.map Prod.fst := by
      rw [hfst]; exact List.mem_range.2 hi
    obtain ⟨e, he, hei⟩ := List.mem_map.1 hi'
    obtain ⟨j, calls⟩ := e
    simp only at hei
    subst hei
    exact ⟨calls, he, (hent (j, calls) he).1.2 hne⟩
  · exact (hent (i, calls) hmem).2 hne
  · have := h2 i
    rw [if_pos ⟨Nat.zero_le _, by simpa using hi⟩] at this
    exact this

theorem C10_write_iff_changed_witness :
    analog_count rasa3x2_changed.output_mode_is_analog 0 rasa3x2_changed.NUMBER_OF_OUTPUTS ≤ 4 ∧
    rasa3x2_changed.write_outputs.aborted = false ∧
    rasa3x2_changed.write_outputs.trace.map Prod.fst
      = List.range rasa3x2_changed.NUMBER_OF_OUTPUTS ∧
    (∀ i, i < rasa3x2_changed.NUMBER_OF_OUTPUTS →
      ((∃ calls, (i, calls) ∈ rasa3x2_changed.write_outputs.trace ∧ calls ≠ []) ↔
        rasa3x2_changed.output_values i ≠ rasa3x2_changed.output_values_old i)) ∧
    (∀ i calls, (i, calls) ∈ rasa3x2_changed.write_outputs.trace → calls ≠ [] →
      IsChannelWrite rasa3x2_changed i calls) ∧
    (∀ i, i < rasa3x2_changed.NUMBER_OF_OUTPUTS →
      rasa3x2_changed.write_outputs.state.output_values_old i
        = rasa3x2_changed.output_values i) ∧
    rasa3x2_changed.write_outputs.state.output_values = rasa3x2_changed.output_values :=
  ⟨by decide, C10_write_iff_changed rasa3x2_changed (by decide)⟩

/-! ## The frame encoder: clamping, layout, voltage -/

theorem update_dac_code_eq_loop (data : Nat → Bool) (v : Int) (channel : Bool) :
    update_dac_code data v channel
      = (write_code_bits 12
          (Function.update
            (Function.update (Function.update data 0 channel) 2
              (if clamp_outVolt v > 2048 then false else true)) 3 true)
          (dac_code_value v)).1 := rfl

theorem clamp_outVolt_eq (v : Int) : clamp_outVolt v = max 0 (min v 4095) := by
  unfold clamp_outVolt
  simp only
  split_ifs <;> omega

theorem clamp_outVolt_idem (v : Int) : clamp_outVolt (clamp_outVolt v) = clamp_outVolt v := by
  rw [clamp_outVolt_eq, clamp_outVolt_eq]
  omega

theorem dac_code_value_range (v : Int) : 0 ≤ dac_code_value v ∧ dac_code_value v ≤ 4096 := by
  have hc := clamp_outVolt_eq v
  unfold dac_code_value
  simp only [power_long]
  generalize clamp_outVolt v = c at hc ⊢
  have h0 : 0 ≤ c := by omega
  have h1 : c ≤ 4095 := by omega
  split_ifs with hg
  · have e1 : Int.tdiv (2 ^ 12 * c) 2 = 2048 * c := by
      rw [Int.tdiv_eq_ediv (by omega) (by omega)]; omega
    rw [e1, Int.tdiv_eq_ediv (by omega) (by omega)]
    omega
  · have e1 : Int.tdiv (2 ^ 12 * c) 1 = 4096 * c := by
      rw [Int.tdiv_eq_ediv (by omega) (by omega)]; omega
    rw [e1, Int.tdiv_eq_ediv (by omega) (by omega)]
    omega

/-- C12: for every integer `v` the frame written by `update_dac_code` is the frame
written for `v` clamped to `[0, 4095]`; every negative `v` encodes exactly like 0 and
every `v > 4095` exactly like 4095; the value that is encoded, `clamp_outVolt v`, is
`max 0 (min v 4095)` and so never outside `[0, 4095]`. -/
theorem C12_clamped_before_encoding (data : Nat → Bool) (v : Int) (channel : Bool) :
    update_dac_code data v channel = update_dac_code data (clamp_outVolt v) channel ∧
    clamp_outVolt v = max 0 (min v 4095) ∧
    0 ≤ clamp_outVolt v ∧ clamp_outVolt v ≤ 4095 ∧
    (v < 0 → update_dac_code data v channel = update_dac_code data 0 channel) ∧
    (v > 4095 → update_dac_code data v channel = update_dac_code data 4095 channel) := by
  have hkey : ∀ a b : Int, clamp_outVolt a = clamp_outVolt b →
      update_dac_code data a channel = update_dac_code data b channel := by
    intro a b hab
    rw [update_dac_code_eq_loop, update_dac_code_eq_loop]
    unfold dac_code_value
    rw [hab]
  have hc := clamp_outVolt_eq v
  refine ⟨hkey _ _ (clamp_outVolt_idem v).symm, hc, by omega, by omega, fun h => ?_, fun h => ?_⟩
  · apply hkey
    rw [clamp_outVolt_eq, clamp_outVolt_eq]; omega
  · apply hkey
    rw [clamp_outVolt_eq, clamp_outVolt_eq]; omega

theorem write_code_bits_digit (n : Nat) (hn : n ≤ 12) (data : Nat → Bool) (d : Int)
    (h0 : 0 ≤ d) (k : Nat) (hk : k < n) :
    (write_code_bits n data d).1 (15 - k)
      = toBool ((if k + 1 = n then d else d % 2 ^ (k + 1)) / 2 ^ k) := by
  induction n generalizing data d with
  | zero => omega
  | succ i ih =>
    have hpos : (0 : Int) < 2 ^ i := by positivity
    have htd : Int.tdiv d (2 ^ i) = d / 2 ^ i := Int.tdiv_eq_ediv h0 hpos.le
    have htm : Int.tmod d (2 ^ i) = d % 2 ^ i := Int.tmod_eq_emod h0 hpos.le
    simp only [write_code_bits, power_int, htd, htm]
    by_cases hki : k = i
    · subst hki
      rw [write_code_bits_below k (by omega) _ _ _ (by omega)]
      have hidx : 11 - k + 4 = 15 - k := by omega
      rw [hidx, Function.update_same, if_pos rfl]
    · have hlt : k < i := by omega
      rw [ih (by omega) _ _ (Int.emod_nonneg _ hpos.ne') hlt]
      rw [if_neg (by omega : ¬ k + 1 = i + 1)]
      by_cases hk1 : k + 1 = i
      · rw [if_pos hk1, hk1]
      · rw [if_neg hk1, Int.emod_emod_of_dvd d (pow_dvd_pow 2 (by omega : k + 1 ≤ i))]

theorem update_dac_code_digits (data : Nat → Bool) (v : Int) (channel : Bool) :
    (update_dac_code data v channel 4 = decide (2048 ≤ dac_code_value v)) ∧
    ∀ k : Nat, k ≤ 10 →
      update_dac_code data v channel (15 - k) = decide (dac_code_value v / 2 ^ k % 2 = 1) := by
  have h0 := (dac_code_value_range v).1
  have h1 := (dac_code_value_range v).2
  rw [update_dac_code_eq_loop]
  generalize dac_code_value v = d at h0 h1
  constructor
  · have := write_code_bits_digit 12 (le_refl _) (Function.update
        (Function.update (Function.update data 0 channel) 2
          (if clamp_outVolt v > 2048 then false else true)) 3 true) d h0 11 (by norm_num)
    simp only [show 15 - 11 = 4 from rfl] at this
    rw [this]
    simp only [toBool, if_true]
    rw [decide_eq_decide]
    norm_num
    constructor <;> intro h <;> omega
  · intro k hk
    rw [write_code_bits_digit 12 (le_refl _) _ d h0 k (by omega), if_neg (by omega)]
    unfold toBool
    rw [decide_eq_decide]
    interval_cases k <;> norm_num <;> constructor <;> intro h <;> omega

/-- C20: after every call `update_dac_code(data, v, channel)`, `data[0] = channel`,
`data[3] = 1`, and `data[1]` has the value it had before the call; the cells
`data[4 .. 15]` hold the binary digits of the code `dacCode` handed to the bit loop,
most significant first: `data[15 - k]` is the digit of weight `2 ^ k` for `k ≤ 10`
(`data[15]` the least significant one), and `data[4]` is set exactly when
`dacCode ≥ 2048`, which is the digit of weight `2 ^ 11` whenever `dacCode` fits into
12 bits. -/
theorem C20_frame_layout (data : Nat → Bool) (v : Int) (channel : Bool) :
    update_dac_code data v channel 0 = channel ∧
    update_dac_code data v channel 3 = true ∧
    update_dac_code data v channel 1 = data 1 ∧
    (∀ k : Nat, k ≤ 10 →
      update_dac_code data v channel (15 - k) = decide (dac_code_value v / 2 ^ k % 2 = 1)) ∧
    update_dac_code data v channel 4 = decide (2048 ≤ dac_code_value v) ∧
    (dac_code_value v < 4096 →
      update_dac_code data v channel 4 = decide (dac_code_value v / 2 ^ 11 % 2 = 1)) := by
  have hd := update_dac_code_digits data v channel
  have h0 := (dac_code_value_range v).1
  refine ⟨?_, ?_, ?_, hd.2, hd.1, fun hlt => ?_⟩
  · rw [update_dac_code_eq_loop, write_code_bits_below 12 (le_refl _) _ _ 0 (by norm_num)]
    simp [Function.update]
  · rw [update_dac_code_eq_loop, write_code_bits_below 12 (le_refl _) _ _ 3 (by norm_num)]
    simp [Function.update]
  · rw [update_dac_code_eq_loop, write_code_bits_below 12 (le_refl _) _ _ 1 (by norm_num)]
    simp [Function.update]
  · rw [hd.1, decide_eq_decide]
    norm_num
    constructor <;> intro h <;> omega

theorem frame_millivolts_exact (data : Nat → Bool) (v : Int) (channel : Bool)
    (h0 : 0 ≤ v) (h1 : v ≤ 4095) (h2 : v ≠ 2048) :
    frame_millivolts (update_dac_code data v channel) = v := by
  unfold frame_millivolts
  rw [update_dac_code_payload data v channel h0 h1 h2]
  by_cases hg : v ≤ 2048
  · rw [if_pos ((update_dac_code_gain_bit data v channel h0 h1).2 hg),
      if_neg (by omega : ¬ v > 2048)]
    push_cast
    ring
  · have hb : ¬ update_dac_code data v channel 2 = true :=
      fun h => hg ((update_dac_code_gain_bit data v channel h0 h1).1 h)
    rw [if_neg hb, if_pos (by omega : v > 2048)]

/-- C13 at the failing input `v = 2048`: the gain bit `data[2]` is set (gain stage off)
and the payload is 2048, so the frame stands for 1024 mV, not for 2048 mV; the codes
next to it, 2047 and 2049, are sent as 2047 mV and 2049 mV. -/
theorem C13_failing_input :
    (0 : Int) ≤ 2048 ∧ (2048 : Int) ≤ 4095 ∧
    update_dac_code (fun _ => false) 2048 false 2 = true ∧
    payload (update_dac_code (fun _ => false) 2048 false) = 2048 ∧
    frame_millivolts (update_dac_code (fun _ => false) 2048 false) = 1024 ∧
    frame_millivolts (update_dac_code (fun _ => false) 2048 false) ≠ 2048 ∧
    frame_millivolts (update_dac_code (fun _ => false) 2047 false) = 2047 ∧
    frame_millivolts (update_dac_code (fun _ => false) 2049 false) = 2049 := by
  have hbit : update_dac_code (fun _ => false) 2048 false 2 = true := by decide
  have hpay : payload (update_dac_code (fun _ => false) 2048 false) = 2048 := by decide
  have hmv : frame_millivolts (update_dac_code (fun _ => false) 2048 false) = 1024 := by
    unfold frame_millivolts
    rw [if_pos hbit, hpay]
    norm_num
  refine ⟨by decide, by decide, hbit, hpay, hmv, by rw [hmv]; norm_num, ?_, ?_⟩
  · exact_mod_cast frame_millivolts_exact (fun _ => false) 2047 false (by decide) (by decide)
      (by decide)
  · exact_mod_cast frame_millivolts_exact (fun _ => false) 2049 false (by decide) (by decide)
      (by decide)

/-! ## Disabled clocks -/

theorem run_clock_events_disabled (s : EuroStep) (h : s.clock_input = -1) :
    s.run_clock_events = (s, []) := by
  simp [EuroStep.run_clock_events, h]

theorem run_clock_events_2_disabled (s : EuroStep) (h : s.clock_input_2 = -1) :
    s.run_clock_events_2 = (s, []) := by
  simp [EuroStep.run_clock_events_2, h]

theorem run_clock_events_frame (s : EuroStep) :
    s.run_clock_events.1.clock_input = s.clock_input ∧
    s.run_clock_events.1.clock_input_2 = s.clock_input_2 ∧
    s.run_clock_events.1.last_state_is_low_2 = s.last_state_is_low_2 ∧
    ∀ h ∈ s.run_clock_events.2, h = Hook.on_clock_rise_do ∨ h = Hook.on_clock_fall_do := by
  unfold EuroStep.run_clock_events
  by_cases hen : s.clock_input > -1
  · simp only [hen, if_true]
    cases toBool (s.input_values s.clock_input.toNat) <;> cases s.last_state_is_low <;> simp
  · simp [hen]

theorem run_clock_events_2_frame (s : EuroStep) :
    s.run_clock_events_2.1.clock_input = s.clock_input ∧
    s.run_clock_events_2.1.clock_input_2 = s.clock_input_2 ∧
    s.run_clock_events_2.1.last_state_is_low = s.last_state_is_low ∧
    ∀ h ∈ s.run_clock_events_2.2,
      h = Hook.on_clock_rise_2_do ∨ h = Hook.on_clock_fall_2_do := by
  unfold EuroStep.run_clock_events_2
  by_cases hen : s.clock_input_2 > -1
  · simp only [hen, if_true]
    cases toBool (s.input_values s.clock_input_2.toNat) <;> cases s.last_state_is_low_2 <;>
      simp
  · simp [hen]

theorem clock_runs_first_disabled (contents : List (Nat → Int)) (s : EuroStep)
    (h : s.clock_input = -1) :
    Hook.on_clock_rise_do ∉ (s.clock_runs contents).2 ∧
    Hook.on_clock_fall_do ∉ (s.clock_runs contents).2 ∧
    (s.clock_runs contents).1.last_state_is_low = s.last_state_is_low := by
  induction contents generalizing s with
  | nil => simp [EuroStep.clock_runs]
  | cons inputs later ih =>
    have h1 := run_clock_events_disabled { s with input_values := inputs } h
    obtain ⟨f1, _, f3, f4⟩ :=
      run_clock_events_2_frame (EuroStep.run_clock_events { s with input_values := inputs }).1
    rw [h1] at f1 f3 f4
    obtain ⟨i1, i2, i3⟩ := ih
      (EuroStep.run_clock_events_2 (EuroStep.run_clock_events { s with input_values := inputs }).1).1
      (by rw [h1, f1]; exact h)
    simp only [EuroStep.clock_runs, List.mem_append, not_or]
    rw [h1] at i1 i2 i3 ⊢
    refine ⟨⟨⟨by simp, fun hm => ?_⟩, i1⟩, ⟨⟨by simp, fun hm => ?_⟩, i2⟩, ?_⟩
    · rcases f4 _ hm with e | e <;> cases e
    · rcases f4 _ hm with e | e <;> cases e
    · rw [i3, f3]

theorem clock_runs_second_disabled (contents : List (Nat → Int)) (s : EuroStep)
    (h : s.clock_input_2 = -1) :
    Hook.on_clock_rise_2_do ∉ (s.clock_runs contents).2 ∧
    Hook.on_clock_fall_2_do ∉ (s.clock_runs contents).2 ∧
    (s.clock_runs contents).1.last_state_is_low_2 = s.last_state_is_low_2 := by
  induction contents generalizing s with
  | nil => simp [EuroStep.clock_runs]
  | cons inputs later ih =>
    obtain ⟨_, f2, f3, f4⟩ := run_clock_events_frame { s with input_values := inputs }
    have h2 := run_clock_events_2_disabled
      (EuroStep.run_clock_events { s with input_values := inputs }).1 (by rw [f2]; exact h)
    obtain ⟨i1, i2, i3⟩ := ih
      (EuroStep.run_clock_events_2 (EuroStep.run_clock_events { s with input_values := inputs }).1).1
      (by rw [h2, f2]; exact h)
    simp only [EuroStep.clock_runs, List.mem_append, not_or]
    rw [h2] at i1 i2 i3 ⊢
    refine ⟨⟨⟨fun hm => ?_, by simp⟩, i1⟩, ⟨⟨fun hm => ?_, by simp⟩, i2⟩, ?_⟩
    · rcases f4 _ hm with e | e <;> cases e
    · rcases f4 _ hm with e | e <;> cases e
    · rw [i3, f3]

/-- C14: while `clock_input = -1`, a call of `run_clock_events` invokes no hook and
returns with the state it found, `last_state_is_low` included, whatever `input_values`
holds; over any number of cycles with any contents of `input_values` (the other clock
enabled or not) neither `on_clock_rise_do` nor `on_clock_fall_do` is invoked and
`last_state_is_low` keeps its value.  The same holds for `run_clock_events_2` with
`clock_input_2`, `on_clock_rise_2_do`, `on_clock_fall_2_do` and
`last_state_is_low_2`. -/
theorem C14_disabled_clock_is_silent (s : EuroStep) (contents : List (Nat → Int)) :
    (s.clock_input = -1 →
      s.run_clock_events = (s, []) ∧
      Hook.on_clock_rise_do ∉ (s.clock_runs contents).2 ∧
      Hook.on_clock_fall_do ∉ (s.clock_runs contents).2 ∧
      (s.clock_runs contents).1.last_state_is_low = s.last_state_is_low) ∧
    (s.clock_input_2 = -1 →
      s.run_clock_events_2 = (s, []) ∧
      Hook.on_clock_rise_2_do ∉ (s.clock_runs contents).2 ∧
      Hook.on_clock_fall_2_do ∉ (s.clock_runs contents).2 ∧
      (s.clock_runs contents).1.last_state_is_low_2 = s.last_state_is_low_2) :=
  ⟨fun h => ⟨run_clock_events_disabled s h, clock_runs_first_disabled contents s h⟩,
   fun h => ⟨run_clock_events_2_disabled s h, clock_runs_second_disabled contents s h⟩⟩

theorem C14_disabled_clock_is_silent_witness :
    rasa3x2_no_clock.clock_input = -1 ∧ rasa3x2_no_clock.clock_input_2 = -1 ∧
    (rasa3x2_no_clock.run_clock_events = (rasa3x2_no_clock, []) ∧
      Hook.on_clock_rise_do ∉ (rasa3x2_no_clock.clock_runs [fun _ => 1, fun _ => 0]).2 ∧
      Hook.on_clock_fall_do ∉ (rasa3x2_no_clock.clock_runs [fun _ => 1, fun _ => 0]).2 ∧
      (rasa3x2_no_clock.clock_runs [fun _ => 1, fun _ => 0]).1.last_state_is_low
        = rasa3x2_no_clock.last_state_is_low) ∧
    (rasa3x2_no_clock.run_clock_events_2 = (rasa3x2_no_clock, []) ∧
      Hook.on_clock_rise_2_do ∉ (rasa3x2_no_clock.clock_runs [fun _ => 1, fun _ => 0]).2 ∧
      Hook.on_clock_fall_2_do ∉ (rasa3x2_no_clock.clock_runs [fun _ => 1, fun _ => 0]).2 ∧
      (rasa3x2_no_clock.clock_runs [fun _ => 1, fun _ => 0]).1.last_state_is_low_2
        = rasa3x2_no_clock.last_state_is_low_2) :=
  ⟨rfl, rfl,
   (C14_disabled_clock_is_silent rasa3x2_no_clock [fun _ => 1, fun _ => 0]).1 rfl,
   (C14_disabled_clock_is_silent rasa3x2_no_clock [fun _ => 1, fun _ => 0]).2 rfl⟩

/-! ## The signal conditioner: millivolts, threshold, percentage -/

theorem c_trunc_gt_iff (mV : ℚ) (c : Int) :
    (c_trunc mV > c → mV > c) ∧
    (0 ≤ mV → (c_trunc mV > c ↔ mV ≥ (c : ℚ) + 1)) ∧
    (mV < 0 → (c_trunc mV > c ↔ mV > c)) := by
  have hpos : 0 ≤ mV → (c_trunc mV > c ↔ mV ≥ (c : ℚ) + 1) := by
    intro h0
    rw [c_trunc, if_pos h0]
    constructor
    · intro h
      have : c + 1 ≤ ⌊mV⌋ := h
      have := Int.le_floor.1 this
      push_cast at this
      exact this
    · intro h
      have : ((c + 1 : Int) : ℚ) ≤ mV := by push_cast; exact h
      exact Int.le_floor.2 this
  have hneg : mV < 0 → (c_trunc mV > c ↔ mV > c) := by
    intro h0
    rw [c_trunc, if_neg (not_le.2 h0)]
    exact Int.lt_ceil
  refine ⟨fun h => ?_, hpos, hneg⟩
  by_cases h0 : 0 ≤ mV
  · have := (hpos h0).1 h
    linarith
  · exact (hneg (not_le.1 h0)).1 h

theorem read_analog_mV_defined (x r1 r2 : Int) (hr : 0 < r2 ∨ (r1 = 0 ∧ r2 = 0)) :
    ∃ mV, read_analog_mV x r1 r2 = some mV := by
  unfold read_analog_mV
  by_cases h0 : r1 = 0 ∧ r2 = 0
  · exact ⟨_, if_pos h0⟩
  · have hr2 : r2 ≠ 0 := by
      rcases hr with h | h
      · omega
      · exact absurd h h0
    exact ⟨_, by rw [if_neg h0, if_neg hr2]⟩

/-- What `read_analog_bool` computes: for every raw sample, resistor pair with `r2 > 0`
(or both zero) and cutoff, the result is `true` if and only if the millivolt reading of
`read_analog_mV`, truncated toward zero by the assignment to `int current_mV`, is
greater than `cutoff_mV`.  A `true` result implies a reading above the cutoff; a
reading `≥ 0` gives `true` only from `cutoff_mV + 1` on, so a reading strictly between
`cutoff_mV` and `cutoff_mV + 1` gives `false`.  With the cutoff
`input_is_true_threshold` this is the value (1 or 0) that a digital-mode input gets in
`read_inputs`. -/
theorem read_analog_bool_truncates (x cutoff_mV r1 r2 : Int) (hr : 0 < r2 ∨ (r1 = 0 ∧ r2 = 0)) :
    ∃ mV : ℚ, read_analog_mV x r1 r2 = some mV ∧
      read_analog_bool x cutoff_mV r1 r2 = some (decide (c_trunc mV > cutoff_mV)) ∧
      (c_trunc mV > cutoff_mV → mV > cutoff_mV) ∧
      (0 ≤ mV → (c_trunc mV > cutoff_mV ↔ mV ≥ (cutoff_mV : ℚ) + 1)) ∧
      (mV < 0 → (c_trunc mV > cutoff_mV ↔ mV > cutoff_mV)) ∧
      ∀ (s : EuroStep) (board : Board) (i : Nat),
        s.input_mode_is_analog i = false → board.analogRead (s.pins_input i) = x →
        s.V_DIVIDER_R1 = r1 → s.V_DIVIDER_R2 = r2 → s.input_is_true_threshold = cutoff_mV →
        ∃ s1, s.read_input board i = some s1 ∧
          s1.input_values i = if c_trunc mV > cutoff_mV then 1 else 0 := by
  obtain ⟨mV, hmV⟩ := read_analog_mV_defined x r1 r2 hr
  have hbool : read_analog_bool x cutoff_mV r1 r2 = some (decide (c_trunc mV > cutoff_mV)) := by
    simp only [read_analog_bool, hmV]
  obtain ⟨h1, h2, h3⟩ := c_trunc_gt_iff mV cutoff_mV
  refine ⟨mV, hmV, hbool, h1, h2, h3, ?_⟩
  intro s board i hmode hx hr1 hr2 hcut
  subst hx hr1 hr2 hcut
  refine ⟨{ s with
      input_values := Function.update s.input_values i
        (if decide (c_trunc mV > s.input_is_true_threshold) then 1 else 0) }, ?_, ?_⟩
  · simp only [EuroStep.read_input, hmode, hbool, Bool.false_eq_true, if_false]
  · simp

/-- C17 at the failing input: sample 103, no divider (`r1 = r2 = 0`), cutoff 504.  The
reading is `103 * 4.9 = 504.7` mV, which is greater than the cutoff, and
`read_analog_bool` returns `false`: the reading is stored in the `int` variable
`current_mV` as 504 before it is compared.  With the cutoff 503 the same reading
gives `true`. -/
theorem C17_failing_input :
    read_analog_mV 103 0 0 = some (5047 / 10) ∧ (5047 / 10 : ℚ) > ((504 : Int) : ℚ) ∧
    read_analog_bool 103 504 0 0 = some false ∧
    read_analog_bool 103 503 0 0 = some true := by
  have hmV : read_analog_mV 103 0 0 = some (5047 / 10) := by
    rw [read_analog_mV, if_pos ⟨rfl, rfl⟩]
    norm_num
  have htr : c_trunc (5047 / 10) = 504 := by
    rw [c_trunc, if_pos (by norm_num)]
    rw [Int.floor_eq_iff]
    norm_num
  refine ⟨hmV, by norm_num, ?_, ?_⟩
  · simp [read_analog_bool, hmV, htr]
  · simp [read_analog_bool, hmV, htr]

theorem count_switches_ge (n : Nat) (i : Int) (SCALE : Int → Bool) (acc : Int) :
    acc ≤ count_switches n i SCALE acc := by
  induction n generalizing i acc with
  | zero => exact le_refl _
  | succ n ih =>
    simp only [count_switches]
    have := ih (i + 1) (acc + if SCALE i = true then 1 else 0)
    split_ifs at this ⊢ <;> omega

theorem count_switches_pos (n : Nat) (i j : Int) (SCALE : Int → Bool) (acc : Int)
    (h1 : i ≤ j) (h2 : j < i + n) (hj : SCALE j = true) :
    acc + 1 ≤ count_switches n i SCALE acc := by
  induction n generalizing i acc with
  | zero => simp at h2; omega
  | succ n ih =>
    simp only [count_switches]
    by_cases hij : j = i
    · subst hij
      rw [if_pos hj]
      exact count_switches_ge n _ SCALE _
    · have := ih (i + 1) (acc + if SCALE i = true then 1 else 0) (by omega)
        (by push_cast at h2; omega)
      split_ifs at this ⊢ <;> omega

/-- C19 (as amended): for `mV ≥ 0` with `mV % 1000 < 917`, when the floor tone `f0` and
the ceil tone `f0 + 1` bracketing the tone position `(mV % 1000) / 83.3333` are both
enabled, `quantize_voltage` returns in its first iteration the voltage of the one of
the two that is strictly closer to that position (the position is never exactly
halfway); where `mV % 1000` is halfway between two tones on the scale of 12 tones per
1000 mV (125, 375, 625, 875), this is the ceil tone. -/
theorem C19_both_enabled (mV : Int) (SCALE : Int → Bool) (h0 : 0 ≤ mV)
    (hres : mV % 1000 < 917)
    (hfloor : SCALE (mV % 1000 * 10000 / 833333) = true)
    (hceil : SCALE (mV % 1000 * 10000 / 833333 + 1) = true) :
    ⌊((mV % 1000 : Int) : ℚ) / 83.3333⌋ = mV % 1000 * 10000 / 833333 ∧
    ∃ t : Int, (t = mV % 1000 * 10000 / 833333 ∨ t = mV % 1000 * 10000 / 833333 + 1) ∧
      quantize_voltage_run 1 mV SCALE
        = some ⟨c_trunc (((mV / 1000 * 1000 : Int) : ℚ) + (t : ℚ) * 83.3333), true, 0,
            [mV % 1000 * 10000 / 833333, mV % 1000 * 10000 / 833333 + 1]⟩ ∧
      |(t : ℚ) - ((mV % 1000 : Int) : ℚ) / 83.3333|
        < |((2 * (mV % 1000 * 10000 / 833333) + 1 - t : Int) : ℚ)
            - ((mV % 1000 : Int) : ℚ) / 83.3333| ∧
      (mV % 1000 = 125 ∨ mV % 1000 = 375 ∨ mV % 1000 = 625 ∨ mV % 1000 = 875 →
        t = mV % 1000 * 10000 / 833333 + 1) := by
  have hmod : Int.tmod mV 1000 = mV % 1000 := Int.tmod_eq_emod h0 (by norm_num)
  have hdiv : Int.tdiv mV 1000 = mV / 1000 := Int.tdiv_eq_ediv h0 (by norm_num)
  have hr0 : 0 ≤ mV % 1000 := Int.emod_nonneg _ (by norm_num)
  refine ⟨floor_residTones _, ?_⟩
  generalize mV % 1000 = r at hres hmod hr0 hfloor hceil ⊢
  have hf0 : 0 ≤ r * 10000 / 833333 := by omega
  have hf1 : r * 10000 / 833333 ≤ 10 := by omega
  have hlo : 833333 * (r * 10000 / 833333) ≤ 10000 * r := by omega
  have hhi : 10000 * r < 833333 * (r * 10000 / 833333 + 1) := by omega
  have hflag : round_tones_int r = r * 10000 / 833333 ↔
      20000 * r < 1666666 * (r * 10000 / 833333) + 833333 := by
    rw [round_tones_int, if_pos hr0, Int.tdiv_eq_ediv (by omega) (by norm_num)]
    omega
  generalize hf : r * 10000 / 833333 = f0 at hfloor hceil hf0 hf1 hlo hhi hflag ⊢
  have hon : count_switches 12 0 SCALE 0 ≠ 0 := by
    have := count_switches_pos 12 0 f0 SCALE 0 hf0 (by push_cast; omega) hfloor
    omega
  have hp : (r : ℚ) / 83.3333 * 833333 = 10000 * r := by norm_num; ring
  have qlo : (833333 : ℚ) * f0 ≤ 10000 * r := by exact_mod_cast hlo
  have qhi : (10000 : ℚ) * r < 833333 * (f0 + 1) := by exact_mod_cast hhi
  by_cases hfl : round_tones_int r = f0
  · have h3 : (20000 : ℚ) * r < 1666666 * f0 + 833333 := by exact_mod_cast hflag.1 hfl
    refine ⟨f0, Or.inl rfl, ?_, ?_, fun h => ?_⟩
    · rw [quantize_voltage_run_eq_int]
      simp only [quantize_voltage_run_int, hon, if_false, hmod, hdiv, hf, quantize_search_int,
        hfloor, hceil, hfl, c_trunc_tone_voltage]
      simp
    · generalize (r : ℚ) / 83.3333 = p at hp ⊢
      have e : ((2 * f0 + 1 - f0 : Int) : ℚ) = f0 + 1 := by push_cast; ring
      rw [e, abs_of_nonpos (by linarith), abs_of_nonneg (by linarith)]
      linarith
    · have := hflag.1 hfl
      omega
  · have h4 : (1666666 : ℚ) * f0 + 833333 < 20000 * r := by
      have : 1666666 * f0 + 833333 < 20000 * r := by
        have := mt hflag.2 hfl
        omega
      exact_mod_cast this
    refine ⟨f0 + 1, Or.inr rfl, ?_, ?_, fun _ => rfl⟩
    · rw [quantize_voltage_run_eq_int]
      simp only [quantize_voltage_run_int, hon, if_false, hmod, hdiv, hf, quantize_search_int,
        hfloor, hceil, hfl, c_trunc_tone_voltage]
      simp
    · generalize (r : ℚ) / 83.3333 = p at hp ⊢
      have e : ((2 * f0 + 1 - (f0 + 1) : Int) : ℚ) = f0 := by push_cast; ring
      have e2 : ((f0 + 1 : Int) : ℚ) = f0 + 1 := by push_cast; ring
      rw [e, e2, abs_of_nonneg (by linarith), abs_of_nonpos (by linarith)]
      linarith

theorem C19_both_enabled_witness :
    (0 : Int) ≤ 1125 ∧ (1125 : Int) % 1000 < 917 ∧
    all_tones ((1125 : Int) % 1000 * 10000 / 833333) = true ∧
    all_tones ((1125 : Int) % 1000 * 10000 / 833333 + 1) = true ∧
    ⌊(((1125 : Int) % 1000 : Int) : ℚ) / 83.3333⌋ = (1125 : Int) % 1000 * 10000 / 833333 ∧
    ∃ t : Int, (t = (1125 : Int) % 1000 * 10000 / 833333 ∨
        t = (1125 : Int) % 1000 * 10000 / 833333 + 1) ∧
      quantize_voltage_run 1 1125 all_tones
        = some ⟨c_trunc ((((1125 : Int) / 1000 * 1000 : Int) : ℚ) + (t : ℚ) * 83.3333), true, 0,
            [(1125 : Int) % 1000 * 10000 / 833333, (1125 : Int) % 1000 * 10000 / 833333 + 1]⟩ ∧
      |(t : ℚ) - (((1125 : Int) % 1000 : Int) : ℚ) / 83.3333|
        < |((2 * ((1125 : Int) % 1000 * 10000 / 833333) + 1 - t : Int) : ℚ)
            - (((1125 : Int) % 1000 : Int) : ℚ) / 83.3333| ∧
      ((1125 : Int) % 1000 = 125 ∨ (1125 : Int) % 1000 = 375 ∨ (1125 : Int) % 1000 = 625 ∨
          (1125 : Int) % 1000 = 875 →
        t = (1125 : Int) % 1000 * 10000 / 833333 + 1) :=
  ⟨by decide, by decide, by decide, by decide,
   C19_both_enabled 1125 all_tones (by decide) (by decide) (by decide) (by decide)⟩

/-- C19 fails as stated at `mV = 125` with the tones 1 and 2 enabled (here: all tones):
125 mV is exactly halfway between tone 1 and tone 2 on the scale of 12 tones per
1000 mV, the claim selects the floor tone 1 (83 mV), the code returns 166 mV, the
voltage of the ceil tone 2. -/
theorem C19_counterexample :
    all_tones 1 = true ∧ all_tones 2 = true ∧
    (125 : ℚ) * 12 / 1000 = 1 + 1 / 2 ∧
    ⌊(125 : ℚ) / 83.3333⌋ = 1 ∧
    c_trunc ((1 : ℚ) * 83.3333) = 83 ∧ c_trunc ((2 : ℚ) * 83.3333) = 166 ∧
    quantize_voltage 1 125 all_tones = some 166 ∧
    quantize_voltage 12 125 all_tones = some 166 := by
  refine ⟨by decide, by decide, by norm_num, ?_, ?_, ?_, ?_, ?_⟩
  · have := floor_residTones 125
    simpa using this
  · have := c_trunc_tone_voltage 0 1
    simpa using this
  · have := c_trunc_tone_voltage 0 2
    simpa using this
  · rw [quantize_voltage, quantize_voltage_run_eq_int]; decide
  · rw [quantize_voltage, quantize_voltage_run_eq_int]; decide

/-! ## The limit of four analog outputs -/

theorem write_outputs_loop_abort (n i : Nat) (s : EuroStep)
    (trace : List (Nat × List BoardCall)) (hle : s.dac_event ≤ 4)
    (h : 4 < s.dac_event + analog_count s.output_mode_is_analog i n) :
    (EuroStep.write_outputs_loop n i s trace).aborted = true := by
  induction n generalizing i s trace with
  | zero => simp [analog_count] at h; omega
  | succ n ih =>
    rw [analog_count_succ] at h
    unfold EuroStep.write_outputs_loop
    cases hw : s.write_output i with
    | none => rfl
    | some r =>
      obtain ⟨_, _, hmode, _, hev, _⟩ := write_output_some s i r hw
      simp only
      by_cases ha : s.output_mode_is_analog i = true
      · have hd : s.dac_event + 1 ≤ 4 := by
          by_contra hc
          have : s.write_output i = none := by
            by_cases hv : s.output_values i = s.output_values_old i <;>
              simp [EuroStep.write_output, ha, hc, hv]
          rw [this] at hw
          cases hw
        apply ih
        · rw [hev, if_pos ha]; exact hd
        · rw [hmode, hev, if_pos ha]
          rw [if_pos ha] at h
          push_cast at h ⊢
          omega
      · apply ih
        · rw [hev, if_neg ha]; omega
        · rw [hmode, hev, if_neg ha]
          rw [if_neg ha] at h
          push_cast at h ⊢
          omega

theorem write_outputs_aborted_iff (s : EuroStep) :
    s.write_outputs.aborted = false ↔
      analog_count s.output_mode_is_analog 0 s.NUMBER_OF_OUTPUTS ≤ 4 := by
  constructor
  · intro h
    by_contra hc
    have : s.write_outputs.aborted = true := by
      unfold EuroStep.write_outputs
      apply write_outputs_loop_abort
      · show (0 : Int) ≤ 4
        norm_num
      · show 4 < (0 : Int)
          + ((analog_count s.output_mode_is_analog 0 s.NUMBER_OF_OUTPUTS : Nat) : Int)
        omega
    rw [this] at h
    cases h
  · intro h
    unfold EuroStep.write_outputs
    apply write_outputs_loop_no_abort
    show (0 : Int) + ((analog_count s.output_mode_is_analog 0 s.NUMBER_OF_OUTPUTS : Nat) : Int) ≤ 4
    omega

theorem analog_count_le (mode : Nat → Bool) (i n : Nat) : analog_count mode i n ≤ n := by
  unfold analog_count
  calc ((List.range' i n).filter mode).length ≤ (List.range' i n).length :=
        List.length_filter_le _ _
    _ = n := List.length_range' _ _ _

/-- C24: in a call of `write_outputs` the assertion `dac_event <= 4` holds throughout
(the call is not aborted) if and only if at most 4 of the outputs are in analog mode;
with `NUMBER_OF_OUTPUTS = 2`, as in both hardware tables, it never fails, whatever the
output modes and values. -/
theorem C24_assertion_iff_at_most_four (s : EuroStep) :
    (s.write_outputs.aborted = false ↔
      analog_count s.output_mode_is_analog 0 s.NUMBER_OF_OUTPUTS ≤ 4) ∧
    (s.NUMBER_OF_OUTPUTS = 2 → s.write_outputs.aborted = false) := by
  refine ⟨write_outputs_aborted_iff s, fun h2 => ?_⟩
  rw [write_outputs_aborted_iff]
  have := analog_count_le s.output_mode_is_analog 0 s.NUMBER_OF_OUTPUTS
  omega

theorem C24_assertion_iff_at_most_four_witness :
    (rasa3x2_changed.write_outputs.aborted = false ↔
      analog_count rasa3x2_changed.output_mode_is_analog 0 rasa3x2_changed.NUMBER_OF_OUTPUTS
        ≤ 4) ∧
    (rasa3x2_changed.NUMBER_OF_OUTPUTS = 2 → rasa3x2_changed.write_outputs.aborted = false) ∧
    rasa3x2_changed.NUMBER_OF_OUTPUTS = 2 ∧
    five_analog_module.write_outputs.aborted = true :=
  ⟨(C24_assertion_iff_at_most_four rasa3x2_changed).1,
   (C24_assertion_iff_at_most_four rasa3x2_changed).2, rfl, by decide⟩

/-! ## One step -/

theorem run_clock_events_with_base (s : EuroStep) :
    s.run_clock_events_with {} = s.run_clock_events := rfl

theorem run_clock_events_2_with_base (s : EuroStep) :
    s.run_clock_events_2_with {} = s.run_clock_events_2 := rfl

theorem SameSetup.refl (s : EuroStep) : SameSetup s s := ⟨rfl, rfl, rfl, rfl, rfl⟩

theorem SameSetup.trans {s t u : EuroStep} (h1 : SameSetup s t) (h2 : SameSetup t u) :
    SameSetup s u :=
  ⟨h2.1.trans h1.1, h2.2.1.trans h1.2.1, h2.2.2.1.trans h1.2.2.1,
    h2.2.2.2.1.trans h1.2.2.2.1, h2.2.2.2.2.trans h1.2.2.2.2⟩

theorem read_input_setup (s t : EuroStep) (board : Board) (i : Nat)
    (h : s.read_input board i = some t) : SameSetup s t := by
  unfold EuroStep.read_input at h
  by_cases ha : s.input_mode_is_analog i = true
  · simp only [ha, if_true] at h
    cases hm : read_analog_mV (board.analogRead (s.pins_input i)) s.V_DIVIDER_R1
        s.V_DIVIDER_R2 with
    | none => simp [hm] at h
    | some mV =>
      simp only [hm, Option.some.injEq] at h
      subst h
      exact ⟨rfl, rfl, rfl, rfl, rfl⟩
  · simp only [ha, Bool.false_eq_true, if_false] at h
    cases hm : read_analog_bool (board.analogRead (s.pins_input i)) s.input_is_true_threshold
        s.V_DIVIDER_R1 s.V_DIVIDER_R2 with
    | none => simp [hm] at h
    | some out =>
      simp only [hm, Option.some.injEq] at h
      subst h
      exact ⟨rfl, rfl, rfl, rfl, rfl⟩

theorem read_input_defined (s : EuroStep) (board : Board) (i : Nat)
    (hr : 0 < s.V_DIVIDER_R2 ∨ (s.V_DIVIDER_R1 = 0 ∧ s.V_DIVIDER_R2 = 0)) :
    ∃ t, s.read_input board i = some t := by
  obtain ⟨mV, hmV⟩ := read_analog_mV_defined (board.analogRead (s.pins_input i))
    s.V_DIVIDER_R1 s.V_DIVIDER_R2 hr
  by_cases ha : s.input_mode_is_analog i = true
  · exact ⟨_, by simp only [EuroStep.read_input, ha, if_true, hmV]; rfl⟩
  · exact ⟨_, by simp only [EuroStep.read_input, ha, Bool.false_eq_true, if_false,
      read_analog_bool, hmV]; rfl⟩

theorem read_inputs_loop_setup (board : Board) (n i : Nat) (s t : EuroStep)
    (h : EuroStep.read_inputs_loop board n i s = some t) : SameSetup s t := by
  induction n generalizing i s with
  | zero =>
    simp only [EuroStep.read_inputs_loop, Option.some.injEq] at h
    subst h
    exact SameSetup.refl s
  | succ n ih =>
    unfold EuroStep.read_inputs_loop at h
    cases h1 : s.read_input board i with
    | none => simp [h1] at h
    | some s1 =>
      simp only [h1] at h
      exact (read_input_setup s s1 board i h1).trans (ih (i + 1) s1 h)

theorem read_inputs_loop_defined (board : Board) (n i : Nat) (s : EuroStep)
    (hr : 0 < s.V_DIVIDER_R2 ∨ (s.V_DIVIDER_R1 = 0 ∧ s.V_DIVIDER_R2 = 0)) :
    ∃ t, EuroStep.read_inputs_loop board n i s = some t := by
  induction n generalizing i s with
  | zero => exact ⟨s, rfl⟩
  | succ n ih =>
    obtain ⟨t, ht⟩ := read_input_defined s board i hr
    have hst := read_input_setup s t board i ht
    obtain ⟨u, hu⟩ := ih (i + 1) t (by rw [hst.2.2.1, hst.2.2.2.1]; exact hr)
    exact ⟨u, by simp only [EuroStep.read_inputs_loop, ht, hu]⟩

theorem read_pot_setup (s t : EuroStep) (board : Board) (i : Nat)
    (h : s.read_pot board i = some t) : SameSetup s t := by
  unfold EuroStep.read_pot at h
  cases hm : read_analog_pct (board.analogRead (s.pins_pot i)) s.MAX_POT_VOLTAGE
      s.REVERSE_POT 0 0 4 with
  | none => simp [hm] at h
  | some pct =>
    simp only [hm, Option.some.injEq] at h
    subst h
    exact ⟨rfl, rfl, rfl, rfl, rfl⟩

theorem read_pot_defined (s : EuroStep) (board : Board) (i : Nat)
    (hmax : s.MAX_POT_VOLTAGE ≠ 0) :
    ∃ t, s.read_pot board i = some t := by
  have hmV : read_analog_mV (board.analogRead (s.pins_pot i)) 0 0
      = some (((board.analogRead (s.pins_pot i) : Int) : ℚ) * 4.9) := by
    rw [read_analog_mV, if_pos ⟨rfl, rfl⟩]
  exact ⟨_, by simp only [EuroStep.read_pot, read_analog_pct, hmV, hmax, if_false,
    show ¬ ((4 : Int) = 0) by decide]; rfl⟩

theorem read_pots_loop_setup (board : Board) (n i : Nat) (s t : EuroStep)
    (h : EuroStep.read_pots_loop board n i s = some t) : SameSetup s t := by
  induction n generalizing i s with
  | zero =>
    simp only [EuroStep.read_pots_loop, Option.some.injEq] at h
    subst h
    exact SameSetup.refl s
  | succ n ih =>
    unfold EuroStep.read_pots_loop at h
    cases h1 : s.read_pot board i with
    | none => simp [h1] at h
    | some s1 =>
      simp only [h1] at h
      exact (read_pot_setup s s1 board i h1).trans (ih (i + 1) s1 h)

theorem read_pots_loop_defined (board : Board) (n i : Nat) (s : EuroStep)
    (hmax : s.MAX_POT_VOLTAGE ≠ 0) :
    ∃ t, EuroStep.read_pots_loop board n i s = some t := by
  induction n generalizing i s with
  | zero => exact ⟨s, rfl⟩
  | succ n ih =>
    obtain ⟨t, ht⟩ := read_pot_defined s board i hmax
    have hst := read_pot_setup s t board i ht
    obtain ⟨u, hu⟩ := ih (i + 1) t (by rw [hst.2.2.2.2]; exact hmax)
    exact ⟨u, by simp only [EuroStep.read_pots_loop, ht, hu]⟩

theorem read_switches_loop_setup (board : Board) (n i : Nat) (s : EuroStep) :
    SameSetup s (EuroStep.read_switches_loop board n i s) := by
  induction n generalizing i s with
  | zero => exact SameSetup.refl s
  | succ n ih =>
    simp only [EuroStep.read_switches_loop]
    exact SameSetup.trans ⟨rfl, rfl, rfl, rfl, rfl⟩ (ih (i + 1) _)

theorem run_clock_events_setup (s : EuroStep) : SameSetup s s.run_clock_events.1 := by
  unfold EuroStep.run_clock_events
  by_cases hen : s.clock_input > -1
  · simp only [hen, if_true]
    cases toBool (s.input_values s.clock_input.toNat) <;> cases s.last_state_is_low <;>
      exact ⟨rfl, rfl, rfl, rfl, rfl⟩
  · simp only [hen, if_false]
    exact SameSetup.refl s

theorem run_clock_events_2_setup (s : EuroStep) : SameSetup s s.run_clock_events_2.1 := by
  unfold EuroStep.run_clock_events_2
  by_cases hen : s.clock_input_2 > -1
  · simp only [hen, if_true]
    cases toBool (s.input_values s.clock_input_2.toNat) <;> cases s.last_state_is_low_2 <;>
      exact ⟨rfl, rfl, rfl, rfl, rfl⟩
  · simp only [hen, if_false]
    exact SameSetup.refl s

theorem step_defined (s : EuroStep) (hk : Hooks) (board : Board)
    (hr : 0 < s.V_DIVIDER_R2 ∨ (s.V_DIVIDER_R1 = 0 ∧ s.V_DIVIDER_R2 = 0))
    (hmax : s.MAX_POT_VOLTAGE ≠ 0) :
    ∃ r, s.step hk board = some r := by
  obtain ⟨s1, h1⟩ := read_inputs_loop_defined board s.NUMBER_OF_INPUTS 0 s hr
  have hs1 := read_inputs_loop_setup board _ _ s s1 h1
  obtain ⟨s2, h2⟩ := read_pots_loop_defined board s1.NUMBER_OF_POTS 0 s1
    (by rw [hs1.2.2.2.2]; exact hmax)
  exact ⟨_, by simp only [EuroStep.step, EuroStep.read_inputs, EuroStep.read_pots, h1, h2]; rfl⟩

theorem setup_ite (c : Prop) [Decidable c] (s a b : EuroStep) (l : List Hook)
    (ha : SameSetup s a) (hb : SameSetup s b) :
    SameSetup s (if c then (a, l) else (b, ([] : List Hook))).1 := by
  split_ifs <;> assumption

theorem setup_hook (f : EuroStep → EuroStep) (hf : ∀ t, SameSetup t (f t))
    (s x : EuroStep) (b : Bool) (hx : SameSetup s x) :
    SameSetup s { f x with last_state_is_low := b } :=
  hx.trans ((hf x).trans ⟨rfl, rfl, rfl, rfl, rfl⟩)

theorem setup_hook_2 (f : EuroStep → EuroStep) (hf : ∀ t, SameSetup t (f t))
    (s x : EuroStep) (b : Bool) (hx : SameSetup s x) :
    SameSetup s { f x with last_state_is_low_2 := b } :=
  hx.trans ((hf x).trans ⟨rfl, rfl, rfl, rfl, rfl⟩)

theorem run_clock_events_with_setup (hk : Hooks) (hkeep : hk.KeepSetup) (s : EuroStep) :
    SameSetup s (s.run_clock_events_with hk).1 := by
  unfold EuroStep.run_clock_events_with
  by_cases hen : s.clock_input > -1
  · simp only [hen, if_true]
    refine setup_ite _ s _ _ _ ?_ ?_
    · refine setup_hook hk.on_clock_fall_do hkeep.2.1 s _ _ ?_
      refine setup_ite _ s _ _ _ ?_ ⟨rfl, rfl, rfl, rfl, rfl⟩
      exact setup_hook hk.on_clock_rise_do hkeep.1 s _ _ ⟨rfl, rfl, rfl, rfl, rfl⟩
    · refine setup_ite _ s _ _ _ ?_ ⟨rfl, rfl, rfl, rfl, rfl⟩
      exact setup_hook hk.on_clock_rise_do hkeep.1 s _ _ ⟨rfl, rfl, rfl, rfl, rfl⟩
  · simp only [hen, if_false]
    exact SameSetup.refl s

theorem run_clock_events_2_with_setup (hk : Hooks) (hkeep : hk.KeepSetup) (s : EuroStep) :
    SameSetup s (s.run_clock_events_2_with hk).1 := by
  unfold EuroStep.run_clock_events_2_with
  by_cases hen : s.clock_input_2 > -1
  · simp only [hen, if_true]
    refine setup_ite _ s _ _ _ ?_ ?_
    · refine setup_hook_2 hk.on_clock_fall_2_do hkeep.2.2.2.1 s _ _ ?_
      refine setup_ite _ s _ _ _ ?_ ⟨rfl, rfl, rfl, rfl, rfl⟩
      exact setup_hook_2 hk.on_clock_rise_2_do hkeep.2.2.1 s _ _ ⟨rfl, rfl, rfl, rfl, rfl⟩
    · refine setup_ite _ s _ _ _ ?_ ⟨rfl, rfl, rfl, rfl, rfl⟩
      exact setup_hook_2 hk.on_clock_rise_2_do hkeep.2.2.1 s _ _ ⟨rfl, rfl, rfl, rfl, rfl⟩
  · simp only [hen, if_false]
    exact SameSetup.refl s

theorem step_unfold (s : EuroStep) (hk : Hooks) (board : Board) (r : StepRun)
    (h : s.step hk board = some r) :
    ∃ s1 s2, s.read_inputs board = some s1 ∧ s1.read_pots board = some s2 ∧
      r.before_write = hk.on_step_do
        (((s2.read_switches board).run_clock_events_with hk).1.run_clock_events_2_with hk).1 ∧
      r.state = r.before_write.write_outputs.state ∧
      r.aborted = r.before_write.write_outputs.aborted ∧
      r.trace =
        [StepEvent.read_inputs, StepEvent.read_pots, StepEvent.read_switches,
          StepEvent.run_clock_events]
        ++ ((s2.read_switches board).run_clock_events_with hk).2.map StepEvent.hook
        ++ [StepEvent.run_clock_events_2]
        ++ (((s2.read_switches board).run_clock_events_with hk).1.run_clock_events_2_with
              hk).2.map StepEvent.hook
        ++ [StepEvent.hook Hook.on_step_do, StepEvent.write_outputs]
        ++ r.before_write.write_outputs.board_calls.map StepEvent.board
        ++ (if r.before_write.write_outputs.aborted = false ∧ r.before_write.debug = true
            then [StepEvent.delay 250] else []) := by
  unfold EuroStep.step at h
  cases h1 : s.read_inputs board with
  | none => simp [h1] at h
  | some s1 =>
    cases h2 : s1.read_pots board with
    | none => simp [h1, h2] at h
    | some s2 =>
      simp only [h1, h2, Option.some.injEq] at h
      subst h
      exact ⟨s1, s2, rfl, h2, rfl, rfl, rfl, rfl⟩

theorem step_setup (s : EuroStep) (hk : Hooks) (hkeep : hk.KeepSetup) (board : Board)
    (r : StepRun) (h : s.step hk board = some r) : SameSetup s r.before_write := by
  obtain ⟨s1, s2, h1, h2, hb, _⟩ := step_unfold s hk board r h
  rw [hb]
  have e1 : SameSetup s s1 := by
    unfold EuroStep.read_inputs at h1
    exact read_inputs_loop_setup board _ _ s s1 h1
  have e2 : SameSetup s1 s2 := by
    unfold EuroStep.read_pots at h2
    exact read_pots_loop_setup board _ _ s1 s2 h2
  have e3 : SameSetup s2 (s2.read_switches board) := read_switches_loop_setup board _ _ s2
  have e4 := run_clock_events_with_setup hk hkeep (s2.read_switches board)
  have e5 := run_clock_events_2_with_setup hk hkeep
    ((s2.read_switches board).run_clock_events_with hk).1
  exact e1.trans (e2.trans (e3.trans (e4.trans (e5.trans (hkeep.2.2.2.2 _)))))

theorem base_hooks_keep : Hooks.KeepSetup {} :=
  ⟨fun t => SameSetup.refl t, fun t => SameSetup.refl t, fun t => SameSetup.refl t,
    fun t => SameSetup.refl t, fun t => SameSetup.refl t⟩

/-- C11 (amended): `start()` runs `initialise_pins()` and `on_start_do()` and never
aborts; when more than 4 outputs are in analog mode in the state it leaves (and the
hooks of `step()` leave the output modes alone), `write_outputs` aborts on its
assertion, and so does every `step()` made from that state. -/
theorem C11_surfaces_in_write_outputs (s : EuroStep) (hk : Hooks) (hkeep : hk.KeepSetup)
    (hmany : 4 < analog_count (s.start hk).state.output_mode_is_analog 0
      (s.start hk).state.NUMBER_OF_OUTPUTS) :
    (s.start hk).aborted = false ∧
    (s.start hk).state = hk.on_start_do s ∧
    (s.start hk).calls = s.initialise_pins ∧
    (s.start hk).hooks = [Hook.on_start_do] ∧
    (s.start hk).state.write_outputs.aborted = true ∧
    ∀ board r, (s.start hk).state.step hk board = some r →
      r.aborted = true ∧ StepEvent.write_outputs ∈ r.trace := by
  refine ⟨rfl, rfl, rfl, rfl, ?_, fun board r hr => ⟨?_, ?_⟩⟩
  · cases hw : (s.start hk).state.write_outputs.aborted with
    | true => rfl
    | false =>
      rw [write_outputs_aborted_iff] at hw
      omega
  · obtain ⟨_, _, _, _, _, _, hab, _⟩ := step_unfold _ _ _ r hr
    have hs := step_setup _ _ hkeep _ r hr
    cases hw : r.before_write.write_outputs.aborted with
    | true => rw [hab, hw]
    | false =>
      rw [write_outputs_aborted_iff, hs.1, hs.2.1] at hw
      omega
  · obtain ⟨_, _, _, _, _, _, _, htr⟩ := step_unfold _ _ _ r hr
    rw [htr]
    simp

theorem C11_surfaces_in_write_outputs_witness :
    4 < analog_count (five_analog_module.start {}).state.output_mode_is_analog 0
      (five_analog_module.start {}).state.NUMBER_OF_OUTPUTS ∧
    (∃ r, (five_analog_module.start {}).state.step {} quiet_board = some r) ∧
    (five_analog_module.start {}).aborted = false ∧
    (five_analog_module.start {}).state.write_outputs.aborted = true ∧
    ∀ board r, (five_analog_module.start {}).state.step {} board = some r →
      r.aborted = true ∧ StepEvent.write_outputs ∈ r.trace :=
  ⟨by decide,
   step_defined _ _ quiet_board (Or.inl (by decide)) (by decide),
   (C11_surfaces_in_write_outputs five_analog_module {} base_hooks_keep (by decide)).1,
   (C11_surfaces_in_write_outputs five_analog_module {} base_hooks_keep (by decide)).2.2.2.2.1,
   (C11_surfaces_in_write_outputs five_analog_module {} base_hooks_keep (by decide)).2.2.2.2.2⟩

/-- C11, the claim as stated fails: with five analog outputs `start()` completes
without aborting, and the error surfaces in `write_outputs`, which aborts after it
has handled the outputs 0 .. 3. -/
theorem C11_counterexample :
    4 < analog_count five_analog_module.output_mode_is_analog 0
      five_analog_module.NUMBER_OF_OUTPUTS ∧
    (five_analog_module.start {}).aborted = false ∧
    (five_analog_module.start {}).state.write_outputs.aborted = true ∧
    (five_analog_module.start {}).state.write_outputs.trace.map Prod.fst = [0, 1, 2, 3] := by
  decide

/-! ## The smoothing filter: one call, and its accesses to the history -/

/-- C22: a call of `read_analog_mV_smooth` with the new reading `r` turns the history
`[h0, h1, ..., h7]` into `[h1, ..., h7, r]` and returns `(h1 + ... + h7 + r) / 8` in C
integer division, whatever the history holds (all 8 slots are averaged also when
fewer than 8 readings have been taken: a first reading of 800 on a zeroed history
returns 100). -/
theorem C22_shift_and_average (r : Int) (h : Nat → Int) :
    (List.range 8).map (read_analog_mV_smooth r h).1 = [h 1, h 2, h 3, h 4, h 5, h 6, h 7, r] ∧
    (read_analog_mV_smooth r h).2
      = Int.tdiv (h 1 + h 2 + h 3 + h 4 + h 5 + h 6 + h 7 + r) 8 ∧
    (read_analog_mV_smooth 800 (fun _ => 0)).2 = 100 :=
  ⟨by simp [List.range, List.range.loop, smooth_history], smooth_value r h,
    by rw [smooth_value]; decide⟩

theorem shift_history_traced_spec (n i : Nat) (m : (Nat → Int) × List Access) :
    (shift_history_traced n i m).1 = shift_history n i m.1 ∧
    (shift_history_traced n i m).2
      = m.2 ++ (List.range' i n).flatMap (fun j => [Access.read (j + 1), Access.write j]) := by
  induction n generalizing i m with
  | zero => simp [shift_history_traced, shift_history]
  | succ n ih =>
    simp only [shift_history_traced, shift_history, List.range'_succ, List.flatMap_cons]
    obtain ⟨h1, h2⟩ := ih (i + 1)
      (Function.update m.1 i (m.1 (i + 1)), m.2 ++ [Access.read (i + 1), Access.write i])
    exact ⟨h1, by rw [h2, List.append_assoc]⟩

theorem sum_history_traced_spec (n i : Nat) (h : Nat → Int) (a : Int × List Access) :
    (sum_history_traced n i h a).1 = sum_history n i h a.1 ∧
    (sum_history_traced n i h a).2 = a.2 ++ (List.range' i n).map Access.read := by
  induction n generalizing i a with
  | zero => simp [sum_history_traced, sum_history]
  | succ n ih =>
    simp only [sum_history_traced, sum_history, List.range'_succ, List.map_cons]
    obtain ⟨h1, h2⟩ := ih (i + 1) (a.1 + h i, a.2 ++ [Access.read i])
    exact ⟨h1, by rw [h2, List.append_assoc]; rfl⟩

/-- C26 at any input, e.g. the reading 0 on a zeroed history: the traced routine
computes what `read_analog_mV_smooth` computes, and its accesses to `read_history`
are, in order, those of the shift loop (read `i + 1`, write `i` for `i = 0 .. 7`), the
store to cell 7 and the reads 0 .. 7 of the summation loop; the last iteration of the
shift loop reads cell 8, which is no cell of the 8-element array. -/
theorem C26_failing_input (r : Int) (h : Nat → Int) :
    (read_analog_mV_smooth_traced r h).1 = read_analog_mV_smooth r h ∧
    (read_analog_mV_smooth_traced r h).2
      = [Access.read 1, Access.write 0, Access.read 2, Access.write 1,
          Access.read 3, Access.write 2, Access.read 4, Access.write 3,
          Access.read 5, Access.write 4, Access.read 6, Access.write 5,
          Access.read 7, Access.write 6, Access.read 8, Access.write 7,
          Access.write 7,
          Access.read 0, Access.read 1, Access.read 2, Access.read 3,
          Access.read 4, Access.read 5, Access.read 6, Access.read 7] ∧
    Access.read 8 ∈ (read_analog_mV_smooth_traced r h).2 ∧
    (read_analog_mV_smooth_traced r h).2.filter
        (fun a => decide (a = Access.read 8)) = [Access.read 8] := by
  have e1 : (read_analog_mV_smooth_traced r h).1 = read_analog_mV_smooth r h := by
    simp only [read_analog_mV_smooth_traced, read_analog_mV_smooth,
      (shift_history_traced_spec _ _ _).1, (sum_history_traced_spec _ _ _ _).1]
  have e2 : (read_analog_mV_smooth_traced r h).2
      = [Access.read 1, Access.write 0, Access.read 2, Access.write 1,
          Access.read 3, Access.write 2, Access.read 4, Access.write 3,
          Access.read 5, Access.write 4, Access.read 6, Access.write 5,
          Access.read 7, Access.write 6, Access.read 8, Access.write 7,
          Access.write 7,
          Access.read 0, Access.read 1, Access.read 2, Access.read 3,
          Access.read 4, Access.read 5, Access.read 6, Access.read 7] := by
    simp only [read_analog_mV_smooth_traced, (shift_history_traced_spec _ _ _).2,
      (sum_history_traced_spec _ _ _ _).2]
    rfl
  refine ⟨e1, e2, ?_, ?_⟩
  · rw [e2]
    decide
  · rw [e2]
    decide

/-- C25 at the failing inputs `mV = 1920` on the scale with all 12 tones enabled and
`mV = 917` on the scale with tone 0 only followed by a non-zero byte: with
`floortone = 11` the first iteration reads `SCALE[11]` and `SCALE[12]`, and 12 is no
index of the 12-element scale; in the second case the tone chosen is 12 (returned as
999 mV). -/
theorem C25_failing_input :
    (∀ k : Nat, quantize_voltage_run (1 + k) 1920 all_tones
      = some ⟨1916, true, 0, [11, 12]⟩) ∧
    (∀ k : Nat, quantize_voltage_run (1 + k) 917 root_only_then_set
      = some ⟨999, true, 0, [11, 12]⟩) ∧
    quantize_search root_only_then_set (917 / 83.3333) 1 ⟨11, 12, 0, 0, 0, []⟩
      = some ⟨12, 0, 0, [11, 12]⟩ ∧
    count_switches 12 0 all_tones 0 = 12 ∧ count_switches 12 0 root_only_then_set 0 = 1 := by
  refine ⟨fun k => ?_, fun k => ?_, ?_, by decide, by decide⟩
  · exact quantize_voltage_run_more_fuel 1 k 1920 all_tones _
      (by rw [quantize_voltage_run_eq_int]; decide)
  · exact quantize_voltage_run_more_fuel 1 k 917 root_only_then_set _
      (by rw [quantize_voltage_run_eq_int]; decide)
  · rw [quantize_search_eq_int]
    rfl

/-! ## The transfer of a frame -/

theorem clock_out_bits_eq (n i : Nat) (data : Nat → Bool) (pin_sck pin_sdi : Int) :
    clock_out_bits n i data pin_sck pin_sdi
      = (List.range' i n).flatMap (fun j =>
          [BoardCall.digitalWrite pin_sdi (if data j == true then HIGH else LOW),
            BoardCall.digitalWrite pin_sck HIGH, BoardCall.digitalWrite pin_sck LOW]) := by
  induction n generalizing i with
  | zero => rfl
  | succ n ih =>
    rw [clock_out_bits, ih, List.range'_succ, List.flatMap_cons]
    rfl

theorem rising_edges_append (pin_cs pin_sck pin_sdi : Int) (levels : Int → Int)
    (l1 l2 : List BoardCall) :
    rising_edges pin_cs pin_sck pin_sdi levels (l1 ++ l2)
      = rising_edges pin_cs pin_sck pin_sdi levels l1
        ++ rising_edges pin_cs pin_sck pin_sdi (replay levels l1) l2 := by
  induction l1 generalizing levels with
  | nil => rfl
  | cons c l1 ih =>
    rw [List.cons_append]
    simp only [rising_edges, ih, List.append_assoc]
    rfl

theorem rising_edges_clock_out_bits (pin_cs pin_sck pin_sdi : Int) (data : Nat → Bool)
    (h1 : pin_sck ≠ pin_cs) (h2 : pin_sck ≠ pin_sdi) (h3 : pin_cs ≠ pin_sdi)
    (n i : Nat) (levels : Int → Int)
    (hck : levels pin_sck = LOW) (hcs : levels pin_cs = LOW) :
    rising_edges pin_cs pin_sck pin_sdi levels (clock_out_bits n i data pin_sck pin_sdi)
      = (List.range' i n).map (fun j => (LOW, if data j == true then HIGH else LOW)) ∧
    replay levels (clock_out_bits n i data pin_sck pin_sdi) pin_sck = LOW ∧
    replay levels (clock_out_bits n i data pin_sck pin_sdi) pin_cs = LOW := by
  induction n generalizing i levels with
  | zero => exact ⟨rfl, hck, hcs⟩
  | succ n ih =>
    have hlh : LOW ≠ HIGH := by decide
    obtain ⟨e1, e2, e3⟩ := ih (i + 1)
      (Function.update
        (Function.update
          (Function.update levels pin_sdi (if data i == true then HIGH else LOW))
          pin_sck HIGH)
        pin_sck LOW)
      (by simp)
      (by simp [Function.update_noteq h1.symm, Function.update_noteq h3, hcs])
    refine ⟨?_, e2, e3⟩
    simp only [clock_out_bits, rising_edges, pin_write, e1, List.range'_succ, List.map_cons]
    simp [Function.update_noteq h1.symm, Function.update_noteq h3, Function.update_noteq h2,
      hck, hcs, h2.symm, hlh]

theorem rising_edges_none (pin_cs pin_sck pin_sdi : Int) (levels : Int → Int)
    (l : List BoardCall) (h : ∀ v, BoardCall.digitalWrite pin_sck v ∉ l) :
    rising_edges pin_cs pin_sck pin_sdi levels l = [] := by
  induction l generalizing levels with
  | nil => rfl
  | cons c l ih =>
    have hl : ∀ v, BoardCall.digitalWrite pin_sck v ∉ l :=
      fun v hv => h v (List.mem_cons_of_mem _ hv)
    simp only [rising_edges, ih _ hl]
    cases c with
    | digitalWrite pin value =>
      have : pin ≠ pin_sck := by
        intro e
        exact h value (by rw [← e]; exact List.mem_cons_self _ _)
      simp [this]
    | delayMicroseconds us => rfl

/-- C21: the board calls of `write_dac_code` are: chip-select low; for `i = 0 .. 15`
in order the data pin set to `data[i]`, clock high, clock low; chip-select high; a
low-then-high pulse of the load strobe exactly when `pin_ldac > -1`; the final delay
of 1 microsecond.  On a board whose clock pin differs from the three other pins,
whose chip-select pin differs from the data pin and whose clock line is low on
entry, the clock line rises exactly 16 times, each time with chip-select low, and at
the `i`-th rise the data line carries `data[i]`. -/
theorem C21_transfer_trace (data : Nat → Bool) (pin_cs pin_sck pin_sdi pin_ldac : Int) :
    write_dac_code data pin_cs pin_sck pin_sdi pin_ldac
      = [BoardCall.digitalWrite pin_cs LOW]
        ++ (List.range 16).flatMap (fun i =>
            [BoardCall.digitalWrite pin_sdi (if data i == true then HIGH else LOW),
              BoardCall.digitalWrite pin_sck HIGH, BoardCall.digitalWrite pin_sck LOW])
        ++ [BoardCall.digitalWrite pin_cs HIGH]
        ++ (if pin_ldac > -1 then
              [BoardCall.digitalWrite pin_ldac LOW, BoardCall.digitalWrite pin_ldac HIGH]
            else [])
        ++ [BoardCall.delayMicroseconds 1] ∧
    ∀ levels : Int → Int, pin_sck ≠ pin_cs → pin_sck ≠ pin_sdi → pin_sck ≠ pin_ldac →
      pin_cs ≠ pin_sdi → levels pin_sck = LOW →
      rising_edges pin_cs pin_sck pin_sdi levels
          (write_dac_code data pin_cs pin_sck pin_sdi pin_ldac)
        = (List.range 16).map (fun i => (LOW, if data i == true then HIGH else LOW)) ∧
      (rising_edges pin_cs pin_sck pin_sdi levels
          (write_dac_code data pin_cs pin_sck pin_sdi pin_ldac)).length = 16 := by
  have htrace : write_dac_code data pin_cs pin_sck pin_sdi pin_ldac
      = [BoardCall.digitalWrite pin_cs LOW]
        ++ (List.range 16).flatMap (fun i =>
            [BoardCall.digitalWrite pin_sdi (if data i == true then HIGH else LOW),
              BoardCall.digitalWrite pin_sck HIGH, BoardCall.digitalWrite pin_sck LOW])
        ++ [BoardCall.digitalWrite pin_cs HIGH]
        ++ (if pin_ldac > -1 then
              [BoardCall.digitalWrite pin_ldac LOW, BoardCall.digitalWrite pin_ldac HIGH]
            else [])
        ++ [BoardCall.delayMicroseconds 1] := by
    rw [write_dac_code, clock_out_bits_eq, List.range_eq_range']
  refine ⟨htrace, fun levels h1 h2 h3 h4 hck => ?_⟩
  have hedges : rising_edges pin_cs pin_sck pin_sdi levels
      (write_dac_code data pin_cs pin_sck pin_sdi pin_ldac)
        = (List.range 16).map (fun i => (LOW, if data i == true then HIGH else LOW)) := by
    obtain ⟨e1, _, _⟩ := rising_edges_clock_out_bits pin_cs pin_sck pin_sdi data h1 h2 h4 16 0
      (Function.update levels pin_cs LOW)
      (by rw [Function.update_noteq h1]; exact hck) (by simp)
    have htail : ∀ lv, rising_edges pin_cs pin_sck pin_sdi lv
        ([BoardCall.digitalWrite pin_cs HIGH]
          ++ (if pin_ldac > -1 then
                [BoardCall.digitalWrite pin_ldac LOW, BoardCall.digitalWrite pin_ldac HIGH]
              else [])
          ++ [BoardCall.delayMicroseconds 1]) = [] := by
      intro lv
      apply rising_edges_none
      intro v hv
      split_ifs at hv <;> simp at hv <;> omega
    rw [write_dac_code, List.append_assoc, List.append_assoc, List.append_assoc,
      List.singleton_append, rising_edges, rising_edges_append,
      ← List.append_assoc, ← List.append_assoc]
    rw [htail]
    simp only [pin_write, e1, List.append_nil, List.range_eq_range']
    simp [h1, Ne.symm h1]
  exact ⟨hedges, by rw [hedges]; simp⟩

theorem C21_transfer_trace_witness :
    (4 : Int) ≠ 5 ∧ (5 : Int) ≠ 6 ∧
    rising_edges 4 5 6 (fun _ => LOW) (write_dac_code (fun i => decide (i % 2 = 0)) 4 5 6 7)
      = (List.range 16).map (fun i => (LOW, if decide (i % 2 = 0) == true then HIGH else LOW)) ∧
    (rising_edges 4 5 6 (fun _ => LOW)
      (write_dac_code (fun i => decide (i % 2 = 0)) 4 5 6 7)).length = 16 :=
  ⟨by decide, by decide,
    ((C21_transfer_trace (fun i => decide (i % 2 = 0)) 4 5 6 7).2 (fun _ => LOW)
      (by decide) (by decide) (by decide) (by decide) rfl).1,
    ((C21_transfer_trace (fun i => decide (i % 2 = 0)) 4 5 6 7).2 (fun _ => LOW)
      (by decide) (by decide) (by decide) (by decide) rfl).2⟩

/-! ## The chip and the channel of an analog output -/

theorem analog_count_snoc (mode : Nat → Bool) (i : Nat) :
    analog_count mode 0 (i + 1) = analog_count mode 0 i + (if mode i then 1 else 0) := by
  unfold analog_count
  rw [List.range'_1_concat, List.filter_append, List.length_append]
  simp only [Nat.zero_add, List.filter_cons, List.filter_nil]
  split_ifs <;> rfl

theorem write_output_analog (s : EuroStep) (i c : Nat) (r : EuroStep × List BoardCall)
    (h : s.write_output i = some r) (hev : s.dac_event = (c : Int))
    (ha : s.output_mode_is_analog i = true) (hne : r.2 ≠ []) :
    c + 1 ≤ 4 ∧ IsDacTransfer s i (c + 1) r.2 := by
  obtain ⟨s1, calls⟩ := r
  have hd : s.dac_event + 1 ≤ 4 := by
    by_contra hd
    simp [EuroStep.write_output, ha, hd] at h
  have hc : c + 1 ≤ 4 := by omega
  refine ⟨hc, ?_⟩
  by_cases hv : s.output_values i = s.output_values_old i
  · simp only [EuroStep.write_output, ha, hd, hv, if_true, ne_eq, not_true_eq_false,
      if_false, Option.some.injEq, Prod.mk.injEq] at h
    exact absurd h.2.symm hne
  · have hc4 : c = 0 ∨ c = 1 ∨ c = 2 ∨ c = 3 := by omega
    rcases hc4 with e | e | e | e <;> subst e <;>
      simp only [EuroStep.write_output, ha, hd, hv, hev, if_true, ne_eq,
        not_false_eq_true, if_false, Option.some.injEq, Prod.mk.injEq] at h <;>
      norm_num at h <;>
      obtain ⟨_, h2⟩ := h <;>
      subst h2 <;>
      exact ⟨s.dac_code, by simp [dac_pins]⟩

theorem write_outputs_loop_channels (n i : Nat) (s : EuroStep)
    (trace : List (Nat × List BoardCall))
    (hev : s.dac_event = ((analog_count s.output_mode_is_analog 0 i : Nat) : Int)) :
    ∀ e ∈ (EuroStep.write_outputs_loop n i s trace).trace, e ∈ trace ∨
      (i ≤ e.1 ∧ e.1 < i + n ∧
        (s.output_mode_is_analog e.1 = true → e.2 ≠ [] →
          1 ≤ analog_count s.output_mode_is_analog 0 (e.1 + 1) ∧
          analog_count s.output_mode_is_analog 0 (e.1 + 1) ≤ 4 ∧
          IsDacTransfer s e.1 (analog_count s.output_mode_is_analog 0 (e.1 + 1)) e.2)) := by
  induction n generalizing i s trace with
  | zero => exact fun e he => Or.inl he
  | succ n ih =>
    unfold EuroStep.write_outputs_loop
    cases hw : s.write_output i with
    | none => exact fun e he => Or.inl he
    | some r =>
      simp only
      obtain ⟨_, hval, hmode, _, hev', _, _, hpa, hpb, _⟩ := write_output_some s i r hw
      have hev2 : r.1.dac_event
          = ((analog_count r.1.output_mode_is_analog 0 (i + 1) : Nat) : Int) := by
        rw [hev', hmode, analog_count_snoc, hev]
        split_ifs <;> push_cast <;> rfl
      intro e he
      rcases ih (i + 1) r.1 (trace ++ [(i, r.2)]) hev2 e he with hin | ⟨hlo, hhi, hk⟩
      · rcases List.mem_append.1 hin with hin | hin
        · exact Or.inl hin
        · have he : e = (i, r.2) := by simpa using hin
          subst he
          refine Or.inr ⟨le_refl _, by omega, fun ha hne => ?_⟩
          obtain ⟨hc, ht⟩ := write_output_analog s i _ r hw hev ha hne
          have hk : analog_count s.output_mode_is_analog 0 (i + 1)
              = analog_count s.output_mode_is_analog 0 i + 1 := by
            rw [analog_count_snoc, if_pos ha]
          rw [hk]
          exact ⟨by omega, hc, ht⟩
      · refine Or.inr ⟨by omega, by omega, fun ha hne => ?_⟩
        rw [hmode] at hk
        obtain ⟨k1, k4, code, hc⟩ := hk ha hne
        refine ⟨k1, k4, code, ?_⟩
        rw [hc]
        simp only [dac_pins, hval, hpa, hpb]

/-- C23: in `write_outputs`, when output `i` is in analog mode and is written (its
value changed), then with `k` the number of analog outputs among `0 .. i` (so output
`i` is the `k`-th analog output, counted over all analog outputs, written or not):
`k` is between 1 and 4, the frame is encoded for channel A (channel bit `false`) if
`k` is odd and for channel B (channel bit `true`) if `k` is even, and it is
transferred on the pins of chip A if `k ≤ 2` and of chip B if `k ≥ 3`. -/
theorem C23_chip_and_channel (s : EuroStep) (i : Nat) (calls : List BoardCall)
    (hmem : (i, calls) ∈ s.write_outputs.trace)
    (ha : s.output_mode_is_analog i = true) (hne : calls ≠ []) :
    1 ≤ analog_count s.output_mode_is_analog 0 (i + 1) ∧
    analog_count s.output_mode_is_analog 0 (i + 1) ≤ 4 ∧
    ∃ code : Nat → Bool,
      calls = write_dac_code
        (update_dac_code code (s.output_values i)
          (decide (analog_count s.output_mode_is_analog 0 (i + 1) % 2 = 0)))
        ((if analog_count s.output_mode_is_analog 0 (i + 1) ≤ 2 then s.pins_dac_a
            else s.pins_dac_b) 0)
        ((if analog_count s.output_mode_is_analog 0 (i + 1) ≤ 2 then s.pins_dac_a
            else s.pins_dac_b) 1)
        ((if analog_count s.output_mode_is_analog 0 (i + 1) ≤ 2 then s.pins_dac_a
            else s.pins_dac_b) 2)
        ((if analog_count s.output_mode_is_analog 0 (i + 1) ≤ 2 then s.pins_dac_a
            else s.pins_dac_b) 3) := by
  unfold EuroStep.write_outputs at hmem
  rcases write_outputs_loop_channels s.NUMBER_OF_OUTPUTS 0 { s with dac_event := 0 } []
    (by simp [analog_count]) (i, calls) hmem with hin | ⟨_, _, hk⟩
  · cases hin
  · exact hk ha hne

theorem C23_chip_and_channel_witness :
    1 ≤ analog_count rasa3x2_changed.output_mode_is_analog 0 (0 + 1) ∧
    analog_count rasa3x2_changed.output_mode_is_analog 0 (0 + 1) ≤ 4 ∧
    ∃ code : Nat → Bool,
      write_dac_code (update_dac_code (fun _ => false) 1200 false) 4 5 6 7 = write_dac_code
        (update_dac_code code (rasa3x2_changed.output_values 0)
          (decide (analog_count rasa3x2_changed.output_mode_is_analog 0 (0 + 1) % 2 = 0)))
        ((if analog_count rasa3x2_changed.output_mode_is_analog 0 (0 + 1) ≤ 2
            then rasa3x2_changed.pins_dac_a else rasa3x2_changed.pins_dac_b) 0)
        ((if analog_count rasa3x2_changed.output_mode_is_analog 0 (0 + 1) ≤ 2
            then rasa3x2_changed.pins_dac_a else rasa3x2_changed.pins_dac_b) 1)
        ((if analog_count rasa3x2_changed.output_mode_is_analog 0 (0 + 1) ≤ 2
            then rasa3x2_changed.pins_dac_a else rasa3x2_changed.pins_dac_b) 2)
        ((if analog_count rasa3x2_changed.output_mode_is_analog 0 (0 + 1) ≤ 2
            then rasa3x2_changed.pins_dac_a else rasa3x2_changed.pins_dac_b) 3) :=
  C23_chip_and_channel rasa3x2_changed 0
    (write_dac_code (update_dac_code (fun _ => false) 1200 false) 4 5 6 7)
    (by decide) (by decide) (by decide)

/-! ## The scale quantizer: quantizing a quantized voltage -/

theorem search_first_ceil (SCALE : Int → Bool) (f : Int) (n : Nat)
    (hc : SCALE (f + 1) = true) :
    quantize_search_int SCALE false (n + 1) ⟨f, f + 1, 0, 0, 0, []⟩
      = some ⟨f + 1, 0, 0, [f, f + 1]⟩ := by
  cases hf : SCALE f <;> simp [quantize_search_int, hf, hc]

theorem search_first_floor (SCALE : Int → Bool) (f : Int) (n : Nat)
    (hf : SCALE f = true) :
    quantize_search_int SCALE true (n + 1) ⟨f, f + 1, 0, 0, 0, []⟩
      = some ⟨f, 0, 0, [f, f + 1]⟩ := by
  cases hc : SCALE (f + 1) <;> simp [quantize_search_int, hf, hc]

theorem requantize_tone (SCALE : Int → Bool) (b t : Int) (hb : 0 ≤ b) (ht0 : 0 ≤ t)
    (ht1 : t ≤ 11) (hen : SCALE t = true) (hon : count_switches 12 0 SCALE 0 ≠ 0) :
    ∃ q, quantize_voltage_run 1 (Int.tdiv (b * 1000 * 10000 + t * 833333) 10000) SCALE
        = some q ∧
      q.new_mV = Int.tdiv (b * 1000 * 10000 + t * 833333) 10000 := by
  have hv : Int.tdiv (b * 1000 * 10000 + t * 833333) 10000
      = 1000 * b + t * 833333 / 10000 := by
    rw [Int.tdiv_eq_ediv (by omega) (by norm_num)]
    omega
  rw [hv]
  generalize hrt : t * 833333 / 10000 = rt
  have hrt0 : 0 ≤ rt ∧ rt < 917 := by omega
  rw [quantize_voltage_run_eq_int]
  simp only [quantize_voltage_run_int, hon, if_false]
  have hmod : Int.tmod (1000 * b + rt) 1000 = rt := by
    rw [Int.tmod_eq_emod (by omega) (by norm_num)]
    omega
  have hdiv : Int.tdiv (1000 * b + rt) 1000 = b := by
    rw [Int.tdiv_eq_ediv (by omega) (by norm_num)]
    omega
  have hround : round_tones_int rt = (rt * 20000 + 833333) / 1666666 := by
    unfold round_tones_int
    rw [if_pos hrt0.1, Int.tdiv_eq_ediv (by omega) (by norm_num)]
  rw [hmod, hdiv, hround]
  generalize hf : rt * 10000 / 833333 = f
  generalize hR : (rt * 20000 + 833333) / 1666666 = R
  have hcases : (t = 0 ∧ f = 0 ∧ R = 0) ∨ (t = f + 1 ∧ R = f + 1) := by
    interval_cases t <;> omega
  rcases hcases with ⟨e0, ef, eR⟩ | ⟨et, eR⟩
  · subst e0 ef eR
    have hz : rt = 0 := by omega
    subst hz
    rw [show decide ((0 : Int) = 0) = true by decide, search_first_floor SCALE 0 0 hen]
    refine ⟨_, rfl, ?_⟩
    show Int.tdiv ((b * 1000 + 0 * 1000) * 10000 + 0 * 833333) 10000 = 1000 * b + 0
    rw [Int.tdiv_eq_ediv (by omega) (by norm_num)]
    omega
  · subst et eR
    rw [show decide (f + 1 = f) = false by simp, search_first_ceil SCALE f 0 hen]
    refine ⟨_, rfl, ?_⟩
    show Int.tdiv ((b * 1000 + 0 * 1000) * 10000 + (f + 1) * 833333) 10000 = 1000 * b + rt
    rw [Int.tdiv_eq_ediv (by omega) (by norm_num)]
    omega

/-! ## Playback: the read at the end of the array -/

theorem run_playback_reads (p : Playback) (timer : Int)
    (hpos : p.start_position ≤ p.current_position)
    (hpause : p.pause = false) (hsafe : p.now_restarting_safely = false) :
    (p.run_playback timer).audio_reads
      = p.audio_reads ++ (if timer > p.playback_rate then [p.current_position + 1] else []) := by
  have hlt : ¬ p.current_position < p.start_position := by omega
  unfold Playback.run_playback
  simp only [hlt, if_false, hpause, hsafe, Bool.not_false, if_true, Bool.false_eq_true]
  unfold Playback.continue_playback
  by_cases ht : timer > p.playback_rate
  · simp only [ht, if_true]
    split_ifs <;> rfl
  · simp only [ht, if_false]
    split_ifs <;> simp [Playback.restart_playback, Playback.rewind_playback,
      Playback.unpause_playback, Playback.pause_playback]

/-- C28 at the failing input: 4 samples, `current_position = 3` (the last sample),
`start_position = 0`, not paused, not restarting, `get_timer() = 101` above the
playback rate 100.  `continue_playback` advances the position to 4 and reads
`audio[4]`, the cell after the array; the test `current_position >= audio_length`
comes after the read, and the value read stays in `current_value` after the rewind.
With `get_timer() = 100` nothing is read. -/
theorem C28_failing_input :
    0 ≤ last_sample_playback.start_position ∧
    last_sample_playback.start_position ≤ last_sample_playback.current_position ∧
    last_sample_playback.current_position < last_sample_playback.audio_length ∧
    last_sample_playback.pause = false ∧
    last_sample_playback.now_restarting_safely = false ∧
    (last_sample_playback.run_playback 101).audio_reads = [4] ∧
    ¬ (4 < last_sample_playback.audio_length) ∧
    (last_sample_playback.run_playback 101).current_value = 7777 ∧
    (last_sample_playback.run_playback 101).current_position = 0 ∧
    (last_sample_playback.run_playback 101).pause = true ∧
    (last_sample_playback.run_playback 100).audio_reads = [] := by
  decide

/-! ## The scale quantizer on a fixed-width `int` -/

theorem wrap_int_fits (bits : Nat) (x : Int) (hlo : -(2 ^ (bits - 1) : Int) ≤ x)
    (hhi : x < 2 ^ (bits - 1)) : wrap_int bits x = x := by
  unfold wrap_int
  simp only
  generalize (2 : Int) ^ (bits - 1) = half at hlo hhi
  rw [Int.emod_eq_of_lt (by omega) (by omega)]
  omega

theorem quantize_voltage_wrapped_eq_int (bits fuel : Nat) (mV : Int) (SCALE : Int → Bool) :
    quantize_voltage_wrapped bits fuel mV SCALE
      = quantize_voltage_wrapped_int bits fuel mV SCALE := by
  unfold quantize_voltage_wrapped quantize_voltage_wrapped_int
  simp only [quantize_search_eq_int, floor_residTones, c_round_residTones,
    c_trunc_tone_voltage, round_tones_int]

theorem quantize_voltage_wrapped_more_fuel (bits fuel k : Nat) (mV : Int)
    (SCALE : Int → Bool) (v : Int)
    (h : quantize_voltage_wrapped bits fuel mV SCALE = some v) :
    quantize_voltage_wrapped bits (fuel + k) mV SCALE = some v := by
  rw [quantize_voltage_wrapped_eq_int] at h ⊢
  simp only [quantize_voltage_wrapped_int] at h ⊢
  split_ifs at h ⊢ with h0
  · exact h
  · revert h
    cases hs : quantize_search_int SCALE
        (decide (round_tones_int (Int.tmod mV 1000) = Int.tmod mV 1000 * 10000 / 833333)) fuel
        ⟨Int.tmod mV 1000 * 10000 / 833333, Int.tmod mV 1000 * 10000 / 833333 + 1, 0, 0, 0, []⟩ with
    | none => intro h; simp at h
    | some found =>
      intro h
      rw [quantize_search_int_more_fuel _ _ _ k _ _ hs]
      exact h

theorem quantize_found_in_range (mV : Int) (SCALE : Int → Bool) (h0 : 0 ≤ mV)
    (hres : mV % 1000 < 917) (hon : count_switches 12 0 SCALE 0 ≠ 0) :
    ∃ found : Found, 0 ≤ found.outTone ∧ found.outTone ≤ 11 ∧
      SCALE found.outTone = true ∧
      -1 ≤ found.octave_shift ∧ found.octave_shift ≤ 1 ∧
      (found.octave_shift = 1 → found.outTone ≤ 4) ∧
      ∀ k : Nat, quantize_search_int SCALE
          (decide (round_tones_int (Int.tmod mV 1000) = Int.tmod mV 1000 * 10000 / 833333))
          (6 + k)
          ⟨Int.tmod mV 1000 * 10000 / 833333, Int.tmod mV 1000 * 10000 / 833333 + 1,
            0, 0, 0, []⟩ = some found := by
  have hmod : Int.tmod mV 1000 = mV % 1000 := Int.tmod_eq_emod h0 (by norm_num)
  have hr0 : 0 ≤ mV % 1000 := Int.emod_nonneg _ (by norm_num)
  rw [hmod]
  generalize mV % 1000 = r at hres hr0
  have hf0 : 0 ≤ r * 10000 / 833333 := by omega
  have hf1 : r * 10000 / 833333 ≤ 10 := by omega
  generalize r * 10000 / 833333 = f0 at hf0 hf1
  have inv : SearchInv SCALE f0 0 ⟨f0, f0 + 1, 0, 0, 0, []⟩ :=
    ⟨rfl, hf0, by simp only; omega, by simp only; omega, by simp only; omega,
      by simp, by simp, fun P h1 h2 => by simp at h1 h2; omega, by simp⟩
  obtain ⟨found, hfound, post⟩ :=
    quantize_search_int_ok SCALE (decide (round_tones_int r = f0)) f0 hon 6 0 _ inv
      (by norm_num) (by norm_num)
  have hw := post.widenings
  have ht0 := post.tone_lo
  have ht1 := post.tone_hi
  refine ⟨found, ht0, ht1, post.enabled, ?_, ?_, ?_,
    fun k => quantize_search_int_more_fuel _ _ 6 k _ _ hfound⟩
  · rcases post.choice with ⟨hT, _⟩ | ⟨hT, _⟩ <;> omega
  · rcases post.choice with ⟨hT, _⟩ | ⟨hT, _⟩ <;> omega
  · intro h1
    rcases post.choice with ⟨hT, _⟩ | ⟨hT, _⟩ <;> omega

theorem tdiv_ten_thousand_lower (x : Int) (h : -10000000 ≤ x) : -1000 ≤ Int.tdiv x 10000 := by
  by_cases hx : 0 ≤ x
  · rw [Int.tdiv_eq_ediv hx (by norm_num)]
    omega
  · have e : x = -(-x) := by omega
    rw [e, Int.neg_tdiv, Int.tdiv_eq_ediv (by omega) (by norm_num)]
    omega

/-- Where the voltage that `quantize_voltage_run` returns fits the `int`, the routine
on the fixed-width `int` returns the same voltage. -/
theorem quantize_voltage_wrapped_agrees (bits : Nat) (mV : Int) (SCALE : Int → Bool)
    (v : Int) (h0 : 0 ≤ mV) (hres : mV % 1000 < 917)
    (hon : count_switches 12 0 SCALE 0 ≠ 0)
    (hv : quantize_voltage 6 mV SCALE = some v)
    (hfit : v < 2 ^ (bits - 1)) (hP : (1000 : Int) ≤ 2 ^ (bits - 1)) :
    ∀ k : Nat, quantize_voltage_wrapped bits (6 + k) mV SCALE = some v := by
  obtain ⟨found, ht0, ht1, _, hs0, hs1, _, hfound⟩ :=
    quantize_found_in_range mV SCALE h0 hres hon
  have hdiv : Int.tdiv mV 1000 = mV / 1000 := Int.tdiv_eq_ediv h0 (by norm_num)
  have hb : 0 ≤ mV / 1000 := Int.ediv_nonneg h0 (by norm_num)
  have h6 := hfound 0
  rw [Nat.add_zero] at h6
  rw [quantize_voltage, quantize_voltage_run_eq_int] at hv
  simp only [quantize_voltage_run_int, hon, if_false, h6, Option.map_some',
    Option.some.injEq, hdiv] at hv
  intro k
  rw [quantize_voltage_wrapped_eq_int]
  simp only [quantize_voltage_wrapped_int, hon, if_false, hfound k, hdiv]
  generalize hPd : (2 : Int) ^ (bits - 1) = P at hfit hP
  have hlow := tdiv_ten_thousand_lower
    ((mV / 1000 * 1000 + found.octave_shift * 1000) * 10000 + found.outTone * 833333)
    (by omega)
  rw [hv] at hlow
  have ha : mV / 1000 * 1000 + found.octave_shift * 1000 < P := by
    by_cases hneg : mV / 1000 * 1000 + found.octave_shift * 1000 < 0
    · omega
    · rw [Int.tdiv_eq_ediv (by omega) (by norm_num)] at hv
      omega
  rw [wrap_int_fits bits (mV / 1000 * 1000 + found.octave_shift * 1000)
    (by rw [hPd]; omega) (by rw [hPd]; exact ha), hv,
    wrap_int_fits bits v (by rw [hPd]; omega) (by rw [hPd]; exact hfit)]

/-- C27 (as amended): on an `int` of `bits` bits, for every `mV ≥ 1000` with
`mV % 1000 < 917` that lies below the top octave of the `int` range (the next octave
boundary plus 333 fits the `int`; for 16 bits: `mV < 32000`) and every scale with at
least one tone enabled, `quantize_voltage` returns a voltage `v` (the search ends
within 6 iterations) and quantizing `v` again returns `v`. -/
theorem C27_idempotent_below_top_octave (bits : Nat) (mV : Int) (SCALE : Int → Bool)
    (h1000 : 1000 ≤ mV) (hres : mV % 1000 < 917) (hon : count_switches 12 0 SCALE 0 ≠ 0)
    (hfit : (mV / 1000 + 1) * 1000 + 333 < 2 ^ (bits - 1)) :
    ∃ v, ∀ k : Nat, quantize_voltage_wrapped bits (6 + k) mV SCALE = some v ∧
      quantize_voltage_wrapped bits (6 + k) v SCALE = some v := by
  have h0 : 0 ≤ mV := by omega
  obtain ⟨found, ht0, ht1, hen, hs0, hs1, hs4, hfound⟩ :=
    quantize_found_in_range mV SCALE h0 hres hon
  have hdiv : Int.tdiv mV 1000 = mV / 1000 := Int.tdiv_eq_ediv h0 (by norm_num)
  have hb : 0 ≤ mV / 1000 + found.octave_shift := by omega
  have h6 := hfound 0
  rw [Nat.add_zero] at h6
  have hv1 : quantize_voltage 6 mV SCALE
      = some (Int.tdiv ((mV / 1000 + found.octave_shift) * 1000 * 10000
          + found.outTone * 833333) 10000) := by
    rw [quantize_voltage, quantize_voltage_run_eq_int]
    simp only [quantize_voltage_run_int, hon, if_false, h6, Option.map_some', hdiv]
    congr 2
    ring
  obtain ⟨q2, hq2, hnew⟩ := requantize_tone SCALE (mV / 1000 + found.octave_shift)
    found.outTone hb ht0 ht1 hen hon
  have hvv : Int.tdiv ((mV / 1000 + found.octave_shift) * 1000 * 10000
      + found.outTone * 833333) 10000
      = 1000 * (mV / 1000 + found.octave_shift) + found.outTone * 833333 / 10000 := by
    rw [Int.tdiv_eq_ediv (by omega) (by norm_num)]
    omega
  rw [hvv] at hv1 hq2 hnew
  generalize hv : 1000 * (mV / 1000 + found.octave_shift) + found.outTone * 833333 / 10000
    = v at hv1 hq2 hnew
  have hrt0 : 0 ≤ found.outTone * 833333 / 10000 := by omega
  have hrt1 : found.outTone * 833333 / 10000 ≤ 916 := by omega
  have hrt4 : found.outTone ≤ 4 → found.outTone * 833333 / 10000 ≤ 333 := by
    intro h4
    omega
  generalize found.outTone * 833333 / 10000 = rt at hv hrt0 hrt1 hrt4
  have hv0 : 0 ≤ v := by omega
  have hvres : v % 1000 < 917 := by omega
  have hvfit : v < 2 ^ (bits - 1) := by
    generalize (2 : Int) ^ (bits - 1) = P at hfit ⊢
    by_cases h1 : found.octave_shift = 1
    · have := hrt4 (hs4 h1)
      omega
    · omega
  have hP : (1000 : Int) ≤ 2 ^ (bits - 1) := by
    generalize (2 : Int) ^ (bits - 1) = P at hfit ⊢
    omega
  have hv2 : quantize_voltage 6 v SCALE = some v := by
    have h := quantize_voltage_run_more_fuel 1 5 v SCALE q2 hq2
    rw [quantize_voltage, h]
    exact congrArg some hnew
  exact ⟨v, fun k =>
    ⟨quantize_voltage_wrapped_agrees bits mV SCALE v h0 hres hon hv1 hvfit hP k,
      quantize_voltage_wrapped_agrees bits v SCALE v hv0 hvres hon hv2 hvfit hP k⟩⟩

theorem C27_idempotent_below_top_octave_witness :
    (∃ v, ∀ k : Nat, quantize_voltage_wrapped 16 (6 + k) 31260 all_tones = some v ∧
      quantize_voltage_wrapped 16 (6 + k) v all_tones = some v) ∧
    quantize_voltage_wrapped 16 6 31260 all_tones = some 31249 ∧
    quantize_voltage_wrapped 16 6 31249 all_tones = some 31249 :=
  ⟨C27_idempotent_below_top_octave 16 31260 all_tones (by decide) (by decide) (by decide)
      (by decide),
    by rw [quantize_voltage_wrapped_eq_int]; decide,
    by rw [quantize_voltage_wrapped_eq_int]; decide⟩

/-- C27 fails as stated in the top octave of a 16-bit `int`: `mV = 32500` with tone 0
only satisfies `mV ≥ 1000` and `mV % 1000 < 917`; the nearest tone is tone 0 of the
next octave, the `int` sum `32 * 1000 + 1 * 1000` wraps around to -32536, which the
first call returns, and the second call returns -32000 (the memory before the scale
holding zero bytes).  Without the wrap-around the value would be 33000. -/
theorem C27_counterexample :
    (1000 : Int) ≤ 32500 ∧ (32500 : Int) % 1000 < 917 ∧
    count_switches 12 0 root_only 0 ≠ 0 ∧
    (∀ k : Nat, quantize_voltage_wrapped 16 (6 + k) 32500 root_only = some (-32536)) ∧
    (∀ k : Nat, quantize_voltage_wrapped 16 (7 + k) (-32536) root_only = some (-32000)) ∧
    (∀ k : Nat, quantize_voltage (6 + k) 32500 root_only = some 33000) := by
  refine ⟨by decide, by decide, by decide, fun k => ?_, fun k => ?_, fun k => ?_⟩
  · exact quantize_voltage_wrapped_more_fuel 16 6 k 32500 root_only _
      (by rw [quantize_voltage_wrapped_eq_int]; decide)
  · exact quantize_voltage_wrapped_more_fuel 16 7 k (-32536) root_only _
      (by rw [quantize_voltage_wrapped_eq_int]; decide)
  · rw [quantize_voltage, quantize_voltage_run_more_fuel 6 k 32500 root_only
      ⟨33000, true, 5, [6, 7, 5, 8, 4, 9, 3, 10, 2, 11, 1, 0]⟩
      (by rw [quantize_voltage_run_eq_int]; decide)]
    rfl

end Rasa
